import Mathlib

/-!
# Verification of the tic-tac-toe engine (`tic_tac_toe.py`)

Shallow embedding of the game-state representation, win/draw detection and
the three opponent strategies (random, heuristic/medium, optimal/hard with
minimax and alpha-beta pruning) of the source file, together with proofs of
the specified properties.

Conventions of the embedding:
* A cell holds `" "`, `"X"` or `"O"`; we model this by the inductive type
  `Cell` with constructors `E`, `X`, `O`.
* The 3×3 grid `self.board` (a list of three lists of three cells) is
  modelled as a total function `Fin 3 → Fin 3 → Cell`; `board[r][c] = s`
  becomes `setCell b r c s`.
* Python methods that mutate `self.board` temporarily (the win/block probes
  of the heuristic and the place/undo pattern of minimax) are modelled in
  state-passing style: they return the final board next to their result, so
  that the restore discipline is a provable statement.
* The recursion of `minimax` is bounded in the source by the board filling
  up; the embedding makes this explicit with a fuel parameter.  All entry
  points pass fuel `9` (an upper bound on the number of empty cells), and
  fuel-irrelevance above the empty-cell count is proved.
* `random.choice` is modelled by an explicit choice oracle `pick` supplied
  as a parameter; `random.choice` on an empty list raises `IndexError`,
  modelled by `PyError.indexError`.
* `sys.maxsize` is the CPython 64-bit value `2^63 - 1`.
-/

/-- A cell of the grid: `" "`, `"X"` or `"O"` in the source. -/
inductive Cell : Type
  | E : Cell
  | X : Cell
  | O : Cell
deriving DecidableEq, Repr, Fintype

/-- The 3×3 grid `self.board`, indexed as `board[row][col]`. -/
def Board : Type := Fin 3 → Fin 3 → Cell

instance : DecidableEq Board := by unfold Board; infer_instance

/-- `self.board = [[" " for _ in range(3)] for _ in range(3)]`. -/
def emptyBoard : Board := fun _ _ => Cell.E

/-- `self.board[row][col] = s`. -/
def setCell (b : Board) (r c : Fin 3) (s : Cell) : Board :=
  fun i j => if i = r ∧ j = c then s else b i j

/-- Build a board from its nine cells, row-major. -/
def mkBoard (a00 a01 a02 a10 a11 a12 a20 a21 a22 : Cell) : Board :=
  fun i j =>
    match i, j with
    | 0, 0 => a00
    | 0, 1 => a01
    | 0, 2 => a02
    | 1, 0 => a10
    | 1, 1 => a11
    | 1, 2 => a12
    | 2, 0 => a20
    | 2, 1 => a21
    | 2, 2 => a22

/-- `range(3)` as used by the row/column loops. -/
def range3 : List (Fin 3) := [0, 1, 2]

/-- The row-major list of the nine coordinates, the iteration order of
`for row in range(3): for col in range(3)`. -/
def coords : List (Fin 3 × Fin 3) :=
  range3.flatMap (fun r => range3.map (fun c => (r, c)))

/-- The 8 lines of `check_winner`: rows 0,1,2, then columns 0,1,2, then the
main diagonal, then the anti-diagonal (`board[i][2-i]`). -/
def lines (b : Board) : List (List Cell) :=
  [[b 0 0, b 0 1, b 0 2],
   [b 1 0, b 1 1, b 1 2],
   [b 2 0, b 2 1, b 2 2],
   [b 0 0, b 1 0, b 2 0],
   [b 0 1, b 1 1, b 2 1],
   [b 0 2, b 1 2, b 2 2],
   [b 0 0, b 1 1, b 2 2],
   [b 0 2, b 1 1, b 2 0]]

/-- `line.count(line[0]) == 3 and line[0] != " "`, the per-line test of
`check_winner`, returning the winning symbol. -/
def lineWinner (l : List Cell) : Option Cell :=
  match l with
  | [] => none
  | s :: _ => if (s :: l.tail).count s = 3 ∧ s ≠ Cell.E then some s else none

/-- The loop `for line in lines: if ...: return line[0]` of `check_winner`. -/
def firstWinner : List (List Cell) → Option Cell
  | [] => none
  | l :: rest =>
    match lineWinner l with
    | some s => some s
    | none => firstWinner rest

/-- `check_winner`: scan the 8 lines in order; return the symbol of the
first line whose three cells hold the same non-empty symbol, else `None`. -/
def check_winner (b : Board) : Option Cell :=
  firstWinner (lines b)

/-- `is_full`: `all(cell != " " for row in self.board for cell in row)`. -/
def is_full (b : Board) : Bool :=
  coords.all (fun rc => b rc.1 rc.2 ≠ Cell.E)

/-- The game errors raised by `make_move` (`InvalidMoveError` with its two
distinct messages). -/
inductive InvalidMove : Type
  /-- `InvalidMoveError("Row or column is out of bounds")`. -/
  | outOfBounds : InvalidMove
  /-- `InvalidMoveError("Spot is already taken")`. -/
  | cellOccupied : InvalidMove
deriving DecidableEq, Repr

/-- The object state of class `TicTacToe` relevant to the verified core:
`board`, `current_player`, `player_symbol`, `npc_symbol`.  The lock, the
logging configuration and the difficulty string only concern the excluded
collaborators. -/
structure TicTacToe : Type where
  board : Board
  current_player : Cell
  player_symbol : Cell
  npc_symbol : Cell
deriving DecidableEq

/-- `TicTacToe.__init__`: empty board, `"X"` to move, human `"X"`,
npc `"O"`. -/
def initGame : TicTacToe :=
  { board := emptyBoard
    current_player := Cell.X
    player_symbol := Cell.X
    npc_symbol := Cell.O }

/-- `make_move(row, col)`: raise `OutOfBounds` unless
`0 <= row < 3 and 0 <= col < 3`; raise `CellOccupied` if the target cell is
not empty; otherwise write `current_player` into the cell and return
`True`.  The state is returned next to the result; an exception leaves it
untouched. -/
def make_move (st : TicTacToe) (row col : Int) :
    Except InvalidMove Bool × TicTacToe :=
  if h : 0 ≤ row ∧ row < 3 ∧ 0 ≤ col ∧ col < 3 then
    let r : Fin 3 := ⟨row.toNat, by omega⟩
    let c : Fin 3 := ⟨col.toNat, by omega⟩
    if st.board r c ≠ Cell.E then
      (Except.error InvalidMove.cellOccupied, st)
    else
      (Except.ok true, { st with board := setCell st.board r c st.current_player })
  else
    (Except.error InvalidMove.outOfBounds, st)

/-- `switch_player`: `current_player = npc if current == player else player`. -/
def switch_player (st : TicTacToe) : TicTacToe :=
  { st with
    current_player :=
      if st.current_player = st.player_symbol then st.npc_symbol
      else st.player_symbol }

/-- The comprehension
`[(r, c) for r in range(3) for c in range(3) if self.board[r][c] == " "]`. -/
def available_moves (b : Board) : List (Fin 3 × Fin 3) :=
  coords.filter (fun rc => b rc.1 rc.2 = Cell.E)

/-- Errors of the Python runtime observable from the strategies.
`noLegalMoves` is modelled from the spec (§7 names a `NoLegalMoves` error
kind); no code path of the source produces it, which is the subject of one
of the claims. -/
inductive PyError : Type
  /-- `IndexError`, raised by `random.choice` on an empty sequence. -/
  | indexError : PyError
  /-- Modelled from the spec: the `NoLegalMoves` contract error of §7. -/
  | noLegalMoves : PyError
deriving DecidableEq, Repr

instance instDecEqExcept {e a : Type} [DecidableEq e] [DecidableEq a] :
    DecidableEq (Except e a) := fun x y =>
  match x, y with
  | Except.error u, Except.error v =>
    match decEq u v with
    | isTrue h => isTrue (h ▸ rfl)
    | isFalse h => isFalse (fun hh => h (by injection hh))
  | Except.ok u, Except.ok v =>
    match decEq u v with
    | isTrue h => isTrue (h ▸ rfl)
    | isFalse h => isFalse (fun hh => h (by injection hh))
  | Except.error _, Except.ok _ => isFalse (fun hh => Except.noConfusion hh)
  | Except.ok _, Except.error _ => isFalse (fun hh => Except.noConfusion hh)

/-- `random_move`: `random.choice(available_moves)`.  The random source is
the oracle `pick`; on an empty candidate list `random.choice` raises
`IndexError`. -/
def random_move (pick : List (Fin 3 × Fin 3) → Fin 3 × Fin 3) (b : Board) :
    Except PyError (Fin 3 × Fin 3) :=
  let avail := available_moves b
  if avail = [] then Except.error PyError.indexError
  else Except.ok (pick avail)

/-- The loop body of `find_best_move(symbol)`: scan the cells row-major;
on each empty cell place `symbol`, test `check_winner() == symbol`, undo
the placement, and return the cell on success.  Returns the final board
next to the result. -/
def findBestLoop (b : Board) (symbol : Cell) :
    List (Fin 3 × Fin 3) → Option (Fin 3 × Fin 3) × Board
  | [] => (none, b)
  | rc :: rest =>
    if b rc.1 rc.2 = Cell.E then
      let b1 := setCell b rc.1 rc.2 symbol
      if check_winner b1 = some symbol then
        (some rc, setCell b1 rc.1 rc.2 Cell.E)
      else
        findBestLoop (setCell b1 rc.1 rc.2 Cell.E) symbol rest
    else
      findBestLoop b symbol rest

/-- `find_best_move(symbol)`. -/
def find_best_move (b : Board) (symbol : Cell) :
    Option (Fin 3 × Fin 3) × Board :=
  findBestLoop b symbol coords

/-- The corner candidates `[(0,0), (0,2), (2,0), (2,2)]`. -/
def cornersList : List (Fin 3 × Fin 3) := [(0, 0), (0, 2), (2, 0), (2, 2)]

/-- The side candidates `[(0,1), (1,0), (1,2), (2,1)]`. -/
def sidesList : List (Fin 3 × Fin 3) := [(0, 1), (1, 0), (1, 2), (2, 1)]

/-- `medium_move` for the strategy symbol `npc` against `player`:
win probe, block probe, center, random empty corner, random empty side,
fallback to `random_move`.  Returns the final board next to the result. -/
def medium_move (pick : List (Fin 3 × Fin 3) → Fin 3 × Fin 3)
    (npc player : Cell) (b : Board) :
    Except PyError (Fin 3 × Fin 3) × Board :=
  let win := find_best_move b npc
  match win.1 with
  | some m => (Except.ok m, win.2)
  | none =>
    let block := find_best_move win.2 player
    match block.1 with
    | some m => (Except.ok m, block.2)
    | none =>
      let b2 := block.2
      if b2 1 1 = Cell.E then (Except.ok (1, 1), b2)
      else
        let availCorners := cornersList.filter (fun rc => b2 rc.1 rc.2 = Cell.E)
        if availCorners ≠ [] then (Except.ok (pick availCorners), b2)
        else
          let availSides := sidesList.filter (fun rc => b2 rc.1 rc.2 = Cell.E)
          if availSides ≠ [] then (Except.ok (pick availSides), b2)
          else (random_move pick b2, b2)

/-- `sys.maxsize` on CPython for a 64-bit platform. -/
def maxsize : Int := 9223372036854775807

/-- The inner loop `for col in range(3)` of the maximizing branch: place
`npc`, recurse as minimizing (through the continuation `mm`, the recursive
`minimax` call one fuel level down), undo, update `max_eval` and `alpha`,
and `break` once `beta <= alpha`.  Returns `(max_eval, (alpha, board))`. -/
def maxCols (mm : Nat → Bool → Int → Int → Board → Int × Board)
    (npc : Cell) (depth : Nat) (r : Fin 3) :
    List (Fin 3) → Int → Int → Int → Board → Int × Int × Board
  | [], max_eval, alpha, _, b => (max_eval, alpha, b)
  | c :: rest, max_eval, alpha, beta, b =>
    if b r c = Cell.E then
      let b1 := setCell b r c npc
      let res := mm (depth + 1) false alpha beta b1
      let b2 := setCell res.2 r c Cell.E
      let max_eval1 := max max_eval res.1
      let alpha1 := max alpha res.1
      if beta ≤ alpha1 then (max_eval1, alpha1, b2)
      else maxCols mm npc depth r rest max_eval1 alpha1 beta b2
    else
      maxCols mm npc depth r rest max_eval alpha beta b

/-- The outer loop `for row in range(3)` of the maximizing branch.  The
`break` of the source exits only the inner column loop, so the outer loop
always continues with the next row, carrying `max_eval` and `alpha`. -/
def maxRows (mm : Nat → Bool → Int → Int → Board → Int × Board)
    (npc : Cell) (depth : Nat) :
    List (Fin 3) → Int → Int → Int → Board → Int × Board
  | [], max_eval, _, _, b => (max_eval, b)
  | r :: rest, max_eval, alpha, beta, b =>
    let inner := maxCols mm npc depth r range3 max_eval alpha beta b
    maxRows mm npc depth rest inner.1 inner.2.1 beta inner.2.2

/-- The inner loop `for col in range(3)` of the minimizing branch: place
`player`, recurse as maximizing, undo, update `min_eval` and `beta`, and
`break` once `beta <= alpha`.  Returns `(min_eval, (beta, board))`. -/
def minCols (mm : Nat → Bool → Int → Int → Board → Int × Board)
    (player : Cell) (depth : Nat) (r : Fin 3) :
    List (Fin 3) → Int → Int → Int → Board → Int × Int × Board
  | [], min_eval, _, beta, b => (min_eval, beta, b)
  | c :: rest, min_eval, alpha, beta, b =>
    if b r c = Cell.E then
      let b1 := setCell b r c player
      let res := mm (depth + 1) true alpha beta b1
      let b2 := setCell res.2 r c Cell.E
      let min_eval1 := min min_eval res.1
      let beta1 := min beta res.1
      if beta1 ≤ alpha then (min_eval1, beta1, b2)
      else minCols mm player depth r rest min_eval1 alpha beta1 b2
    else
      minCols mm player depth r rest min_eval alpha beta b

/-- The outer loop `for row in range(3)` of the minimizing branch. -/
def minRows (mm : Nat → Bool → Int → Int → Board → Int × Board)
    (player : Cell) (depth : Nat) :
    List (Fin 3) → Int → Int → Int → Board → Int × Board
  | [], min_eval, _, _, b => (min_eval, b)
  | r :: rest, min_eval, alpha, beta, b =>
    let inner := minCols mm player depth r range3 min_eval alpha beta b
    minRows mm player depth rest inner.1 alpha inner.2.1 inner.2.2

/-- `minimax(depth, is_maximizing, alpha, beta)` with explicit fuel and
board threading.  The `if/elif` chain of the source: a win for
`npc_symbol` scores `10 - depth`, a win for `player_symbol` scores
`depth - 10`, a full board scores `0`; otherwise the two nested loops run,
recursing one fuel level down.  Fuel `0` is only reached on terminal
boards when the fuel dominates the number of empty cells; there the
non-terminal (unreachable) fall-through returns `0`. -/
def minimax (npc player : Cell) :
    Nat → Nat → Bool → Int → Int → Board → Int × Board
  | 0, depth, _, _, _, b =>
    let winner := check_winner b
    if winner = some npc then (10 - (depth : Int), b)
    else if winner = some player then ((depth : Int) - 10, b)
    else ((0 : Int), b)
  | fuel + 1, depth, is_maximizing, alpha, beta, b =>
    let winner := check_winner b
    if winner = some npc then (10 - (depth : Int), b)
    else if winner = some player then ((depth : Int) - 10, b)
    else if is_full b then ((0 : Int), b)
    else if is_maximizing then
      maxRows (minimax npc player fuel) npc depth range3 (-maxsize) alpha beta b
    else
      minRows (minimax npc player fuel) player depth range3 maxsize alpha beta b

/-- The selection loop of `hard_move`: for each empty cell place `npc`,
score it with `minimax(0, False, -maxsize, maxsize)`, undo, and keep the
strictly best cell.  Returns `(best_score, best_move, board)`. -/
def hardLoop (npc player : Cell) :
    List (Fin 3 × Fin 3) → Int → Option (Fin 3 × Fin 3) → Board →
    Int × Option (Fin 3 × Fin 3) × Board
  | [], best_score, best_move, b => (best_score, best_move, b)
  | rc :: rest, best_score, best_move, b =>
    if b rc.1 rc.2 = Cell.E then
      let b1 := setCell b rc.1 rc.2 npc
      let res := minimax npc player 9 0 false (-maxsize) maxsize b1
      let b2 := setCell res.2 rc.1 rc.2 Cell.E
      if best_score < res.1 then
        hardLoop npc player rest res.1 (some rc) b2
      else
        hardLoop npc player rest best_score best_move b2
    else
      hardLoop npc player rest best_score best_move b

/-- `hard_move`: scan the cells row-major, score each empty cell, return
the strictly best one (`None` on a full board). -/
def hard_move (npc player : Cell) (b : Board) :
    Option (Fin 3 × Fin 3) × Board :=
  let res := hardLoop npc player coords (-maxsize) none b
  (res.2.1, res.2.2)

/-! ## Value-level mirrors of the search

The threaded definitions above return the final board next to the value so
that the restore discipline of the source is provable.  For reasoning
about the values themselves it is convenient to have undo-free mirrors
(the child simply receives the functionally updated board); the two are
proved equal below. -/

/-- Number of empty cells of a board. -/
def emptyCount (b : Board) : Nat :=
  coords.countP (fun rc => b rc.1 rc.2 = Cell.E)

/-- Value-level inner maximizing loop; returns `(max_eval, alpha)`. -/
def maxColsV (mm : Nat → Bool → Int → Int → Board → Int)
    (npc : Cell) (depth : Nat) (r : Fin 3) :
    List (Fin 3) → Int → Int → Int → Board → Int × Int
  | [], max_eval, alpha, _, _ => (max_eval, alpha)
  | c :: rest, max_eval, alpha, beta, b =>
    if b r c = Cell.E then
      let ev := mm (depth + 1) false alpha beta (setCell b r c npc)
      let max_eval1 := max max_eval ev
      let alpha1 := max alpha ev
      if beta ≤ alpha1 then (max_eval1, alpha1)
      else maxColsV mm npc depth r rest max_eval1 alpha1 beta b
    else
      maxColsV mm npc depth r rest max_eval alpha beta b

/-- Value-level outer maximizing loop. -/
def maxRowsV (mm : Nat → Bool → Int → Int → Board → Int)
    (npc : Cell) (depth : Nat) :
    List (Fin 3) → Int → Int → Int → Board → Int
  | [], max_eval, _, _, _ => max_eval
  | r :: rest, max_eval, alpha, beta, b =>
    let inner := maxColsV mm npc depth r range3 max_eval alpha beta b
    maxRowsV mm npc depth rest inner.1 inner.2 beta b

/-- Value-level inner minimizing loop; returns `(min_eval, beta)`. -/
def minColsV (mm : Nat → Bool → Int → Int → Board → Int)
    (player : Cell) (depth : Nat) (r : Fin 3) :
    List (Fin 3) → Int → Int → Int → Board → Int × Int
  | [], min_eval, _, beta, _ => (min_eval, beta)
  | c :: rest, min_eval, alpha, beta, b =>
    if b r c = Cell.E then
      let ev := mm (depth + 1) true alpha beta (setCell b r c player)
      let min_eval1 := min min_eval ev
      let beta1 := min beta ev
      if beta1 ≤ alpha then (min_eval1, beta1)
      else minColsV mm player depth r rest min_eval1 alpha beta1 b
    else
      minColsV mm player depth r rest min_eval alpha beta b

/-- Value-level outer minimizing loop. -/
def minRowsV (mm : Nat → Bool → Int → Int → Board → Int)
    (player : Cell) (depth : Nat) :
    List (Fin 3) → Int → Int → Int → Board → Int
  | [], min_eval, _, _, _ => min_eval
  | r :: rest, min_eval, alpha, beta, b =>
    let inner := minColsV mm player depth r range3 min_eval alpha beta b
    minRowsV mm player depth rest inner.1 alpha inner.2 b

/-- Value level of `minimax`. -/
def abVal (npc player : Cell) : Nat → Nat → Bool → Int → Int → Board → Int
  | 0, depth, _, _, _, b =>
    let winner := check_winner b
    if winner = some npc then 10 - (depth : Int)
    else if winner = some player then (depth : Int) - 10
    else 0
  | fuel + 1, depth, is_maximizing, alpha, beta, b =>
    let winner := check_winner b
    if winner = some npc then 10 - (depth : Int)
    else if winner = some player then (depth : Int) - 10
    else if is_full b then 0
    else if is_maximizing then
      maxRowsV (abVal npc player fuel) npc depth range3 (-maxsize) alpha beta b
    else
      minRowsV (abVal npc player fuel) player depth range3 maxsize alpha beta b

/-- Value level of the selection loop of `hard_move`; returns
`(best_score, best_move)`. -/
def hardLoopV (npc player : Cell) (b : Board) :
    List (Fin 3 × Fin 3) → Int → Option (Fin 3 × Fin 3) →
    Int × Option (Fin 3 × Fin 3)
  | [], best_score, best_move => (best_score, best_move)
  | rc :: rest, best_score, best_move =>
    if b rc.1 rc.2 = Cell.E then
      let score := abVal npc player 9 0 false (-maxsize) maxsize
        (setCell b rc.1 rc.2 npc)
      if best_score < score then hardLoopV npc player b rest score (some rc)
      else hardLoopV npc player b rest best_score best_move
    else
      hardLoopV npc player b rest best_score best_move

/-- Value level of `hard_move`. -/
def hardBest (npc player : Cell) (b : Board) :
    Int × Option (Fin 3 × Fin 3) :=
  hardLoopV npc player b coords (-maxsize) none

/-! ## The search without the pruning cutoffs

`plainVal` is `minimax` with the two `if beta <= alpha: break` statements
removed (the claims call this plain minimax).  Without the cutoffs the
nested row/column loops visit every empty cell, so they collapse to a
row-major fold, and `alpha`/`beta` are dead variables. -/

/-- Plain (unpruned) minimax value, the comparison object for the
alpha-beta search. -/
def plainVal (npc player : Cell) : Nat → Nat → Bool → Board → Int
  | 0, depth, _, b =>
    let winner := check_winner b
    if winner = some npc then 10 - (depth : Int)
    else if winner = some player then (depth : Int) - 10
    else 0
  | fuel + 1, depth, is_maximizing, b =>
    let winner := check_winner b
    if winner = some npc then 10 - (depth : Int)
    else if winner = some player then (depth : Int) - 10
    else if is_full b then 0
    else if is_maximizing then
      coords.foldl
        (fun acc rc =>
          if b rc.1 rc.2 = Cell.E then
            max acc (plainVal npc player fuel (depth + 1) false
              (setCell b rc.1 rc.2 npc))
          else acc)
        (-maxsize)
    else
      coords.foldl
        (fun acc rc =>
          if b rc.1 rc.2 = Cell.E then
            min acc (plainVal npc player fuel (depth + 1) true
              (setCell b rc.1 rc.2 player))
          else acc)
        maxsize

/-- `hard_move` driven by the unpruned search: same row-major scan, same
strict-improvement selection, scores from `plainVal`. -/
def hardBestPlain (npc player : Cell) (b : Board) :
    Int × Option (Fin 3 × Fin 3) :=
  coords.foldl
    (fun best rc =>
      if b rc.1 rc.2 = Cell.E then
        let score := plainVal npc player 9 0 false (setCell b rc.1 rc.2 npc)
        if best.1 < score then (score, some rc) else best
      else best)
    (-maxsize, none)

/-! ## Game-theoretic value -/

/-- The game value of a board for the side `me` against `opp`, with
`myTurn` telling whose move it is: `1` when `me` can force a win, `0` when
`me` can force at least a draw but not a win, `-1` when `opp` can force a
win.  Terminal boards score by their winner. -/
def valFor (me opp : Cell) : Nat → Bool → Board → Int
  | 0, _, b =>
    match check_winner b with
    | some w => if w = me then 1 else -1
    | none => 0
  | fuel + 1, myTurn, b =>
    match check_winner b with
    | some w => if w = me then 1 else -1
    | none =>
      if is_full b then 0
      else if myTurn then
        coords.foldl
          (fun acc rc =>
            if b rc.1 rc.2 = Cell.E then
              max acc (valFor me opp fuel false (setCell b rc.1 rc.2 me))
            else acc)
          (-1)
      else
        coords.foldl
          (fun acc rc =>
            if b rc.1 rc.2 = Cell.E then
              min acc (valFor me opp fuel true (setCell b rc.1 rc.2 opp))
            else acc)
          1

/-- Integer sign. -/
def sgn (v : Int) : Int :=
  if 0 < v then 1 else if v < 0 then -1 else 0

/-! ## Outcome -/

/-- The game outcome as derived by the controller after each move:
a winner ends the game, a full board without winner is a tie, otherwise
play continues. -/
inductive Outcome : Type
  | inProgress : Outcome
  | draw : Outcome
  | win : Cell → Outcome
deriving DecidableEq, Repr

/-- The outcome test of `play_game` after a move: `check_winner()` first,
then `is_full()`. -/
def evaluate (b : Board) : Outcome :=
  match check_winner b with
  | some w => Outcome.win w
  | none => if is_full b then Outcome.draw else Outcome.inProgress

/-- The coordinate triples of the 8 lines, in the scan order of
`check_winner`: rows 0,1,2, columns 0,1,2, main diagonal, anti-diagonal. -/
def lineCoords : Fin 8 → (Fin 3 × Fin 3) × (Fin 3 × Fin 3) × (Fin 3 × Fin 3)
  | 0 => ((0, 0), (0, 1), (0, 2))
  | 1 => ((1, 0), (1, 1), (1, 2))
  | 2 => ((2, 0), (2, 1), (2, 2))
  | 3 => ((0, 0), (1, 0), (2, 0))
  | 4 => ((0, 1), (1, 1), (2, 1))
  | 5 => ((0, 2), (1, 2), (2, 2))
  | 6 => ((0, 0), (1, 1), (2, 2))
  | 7 => ((0, 2), (1, 1), (2, 0))

/-- Read a cell through a coordinate pair. -/
def cellAtPair (b : Board) (rc : Fin 3 × Fin 3) : Cell := b rc.1 rc.2

/-- Spec-side winner of line `i`: `some s` iff the three cells of the line
all hold the same non-empty symbol `s`. -/
def winAt (b : Board) (i : Fin 8) : Option Cell :=
  if cellAtPair b (lineCoords i).2.1 = cellAtPair b (lineCoords i).1 ∧
      cellAtPair b (lineCoords i).2.2 = cellAtPair b (lineCoords i).1 ∧
      cellAtPair b (lineCoords i).1 ≠ Cell.E then
    some (cellAtPair b (lineCoords i).1)
  else none

/-- Number of cells holding symbol `s`. -/
def countSym (b : Board) (s : Cell) : Nat :=
  coords.countP (fun rc => b rc.1 rc.2 = s)

/-- A deterministic stand-in for `random.choice`: the head of the
candidate list.  Any function of this type is a legitimate model of the
random source; this one is used for concrete witnesses. -/
def headPick (l : List (Fin 3 × Fin 3)) : Fin 3 × Fin 3 :=
  l.headD ((0 : Fin 3), (0 : Fin 3))

/-- Game states reachable from the initial state through the controlled
mutation path of the source: a successful `make_move` for the current
player followed by `switch_player`. -/
inductive Reach : TicTacToe → Prop where
  | init : Reach initGame
  | step (st : TicTacToe) (row col : Int) (st2 : TicTacToe) :
      Reach st →
      make_move st row col = (Except.ok true, st2) →
      Reach (switch_player st2)

/-- A concrete full board with no winner. -/
def fullBoardNoWin : Board :=
  mkBoard Cell.X Cell.O Cell.X Cell.O Cell.X Cell.O Cell.O Cell.X Cell.O

/-- The win/block probe condition of `find_best_move`: the cell is empty
and placing `sym` there makes `check_winner` report `sym`. -/
def winProbe (b : Board) (sym : Cell) (rc : Fin 3 × Fin 3) : Bool :=
  decide (b rc.1 rc.2 = Cell.E) &&
    decide (check_winner (setCell b rc.1 rc.2 sym) = some sym)

/-- The unpruned inner fold of the maximizing layer over one row. -/
def foldMaxIf (b : Board) (r : Fin 3) (v : Fin 3 → Int)
    (cols : List (Fin 3)) (acc : Int) : Int :=
  cols.foldl (fun a c => if b r c = Cell.E then max a (v c) else a) acc

/-- The unpruned outer fold of the maximizing layer. -/
def foldMaxIf2 (b : Board) (v : Fin 3 → Fin 3 → Int)
    (rows : List (Fin 3)) (acc : Int) : Int :=
  rows.foldl (fun a r => foldMaxIf b r (v r) range3 a) acc

/-- The unpruned inner fold of the minimizing layer over one row. -/
def foldMinIf (b : Board) (r : Fin 3) (v : Fin 3 → Int)
    (cols : List (Fin 3)) (acc : Int) : Int :=
  cols.foldl (fun a c => if b r c = Cell.E then min a (v c) else a) acc

/-- The unpruned outer fold of the minimizing layer. -/
def foldMinIf2 (b : Board) (v : Fin 3 → Fin 3 → Int)
    (rows : List (Fin 3)) (acc : Int) : Int :=
  rows.foldl (fun a r => foldMinIf b r (v r) range3 a) acc

/-- The score `hard_move` computes for a candidate cell: place `npc` and
run the alpha-beta search from the minimizing perspective at depth 0 with
the widest window. -/
def hardScore (npc player : Cell) (b : Board) (rc : Fin 3 × Fin 3) : Int :=
  abVal npc player 9 0 false (-maxsize) maxsize (setCell b rc.1 rc.2 npc)

/-! ## A certificate drawing strategy

To establish the game-theoretic value of the empty board without running
the full search inside the kernel, we exhibit a cheap rule-based strategy
and check by finite game-tree evaluation that it never loses, from either
seat.  The strategy is only a certificate: no claim depends on its rules,
only on the checked fact. -/

/-- The 8 line coordinate triples as a plain list. -/
def linesCoordList :
    List ((Fin 3 × Fin 3) × (Fin 3 × Fin 3) × (Fin 3 × Fin 3)) :=
  [((0, 0), (0, 1), (0, 2)),
   ((1, 0), (1, 1), (1, 2)),
   ((2, 0), (2, 1), (2, 2)),
   ((0, 0), (1, 0), (2, 0)),
   ((0, 1), (1, 1), (2, 1)),
   ((0, 2), (1, 2), (2, 2)),
   ((0, 0), (1, 1), (2, 2)),
   ((0, 2), (1, 1), (2, 0))]

/-- An empty cell completing a line for `s`, if any. -/
def winCellFor (s : Cell) (b : Board) : Option (Fin 3 × Fin 3) :=
  (linesCoordList.filterMap (fun t =>
    if b t.1.1 t.1.2 = s ∧ b t.2.1.1 t.2.1.2 = s ∧
        b t.2.2.1 t.2.2.2 = Cell.E then some t.2.2
    else if b t.1.1 t.1.2 = s ∧ b t.2.2.1 t.2.2.2 = s ∧
        b t.2.1.1 t.2.1.2 = Cell.E then some t.2.1
    else if b t.2.1.1 t.2.1.2 = s ∧ b t.2.2.1 t.2.2.2 = s ∧
        b t.1.1 t.1.2 = Cell.E then some t.1
    else none)).head?

/-- Centre, corners, then sides. -/
def prioCCS : List (Fin 3 × Fin 3) :=
  [(1, 1), (0, 0), (2, 2), (0, 2), (2, 0), (0, 1), (1, 0), (1, 2), (2, 1)]

/-- Centre, sides, then corners. -/
def prioEdge : List (Fin 3 × Fin 3) :=
  [(1, 1), (0, 1), (1, 0), (1, 2), (2, 1), (0, 0), (2, 2), (0, 2), (2, 0)]

/-- The opponent holds two opposite corners. -/
def oppositeCornerTrap (opp : Cell) (b : Board) : Bool :=
  (decide (b 0 0 = opp) && decide (b 2 2 = opp)) ||
  (decide (b 0 2 = opp) && decide (b 2 0 = opp))

/-- Number of lines with two `s` cells and one empty cell. -/
def threatCount (s : Cell) (b : Board) : Nat :=
  linesCoordList.countP (fun t =>
    ((decide (b t.1.1 t.1.2 = s) && decide (b t.2.1.1 t.2.1.2 = s) &&
        decide (b t.2.2.1 t.2.2.2 = Cell.E)) ||
     (decide (b t.1.1 t.1.2 = s) && decide (b t.2.2.1 t.2.2.2 = s) &&
        decide (b t.2.1.1 t.2.1.2 = Cell.E)) ||
     (decide (b t.2.1.1 t.2.1.2 = s) && decide (b t.2.2.1 t.2.2.2 = s) &&
        decide (b t.1.1 t.1.2 = Cell.E))))

/-- Empty cells where placing `s` would create a double threat. -/
def forkCells (s : Cell) (b : Board) : List (Fin 3 × Fin 3) :=
  (available_moves b).filter
    (fun rc => decide (2 ≤ threatCount s (setCell b rc.1 rc.2 s)))

/-- The certificate strategy: win, block, centre, an edge against the
opposite-corner trap, block a fork, then centre/corner/side priority. -/
def safeStrat (me opp : Cell) (b : Board) : Fin 3 × Fin 3 :=
  match winCellFor me b with
  | some m => m
  | none =>
    match winCellFor opp b with
    | some m => m
    | none =>
      if b 1 1 = Cell.E then (1, 1)
      else if oppositeCornerTrap opp b then
        match prioEdge.find? (fun rc => decide (b rc.1 rc.2 = Cell.E)) with
        | some m => m
        | none => (0, 0)
      else
        match forkCells opp b with
        | m :: _ => m
        | [] =>
          match prioCCS.find? (fun rc => decide (b rc.1 rc.2 = Cell.E)) with
          | some m => m
          | none => (0, 0)

/-- Finite safety check: playing `strat` for `me` from `b` (with `myTurn`
telling whose move it is), against every legal reply of `opp`, the
opponent never completes a line. -/
def safeCheck (me opp : Cell) (strat : Board → Fin 3 × Fin 3) :
    Nat → Bool → Board → Bool
  | 0, _, b =>
    match check_winner b with
    | some w => decide (w ≠ opp)
    | none => true
  | f + 1, myTurn, b =>
    match check_winner b with
    | some w => decide (w ≠ opp)
    | none =>
      if is_full b then true
      else if myTurn then
        let m := strat b
        decide (b m.1 m.2 = Cell.E) &&
          safeCheck me opp strat f false (setCell b m.1 m.2 me)
      else
        coords.all (fun rc =>
          if b rc.1 rc.2 = Cell.E then
            safeCheck me opp strat f true (setCell b rc.1 rc.2 opp)
          else true)

/-- The move function induced by `hard_move`: the returned cell, with a
dummy default on the `None` of a full board. -/
def hardStrat (npc player : Cell) (b : Board) : Fin 3 × Fin 3 :=
  match (hard_move npc player b).1 with
  | some m => m
  | none => ((0 : Fin 3), (0 : Fin 3))

/-- The alternating game loop of `play_game`, with both seats driven by a
strategy: terminal test as in the controller (winner, then full board),
then the mover's strategy is consulted; a move onto a taken cell leaves
the loop stuck (`inProgress`), mirroring the retry of the source. -/
def runGame (sA sB : Board → Fin 3 × Fin 3) (symA symB : Cell) :
    Nat → Bool → Board → Outcome
  | 0, _, b => evaluate b
  | f + 1, true, b =>
    match evaluate b with
    | Outcome.inProgress =>
      if b (sA b).1 (sA b).2 = Cell.E then
        runGame sA sB symA symB f false (setCell b (sA b).1 (sA b).2 symA)
      else Outcome.inProgress
    | o => o
  | f + 1, false, b =>
    match evaluate b with
    | Outcome.inProgress =>
      if b (sB b).1 (sB b).2 = Cell.E then
        runGame sA sB symA symB f true (setCell b (sB b).1 (sB b).2 symB)
      else Outcome.inProgress
    | o => o

/-- Play a list of `(row, col)` moves through `make_move`/`switch_player`,
failing if any move is rejected. -/
def playMoves : TicTacToe → List (Int × Int) → Option TicTacToe
  | st, [] => some st
  | st, m :: rest =>
    match make_move st m.1 m.2 with
    | (Except.ok true, st2) => playMoves (switch_player st2) rest
    | _ => none

/-- The board of the refuting position: X at `(0,0)`, `(1,1)`, `(2,0)`,
O at `(0,1)`, `(0,2)`, O (the hard side) to move.  X threatens both
`(1,0)` (left column) and `(2,2)` (main diagonal), so the position is
already lost for O. -/
def cexBoard : Board :=
  mkBoard Cell.X Cell.O Cell.O Cell.E Cell.X Cell.E Cell.X Cell.E Cell.E

/-- The refuting opponent: complete the left column at `(1,0)` if it is
still open, otherwise the main diagonal at `(2,2)`. -/
def cexOpp (b : Board) : Fin 3 × Fin 3 :=
  if b 1 0 = Cell.E then (1, 0) else (2, 2)

/-- The witness position for the amended claim: X to move at the single
empty cell `(2,2)`, which completes the main diagonal. -/
def c1wBoard : Board :=
  mkBoard Cell.X Cell.O Cell.X Cell.O Cell.X Cell.O Cell.O Cell.X Cell.E

/-! ## Basic board lemmas -/

theorem setCell_same (b : Board) (r c : Fin 3) (s : Cell) :
    setCell b r c s r c = s := by
  simp [setCell]

theorem setCell_ne (b : Board) (r c i j : Fin 3) (s : Cell)
    (h : ¬(i = r ∧ j = c)) : setCell b r c s i j = b i j := by
  simp [setCell, h]

theorem setCell_setCell (b : Board) (r c : Fin 3) (s t : Cell) :
    setCell (setCell b r c s) r c t = setCell b r c t := by
  funext i j
  by_cases h : i = r ∧ j = c <;> simp [setCell, h]

theorem setCell_restore (b : Board) (r c : Fin 3) (s : Cell)
    (h : b r c = Cell.E) :
    setCell (setCell b r c s) r c Cell.E = b := by
  funext i j
  by_cases hij : i = r ∧ j = c
  · obtain ⟨h1, h2⟩ := hij
    subst h1; subst h2
    simp [setCell, h]
  · simp [setCell, hij]

theorem boardEta (b : Board) :
    b = mkBoard (b 0 0) (b 0 1) (b 0 2) (b 1 0) (b 1 1) (b 1 2)
      (b 2 0) (b 2 1) (b 2 2) := by
  funext i j
  fin_cases i <;> fin_cases j <;> rfl

theorem emptyCount_le_nine (b : Board) : emptyCount b ≤ 9 := by
  have h : coords.countP (fun rc => decide (b rc.1 rc.2 = Cell.E)) ≤
      coords.length :=
    List.countP_le_length _
  simpa [emptyCount, coords, range3] using h

theorem coords_eq :
    coords = [(0, 0), (0, 1), (0, 2), (1, 0), (1, 1), (1, 2),
      (2, 0), (2, 1), (2, 2)] := rfl

theorem countP_setCell_aux (b : Board) (r c : Fin 3) (s : Cell)
    (hE : b r c = Cell.E) (hs : s ≠ Cell.E) :
    ∀ l : List (Fin 3 × Fin 3), l.Nodup → (r, c) ∈ l →
      l.countP (fun rc => setCell b r c s rc.1 rc.2 = Cell.E) + 1 =
      l.countP (fun rc => b rc.1 rc.2 = Cell.E) := by
  intro l
  induction l with
  | nil => intro _ hm; cases hm
  | cons a t ih =>
    intro hnd hm
    have hndt : t.Nodup := (List.nodup_cons.mp hnd).2
    by_cases ha : a = (r, c)
    · subst ha
      have hnotmem : (r, c) ∉ t := (List.nodup_cons.mp hnd).1
      have htail : t.countP (fun rc => setCell b r c s rc.1 rc.2 = Cell.E) =
          t.countP (fun rc => b rc.1 rc.2 = Cell.E) := by
        apply List.countP_congr
        intro rc hrc
        have hne : rc ≠ (r, c) := by
          intro hrc2; exact hnotmem (hrc2 ▸ hrc)
        have hcell : setCell b r c s rc.1 rc.2 = b rc.1 rc.2 := by
          apply setCell_ne
          intro hand
          exact hne (Prod.ext hand.1 hand.2)
        simp [hcell]
      simp only [List.countP_cons, setCell_same, htail]
      simp [hs, hE]
    · have hm2 : (r, c) ∈ t := by
        rcases List.mem_cons.mp hm with h1 | h1
        · exact absurd h1.symm ha
        · exact h1
      have hcell : setCell b r c s a.1 a.2 = b a.1 a.2 := by
        apply setCell_ne
        intro hand
        exact ha (Prod.ext hand.1 hand.2)
      simp only [List.countP_cons, hcell]
      have := ih hndt hm2
      omega

theorem emptyCount_setCell (b : Board) (r c : Fin 3) (s : Cell)
    (hE : b r c = Cell.E) (hs : s ≠ Cell.E) :
    emptyCount (setCell b r c s) + 1 = emptyCount b := by
  have hnd : coords.Nodup := by decide
  have hm : (r, c) ∈ coords := by
    fin_cases r <;> fin_cases c <;> decide
  exact countP_setCell_aux b r c s hE hs coords hnd hm

/-! ## Winner characterization -/

theorem lineWinner_triple (x y z : Cell) :
    lineWinner [x, y, z] =
      if y = x ∧ z = x ∧ x ≠ Cell.E then some x else none := by
  revert x y z; decide

theorem winAt_some_iff (b : Board) (i : Fin 8) (w : Cell) :
    winAt b i = some w ↔
      cellAtPair b (lineCoords i).1 = w ∧
      cellAtPair b (lineCoords i).2.1 = w ∧
      cellAtPair b (lineCoords i).2.2 = w ∧ w ≠ Cell.E := by
  unfold winAt
  split
  · rename_i h
    constructor
    · intro hw
      injection hw with hw
      exact ⟨hw, hw ▸ h.1, hw ▸ h.2.1, hw ▸ h.2.2⟩
    · intro ⟨h1, _, _, _⟩
      exact congrArg some h1
  · rename_i h
    constructor
    · intro hw; cases hw
    · intro ⟨h1, h2, h3, h4⟩
      exact absurd ⟨h2.trans h1.symm, h3.trans h1.symm, h1 ▸ h4⟩ h

theorem firstWinner_none_iff (ls : List (List Cell)) :
    firstWinner ls = none ↔ ∀ l ∈ ls, lineWinner l = none := by
  induction ls with
  | nil => simp [firstWinner]
  | cons l rest ih =>
    unfold firstWinner
    cases hl : lineWinner l with
    | some s => simp [hl]
    | none => simp [hl, ih]

theorem firstWinner_some_iff (ls : List (List Cell)) (w : Cell) :
    firstWinner ls = some w ↔
      ∃ (i : Nat) (hi : i < ls.length),
        lineWinner (ls.get ⟨i, hi⟩) = some w ∧
        ∀ (j : Nat) (hj : j < ls.length), j < i →
          lineWinner (ls.get ⟨j, hj⟩) = none := by
  induction ls with
  | nil => simp [firstWinner]
  | cons l rest ih =>
    unfold firstWinner
    cases hl : lineWinner l with
    | some s =>
      simp only []
      constructor
      · intro hw
        refine ⟨0, by simp, ?_, ?_⟩
        · simpa [List.get] using hl.trans hw
        · intro j hj hj0; omega
      · intro ⟨i, hi, hw, hn⟩
        cases i with
        | zero => simpa [List.get, hl] using hw
        | succ k =>
          have := hn 0 (by simp) (by omega)
          simp [List.get, hl] at this
    | none =>
      simp only []
      rw [ih]
      have hlen : (l :: rest).length = rest.length + 1 := rfl
      constructor
      · intro ⟨i, hi, hw, hn⟩
        refine ⟨i + 1, by omega, hw, ?_⟩
        intro j hj hji
        cases j with
        | zero => simpa [List.get] using hl
        | succ k =>
          exact hn k (by omega) (by omega)
      · intro ⟨i, hi, hw, hn⟩
        cases i with
        | zero => simp [List.get, hl] at hw
        | succ k =>
          refine ⟨k, by omega, hw, ?_⟩
          intro j hj hjk
          exact hn (j + 1) (by omega) (by omega)

theorem lines_get_eq_winAt (b : Board) (i : Fin 8) :
    lineWinner ((lines b).get ⟨i.val, i.isLt⟩) = winAt b i := by
  fin_cases i <;>
    simp [lines, List.get, lineWinner_triple, winAt, lineCoords, cellAtPair]

theorem check_winner_none_iff (b : Board) :
    check_winner b = none ↔ ∀ i : Fin 8, winAt b i = none := by
  rw [check_winner, firstWinner_none_iff]
  constructor
  · intro h i
    rw [← lines_get_eq_winAt]
    exact h _ (List.get_mem _ _ _)
  · intro h l hl
    obtain ⟨n, rfl⟩ := List.mem_iff_get.mp hl
    have hn : n.val < 8 := by
      have := n.isLt
      simpa [lines] using this
    have := h ⟨n.val, hn⟩
    rw [← lines_get_eq_winAt] at this
    simpa using this

theorem check_winner_some_iff (b : Board) (w : Cell) :
    check_winner b = some w ↔
      ∃ i : Fin 8, winAt b i = some w ∧
        ∀ j : Fin 8, j < i → winAt b j = none := by
  rw [check_winner, firstWinner_some_iff]
  constructor
  · intro ⟨i, hi, hw, hn⟩
    have hi8 : i < 8 := by simpa [lines] using hi
    refine ⟨⟨i, hi8⟩, ?_, ?_⟩
    · rw [← lines_get_eq_winAt]; exact hw
    · intro j hj
      rw [← lines_get_eq_winAt]
      exact hn j.val (by simpa [lines] using j.isLt) hj
  · intro ⟨i, hw, hn⟩
    refine ⟨i.val, by simpa [lines] using i.isLt, ?_, ?_⟩
    · rw [lines_get_eq_winAt]
      exact hw
    · intro j hj hji
      have hj8 : j < 8 := by simpa [lines] using hj
      have := hn ⟨j, hj8⟩ (by simpa using hji)
      rw [← lines_get_eq_winAt] at this
      simpa using this

theorem check_winner_nonE (b : Board) (w : Cell)
    (h : check_winner b = some w) : w ≠ Cell.E := by
  obtain ⟨i, hw, _⟩ := (check_winner_some_iff b w).mp h
  exact ((winAt_some_iff b i w).mp hw).2.2.2

/-- Placing a symbol on a board with no winner can only create a win for
that symbol. -/
theorem check_winner_setCell_of_none (b : Board) (r c : Fin 3) (s : Cell)
    (h : check_winner b = none) :
    check_winner (setCell b r c s) = none ∨
    check_winner (setCell b r c s) = some s := by
  cases hw : check_winner (setCell b r c s) with
  | none => exact Or.inl rfl
  | some w =>
    by_cases hws : w = s
    · subst hws
      exact Or.inr rfl
    · exfalso
      obtain ⟨i, hwi, _⟩ := (check_winner_some_iff _ w).mp hw
      obtain ⟨h1, h2, h3, h4⟩ := (winAt_some_iff _ i w).mp hwi
      have hcell : ∀ rc : Fin 3 × Fin 3,
          cellAtPair (setCell b r c s) rc = w → cellAtPair b rc = w := by
        intro rc hrc
        have hne : ¬(rc.1 = r ∧ rc.2 = c) := by
          intro hand
          rw [cellAtPair, hand.1, hand.2, setCell_same] at hrc
          exact hws hrc.symm
        rw [cellAtPair, ← setCell_ne b r c rc.1 rc.2 s hne]
        exact hrc
      have : winAt b i = some w :=
        (winAt_some_iff b i w).mpr ⟨hcell _ h1, hcell _ h2, hcell _ h3, h4⟩
      have := (check_winner_none_iff b).mp h i
      simp_all

/-! ## Fullness and empty cells -/

theorem is_full_iff_emptyCount (b : Board) :
    is_full b = true ↔ emptyCount b = 0 := by
  rw [is_full, emptyCount, List.all_eq_true, List.countP_eq_zero]
  constructor
  · intro h rc hrc
    have := h rc hrc
    simpa using this
  · intro h rc hrc
    have := h rc hrc
    simpa using this

theorem available_moves_nil_iff (b : Board) :
    available_moves b = [] ↔ is_full b = true := by
  rw [available_moves, List.filter_eq_nil_iff, is_full, List.all_eq_true]
  constructor
  · intro h rc hrc
    have := h rc hrc
    simpa using this
  · intro h rc hrc
    have := h rc hrc
    simpa using this

theorem not_full_of_empty (b : Board) (r c : Fin 3) (h : b r c = Cell.E) :
    is_full b = false := by
  rw [← Bool.not_eq_true, is_full, List.all_eq_true]
  intro hall
  have hm : (r, c) ∈ coords := by fin_cases r <;> fin_cases c <;> decide
  have := hall (r, c) hm
  simp [h] at this

/-! ## Counting symbols, reachability -/

/-! ## Generic counting lemma -/

theorem countP_setCell (p : Cell → Bool) (b : Board) (r c : Fin 3) (s : Cell) :
    ∀ l : List (Fin 3 × Fin 3), l.Nodup → (r, c) ∈ l →
      l.countP (fun rc => p (setCell b r c s rc.1 rc.2)) +
        (if p (b r c) then 1 else 0) =
      l.countP (fun rc => p (b rc.1 rc.2)) + (if p s then 1 else 0) := by
  intro l
  induction l with
  | nil => intro _ hm; cases hm
  | cons a t ih =>
    intro hnd hm
    have hndt : t.Nodup := (List.nodup_cons.mp hnd).2
    by_cases ha : a = (r, c)
    · subst ha
      have hnotmem : (r, c) ∉ t := (List.nodup_cons.mp hnd).1
      have htail : t.countP (fun rc => p (setCell b r c s rc.1 rc.2)) =
          t.countP (fun rc => p (b rc.1 rc.2)) := by
        apply List.countP_congr
        intro rc hrc
        have hne : rc ≠ (r, c) := fun hrc2 => hnotmem (hrc2 ▸ hrc)
        have hcell : setCell b r c s rc.1 rc.2 = b rc.1 rc.2 := by
          apply setCell_ne
          intro hand
          exact hne (Prod.ext hand.1 hand.2)
        simp [hcell]
      simp only [List.countP_cons, setCell_same, htail]
      omega
    · have hm2 : (r, c) ∈ t := by
        rcases List.mem_cons.mp hm with h1 | h1
        · exact absurd h1.symm ha
        · exact h1
      have hcell : setCell b r c s a.1 a.2 = b a.1 a.2 := by
        apply setCell_ne
        intro hand
        exact ha (Prod.ext hand.1 hand.2)
      simp only [List.countP_cons, hcell]
      have := ih hndt hm2
      omega

theorem mem_coords (r c : Fin 3) : (r, c) ∈ coords := by
  fin_cases r <;> fin_cases c <;> decide

theorem coords_nodup : coords.Nodup := by decide

theorem countSym_setCell_same (b : Board) (r c : Fin 3) (s : Cell)
    (hE : b r c = Cell.E) (hs : s ≠ Cell.E) :
    countSym (setCell b r c s) s = countSym b s + 1 := by
  have h := countP_setCell (fun x => x = s) b r c s coords coords_nodup
    (mem_coords r c)
  rw [hE] at h
  have hEs : Cell.E ≠ s := fun he => hs he.symm
  simp only [countSym]
  simp [hEs] at h
  omega

theorem countSym_setCell_other (b : Board) (r c : Fin 3) (s t : Cell)
    (hE : b r c = Cell.E) (ht : t ≠ Cell.E) (hts : t ≠ s) :
    countSym (setCell b r c s) t = countSym b t := by
  have h := countP_setCell (fun x => x = t) b r c s coords coords_nodup
    (mem_coords r c)
  rw [hE] at h
  have hEt : Cell.E ≠ t := fun he => ht he.symm
  have hst : s ≠ t := fun he => hts he.symm
  simp only [countSym]
  simp [hEt, hst] at h
  omega

/-! ## `make_move` analysis -/

theorem make_move_ok (st : TicTacToe) (row col : Int) (v : Bool)
    (st2 : TicTacToe) (h : make_move st row col = (Except.ok v, st2)) :
    ∃ r c : Fin 3, st.board r c = Cell.E ∧
      st2 = { st with board := setCell st.board r c st.current_player } := by
  unfold make_move at h
  split at h
  · rename_i hb
    dsimp only at h
    split at h
    · cases h
    · rename_i hocc
      injection h with h1 h2
      refine ⟨⟨row.toNat, by omega⟩, ⟨col.toNat, by omega⟩, ?_, h2.symm⟩
      simpa using hocc
  · cases h

theorem switch_player_board (st : TicTacToe) :
    (switch_player st).board = st.board := rfl

theorem reach_symbols (st : TicTacToe) (h : Reach st) :
    st.player_symbol = Cell.X ∧ st.npc_symbol = Cell.O := by
  induction h with
  | init => exact ⟨rfl, rfl⟩
  | step st row col st2 _ hmk ih =>
    obtain ⟨r, c, _, hst2⟩ := make_move_ok st row col true st2 hmk
    subst hst2
    exact ih

/-- The alternation invariant: the current player has placed as many
symbols as the other side when it is X to move, one fewer when it is O to
move. -/
theorem reach_count_inv (st : TicTacToe) (h : Reach st) :
    (st.current_player = Cell.X ∧
      countSym st.board Cell.X = countSym st.board Cell.O) ∨
    (st.current_player = Cell.O ∧
      countSym st.board Cell.X = countSym st.board Cell.O + 1) := by
  induction h with
  | init =>
    left
    constructor
    · rfl
    · decide
  | step st row col st2 hr hmk ih =>
    obtain ⟨hps, hns⟩ := reach_symbols st hr
    obtain ⟨r, c, hE, hst2⟩ := make_move_ok st row col true st2 hmk
    subst hst2
    rcases ih with ⟨hcur, hcnt⟩ | ⟨hcur, hcnt⟩
    · right
      constructor
      · simp [switch_player, hcur, hps, hns]
      · simp only [switch_player_board]
        simp only [hcur]
        rw [countSym_setCell_same st.board r c Cell.X hE (by decide),
          countSym_setCell_other st.board r c Cell.X Cell.O hE (by decide)
            (by decide)]
        omega
    · left
      constructor
      · simp [switch_player, hcur, hps, hns]
      · simp only [switch_player_board]
        simp only [hcur]
        rw [countSym_setCell_same st.board r c Cell.O hE (by decide),
          countSym_setCell_other st.board r c Cell.O Cell.X hE (by decide)
            (by decide)]
        omega

/-! ## Full-board behaviour of the strategies -/

theorem findBestLoop_of_full (b : Board) (sym : Cell)
    (l : List (Fin 3 × Fin 3)) (h : ∀ rc ∈ l, b rc.1 rc.2 ≠ Cell.E) :
    findBestLoop b sym l = (none, b) := by
  induction l with
  | nil => rfl
  | cons rc rest ih =>
    unfold findBestLoop
    rw [if_neg (h rc (List.mem_cons_self rc rest))]
    exact ih (fun x hx => h x (List.mem_cons_of_mem rc hx))

theorem hardLoop_of_full (npc player : Cell) (b : Board)
    (l : List (Fin 3 × Fin 3)) (best : Int) (bm : Option (Fin 3 × Fin 3))
    (h : ∀ rc ∈ l, b rc.1 rc.2 ≠ Cell.E) :
    hardLoop npc player l best bm b = (best, bm, b) := by
  induction l generalizing best bm with
  | nil => rfl
  | cons rc rest ih =>
    unfold hardLoop
    rw [if_neg (h rc (List.mem_cons_self rc rest))]
    exact ih best bm (fun x hx => h x (List.mem_cons_of_mem rc hx))

theorem full_cells (b : Board) (hf : is_full b = true) :
    ∀ rc : Fin 3 × Fin 3, b rc.1 rc.2 ≠ Cell.E := by
  intro rc
  rw [is_full, List.all_eq_true] at hf
  have := hf rc (mem_coords rc.1 rc.2)
  simpa using this

theorem random_move_of_full (pick : List (Fin 3 × Fin 3) → Fin 3 × Fin 3)
    (b : Board) (hf : is_full b = true) :
    random_move pick b = Except.error PyError.indexError := by
  unfold random_move
  rw [if_pos ((available_moves_nil_iff b).mpr hf)]

theorem find_best_move_of_full (b : Board) (sym : Cell)
    (hf : is_full b = true) : find_best_move b sym = (none, b) :=
  findBestLoop_of_full b sym coords (fun rc _ => full_cells b hf rc)

theorem medium_move_of_full (pick : List (Fin 3 × Fin 3) → Fin 3 × Fin 3)
    (npc player : Cell) (b : Board) (hf : is_full b = true) :
    medium_move pick npc player b = (Except.error PyError.indexError, b) := by
  unfold medium_move
  rw [find_best_move_of_full b npc hf]
  simp only []
  rw [find_best_move_of_full b player hf]
  simp only []
  rw [if_neg (by have := full_cells b hf ((1 : Fin 3), (1 : Fin 3)); simpa using this)]
  have hcorners : cornersList.filter (fun rc => b rc.1 rc.2 = Cell.E) = [] := by
    rw [List.filter_eq_nil_iff]
    intro rc _
    have := full_cells b hf rc
    simpa using this
  have hsides : sidesList.filter (fun rc => b rc.1 rc.2 = Cell.E) = [] := by
    rw [List.filter_eq_nil_iff]
    intro rc _
    have := full_cells b hf rc
    simpa using this
  rw [hcorners]
  simp only [ne_eq, not_true_eq_false, if_neg]
  rw [hsides]
  simp only [ne_eq, not_true_eq_false, if_neg]
  rw [random_move_of_full pick b hf]
  simp

theorem hard_move_of_full (npc player : Cell) (b : Board)
    (hf : is_full b = true) : hard_move npc player b = (none, b) := by
  unfold hard_move
  rw [hardLoop_of_full npc player b coords (-maxsize) none
    (fun rc _ => full_cells b hf rc)]

/-! ## Claim theorems: C2, C5, C8, C9 -/

/-- **C2.** For every 3×3 board, including malformed ones with several
complete lines: `check_winner` returns `some s` exactly when some line
scanned in the order rows 0,1,2, columns 0,1,2, main diagonal,
anti-diagonal has all three cells equal to the non-empty `s` and every
earlier line in that order is not winning; it returns `none` exactly when
no line is complete; and the derived outcome is `Draw` exactly when there
is no complete line and the board is full, `InProgress` exactly when there
is no complete line and an empty cell remains. -/
theorem C2_terminal_evaluation (b : Board) :
    (∀ s : Cell, check_winner b = some s ↔
      ∃ i : Fin 8, winAt b i = some s ∧ ∀ j : Fin 8, j < i → winAt b j = none) ∧
    (check_winner b = none ↔ ∀ i : Fin 8, winAt b i = none) ∧
    (evaluate b = Outcome.draw ↔ check_winner b = none ∧ is_full b = true) ∧
    (evaluate b = Outcome.inProgress ↔
      check_winner b = none ∧ is_full b = false) := by
  refine ⟨fun s => check_winner_some_iff b s, check_winner_none_iff b, ?_, ?_⟩
  · unfold evaluate
    cases hw : check_winner b with
    | some w => simp
    | none =>
      cases hf : is_full b with
      | true => simp [hf]
      | false => simp [hf]
  · unfold evaluate
    cases hw : check_winner b with
    | some w => simp
    | none =>
      cases hf : is_full b with
      | true => simp [hf]
      | false => simp [hf]

/-- **C5.** `make_move` fails with `OutOfBounds` exactly on coordinates
outside `[0,3)`, fails with `CellOccupied` on occupied in-bounds targets,
leaves the state untouched on both failures, and on success returns `True`
and mutates exactly the one target cell, setting it to the current
player's symbol, with every other cell and every other field unchanged. -/
theorem C5_make_move (st : TicTacToe) (row col : Int) :
    (¬(0 ≤ row ∧ row < 3 ∧ 0 ≤ col ∧ col < 3) →
      make_move st row col = (Except.error InvalidMove.outOfBounds, st)) ∧
    (∀ (hr : 0 ≤ row) (hr3 : row < 3) (hc : 0 ≤ col) (hc3 : col < 3),
      (st.board ⟨row.toNat, by omega⟩ ⟨col.toNat, by omega⟩ ≠ Cell.E →
        make_move st row col = (Except.error InvalidMove.cellOccupied, st)) ∧
      (st.board ⟨row.toNat, by omega⟩ ⟨col.toNat, by omega⟩ = Cell.E →
        (make_move st row col).1 = Except.ok true ∧
        (make_move st row col).2.board ⟨row.toNat, by omega⟩
          ⟨col.toNat, by omega⟩ = st.current_player ∧
        (∀ i j : Fin 3,
          ¬(i = (⟨row.toNat, by omega⟩ : Fin 3) ∧
            j = (⟨col.toNat, by omega⟩ : Fin 3)) →
          (make_move st row col).2.board i j = st.board i j) ∧
        (make_move st row col).2.current_player = st.current_player ∧
        (make_move st row col).2.player_symbol = st.player_symbol ∧
        (make_move st row col).2.npc_symbol = st.npc_symbol)) := by
  constructor
  · intro hnb
    unfold make_move
    rw [dif_neg hnb]
  · intro hr hr3 hc hc3
    have hb : 0 ≤ row ∧ row < 3 ∧ 0 ≤ col ∧ col < 3 := ⟨hr, hr3, hc, hc3⟩
    constructor
    · intro hocc
      unfold make_move
      rw [dif_pos hb]
      dsimp only
      rw [if_pos hocc]
    · intro hE
      unfold make_move
      rw [dif_pos hb]
      dsimp only
      rw [if_neg (by simpa using hE)]
      refine ⟨rfl, by simp [setCell_same], ?_, rfl, rfl, rfl⟩
      intro i j hij
      exact setCell_ne st.board _ _ i j st.current_player hij

/-- Witness for C5 at concrete inputs: `place(3, 0)` is out of bounds on
the initial state, and placing at the occupied cell `(0,0)` after X moved
there raises `CellOccupied` and preserves the state. -/
theorem C5_make_move_witness :
    make_move initGame 3 0 = (Except.error InvalidMove.outOfBounds, initGame) ∧
    make_move { initGame with board := setCell initGame.board 0 0 Cell.X } 0 0 =
      (Except.error InvalidMove.cellOccupied,
        { initGame with board := setCell initGame.board 0 0 Cell.X }) := by
  constructor
  · exact (C5_make_move initGame 3 0).1 (by omega)
  · exact (((C5_make_move
      { initGame with board := setCell initGame.board 0 0 Cell.X } 0 0).2
      (by omega) (by omega) (by omega) (by omega)).1 (by decide))

/-- **C9.** In every state reachable through the controlled mutation path
(successful `make_move` then `switch_player`, X first), the number of X
cells equals the number of O cells or exceeds it by exactly one. -/
theorem C9_count_invariant (st : TicTacToe) (h : Reach st) :
    countSym st.board Cell.X = countSym st.board Cell.O ∨
    countSym st.board Cell.X = countSym st.board Cell.O + 1 := by
  rcases reach_count_inv st h with ⟨_, hc⟩ | ⟨_, hc⟩
  · exact Or.inl hc
  · exact Or.inr hc

/-- Witness for C9: the state after X plays `(0,0)` and the turn passes
to O is reachable and satisfies the invariant. -/
theorem C9_count_invariant_witness :
    countSym (switch_player
      { initGame with board := setCell initGame.board 0 0 Cell.X }).board
      Cell.X =
    countSym (switch_player
      { initGame with board := setCell initGame.board 0 0 Cell.X }).board
      Cell.O + 1 := by
  have hreach : Reach (switch_player
      { initGame with board := setCell initGame.board 0 0 Cell.X }) := by
    have h0 : make_move initGame 0 0 =
        (Except.ok true,
          { initGame with board := setCell initGame.board 0 0 Cell.X }) := rfl
    exact Reach.step initGame 0 0 _ Reach.init h0
  rcases C9_count_invariant _ hreach with hc | hc
  · exfalso
    revert hc
    decide
  · exact hc

/-- **C8 (counterexample).** On a full board no strategy produces a
`NoLegalMoves` error: `random_move` raises `IndexError` (from
`random.choice` on the empty candidate list), not `NoLegalMoves`, and
`hard_move` raises nothing at all — it returns `None` as a value. -/
theorem C8_counterexample :
    random_move headPick fullBoardNoWin = Except.error PyError.indexError ∧
    random_move headPick fullBoardNoWin ≠ Except.error PyError.noLegalMoves ∧
    medium_move headPick Cell.O Cell.X fullBoardNoWin =
      (Except.error PyError.indexError, fullBoardNoWin) ∧
    hard_move Cell.O Cell.X fullBoardNoWin = (none, fullBoardNoWin) := by
  refine ⟨?_, ?_, ?_, ?_⟩
  · exact random_move_of_full headPick fullBoardNoWin (by decide)
  · rw [random_move_of_full headPick fullBoardNoWin (by decide)]
    intro h
    injection h with h2
    cases h2
  · exact medium_move_of_full headPick Cell.O Cell.X fullBoardNoWin (by decide)
  · exact hard_move_of_full Cell.O Cell.X fullBoardNoWin (by decide)

/-- **C8 (amended).** On every full board, `random_move` and `medium_move`
fail with the `IndexError` of `random.choice` applied to an empty
sequence, while `hard_move` fails with no error at all: it returns `None`
instead of a move, leaving the board unchanged. -/
theorem C8_full_board_behaviour
    (pick : List (Fin 3 × Fin 3) → Fin 3 × Fin 3)
    (npc player : Cell) (b : Board) (hf : is_full b = true) :
    random_move pick b = Except.error PyError.indexError ∧
    medium_move pick npc player b = (Except.error PyError.indexError, b) ∧
    hard_move npc player b = (none, b) :=
  ⟨random_move_of_full pick b hf,
    medium_move_of_full pick npc player b hf,
    hard_move_of_full npc player b hf⟩

/-- Witness for the amended C8 at the concrete full board. -/
theorem C8_full_board_behaviour_witness :
    is_full fullBoardNoWin = true ∧
    random_move headPick fullBoardNoWin = Except.error PyError.indexError ∧
    medium_move headPick Cell.X Cell.O fullBoardNoWin =
      (Except.error PyError.indexError, fullBoardNoWin) ∧
    hard_move Cell.X Cell.O fullBoardNoWin = (none, fullBoardNoWin) := by
  refine ⟨by decide, ?_⟩
  exact C8_full_board_behaviour headPick Cell.X Cell.O fullBoardNoWin (by decide)

/-! ## Heuristic strategy characterization -/

theorem findBestLoop_eq_find (b : Board) (sym : Cell)
    (l : List (Fin 3 × Fin 3)) :
    findBestLoop b sym l = (l.find? (winProbe b sym), b) := by
  induction l with
  | nil => rfl
  | cons rc rest ih =>
    unfold findBestLoop
    by_cases hE : b rc.1 rc.2 = Cell.E
    · rw [if_pos hE]
      by_cases hw : check_winner (setCell b rc.1 rc.2 sym) = some sym
      · rw [if_pos hw]
        have hp : winProbe b sym rc = true := by
          simp [winProbe, hE, hw]
        rw [List.find?_cons_of_pos _ hp]
        rw [setCell_restore b rc.1 rc.2 sym hE]
      · rw [if_neg hw]
        have hp : winProbe b sym rc = false := by
          simp [winProbe, hw]
        rw [List.find?_cons_of_neg _ (by simp [hp]),
          setCell_restore b rc.1 rc.2 sym hE]
        exact ih
    · rw [if_neg hE]
      have hp : winProbe b sym rc = false := by
        simp [winProbe, hE]
      rw [List.find?_cons_of_neg _ (by simp [hp])]
      exact ih

theorem find_best_move_eq (b : Board) (sym : Cell) :
    find_best_move b sym = (coords.find? (winProbe b sym), b) :=
  findBestLoop_eq_find b sym coords

/-- **C3 (counterexample).**  On the malformed board
`X X X / _ _ _ / O O _` the heuristic strategy for O does not return the
row-major-first cell completing one of its own lines: `(2,2)` is the only
empty cell that completes a line for O, yet `medium_move` returns `(1,0)`
(placing X anywhere makes `check_winner` report the already-complete X row,
so the block probe fires on the first empty cell). -/
theorem C3_counterexample :
    (mkBoard Cell.X Cell.X Cell.X Cell.E Cell.E Cell.E Cell.O Cell.O Cell.E)
      2 2 = Cell.E ∧
    (∃ i : Fin 8, winAt (setCell
      (mkBoard Cell.X Cell.X Cell.X Cell.E Cell.E Cell.E Cell.O Cell.O Cell.E)
      2 2 Cell.O) i = some Cell.O) ∧
    (∀ rc : Fin 3 × Fin 3,
      (mkBoard Cell.X Cell.X Cell.X Cell.E Cell.E Cell.E Cell.O Cell.O Cell.E)
        rc.1 rc.2 = Cell.E →
      (∃ i : Fin 8, winAt (setCell
        (mkBoard Cell.X Cell.X Cell.X Cell.E Cell.E Cell.E Cell.O Cell.O
          Cell.E) rc.1 rc.2 Cell.O) i = some Cell.O) →
      rc = (2, 2)) ∧
    medium_move headPick Cell.O Cell.X
      (mkBoard Cell.X Cell.X Cell.X Cell.E Cell.E Cell.E Cell.O Cell.O
        Cell.E) =
      (Except.ok ((1 : Fin 3), (0 : Fin 3)),
        mkBoard Cell.X Cell.X Cell.X Cell.E Cell.E Cell.E Cell.O Cell.O
          Cell.E) ∧
    ((1 : Fin 3), (0 : Fin 3)) ≠ (((2 : Fin 3), (2 : Fin 3))) := by
  refine ⟨by decide, by decide, by decide, by decide, by decide⟩

theorem medium_move_win (pick : List (Fin 3 × Fin 3) → Fin 3 × Fin 3)
    (npc player : Cell) (b : Board) (m : Fin 3 × Fin 3)
    (h : coords.find? (winProbe b npc) = some m) :
    medium_move pick npc player b = (Except.ok m, b) := by
  unfold medium_move
  rw [find_best_move_eq, h]

theorem medium_move_block (pick : List (Fin 3 × Fin 3) → Fin 3 × Fin 3)
    (npc player : Cell) (b : Board) (m : Fin 3 × Fin 3)
    (hw : coords.find? (winProbe b npc) = none)
    (h : coords.find? (winProbe b player) = some m) :
    medium_move pick npc player b = (Except.ok m, b) := by
  unfold medium_move
  rw [find_best_move_eq, hw]
  simp only []
  rw [find_best_move_eq, h]

theorem medium_move_center (pick : List (Fin 3 × Fin 3) → Fin 3 × Fin 3)
    (npc player : Cell) (b : Board)
    (hw : coords.find? (winProbe b npc) = none)
    (hb : coords.find? (winProbe b player) = none)
    (hc : b 1 1 = Cell.E) :
    medium_move pick npc player b = (Except.ok (1, 1), b) := by
  unfold medium_move
  rw [find_best_move_eq, hw]
  simp only []
  rw [find_best_move_eq, hb]
  simp only []
  rw [if_pos hc]

theorem medium_move_corner (pick : List (Fin 3 × Fin 3) → Fin 3 × Fin 3)
    (npc player : Cell) (b : Board)
    (hw : coords.find? (winProbe b npc) = none)
    (hb : coords.find? (winProbe b player) = none)
    (hc : b 1 1 ≠ Cell.E)
    (hcor : cornersList.filter (fun rc => b rc.1 rc.2 = Cell.E) ≠ []) :
    medium_move pick npc player b =
      (Except.ok (pick (cornersList.filter (fun rc => b rc.1 rc.2 = Cell.E))),
        b) := by
  unfold medium_move
  rw [find_best_move_eq, hw]
  simp only []
  rw [find_best_move_eq, hb]
  simp only []
  rw [if_neg hc, if_pos hcor]

theorem medium_move_side (pick : List (Fin 3 × Fin 3) → Fin 3 × Fin 3)
    (npc player : Cell) (b : Board)
    (hw : coords.find? (winProbe b npc) = none)
    (hb : coords.find? (winProbe b player) = none)
    (hc : b 1 1 ≠ Cell.E)
    (hcor : cornersList.filter (fun rc => b rc.1 rc.2 = Cell.E) = [])
    (hside : sidesList.filter (fun rc => b rc.1 rc.2 = Cell.E) ≠ []) :
    medium_move pick npc player b =
      (Except.ok (pick (sidesList.filter (fun rc => b rc.1 rc.2 = Cell.E))),
        b) := by
  unfold medium_move
  rw [find_best_move_eq, hw]
  simp only []
  rw [find_best_move_eq, hb]
  simp only []
  rw [if_neg hc, if_neg (by simp [hcor]), if_pos hside]

/-- **C3 (amended).** On every board with an empty cell, the heuristic
strategy follows the short-circuit priority win > block > center > corner
> side, where the win (resp. block) rule fires on the row-major-first
empty cell whose hypothetical placement makes `check_winner` report the
strategy's (resp. opponent's) symbol; the center rule takes `(1,1)` when
empty; otherwise the move is some empty corner, and failing that some
empty side; in every case the board is returned unchanged. -/
theorem C3_medium_priority (pick : List (Fin 3 × Fin 3) → Fin 3 × Fin 3)
    (hpick : ∀ l : List (Fin 3 × Fin 3), l ≠ [] → pick l ∈ l)
    (npc player : Cell) (b : Board) :
    (medium_move pick npc player b).2 = b ∧
    (∀ m, coords.find? (winProbe b npc) = some m →
      (medium_move pick npc player b).1 = Except.ok m) ∧
    (∀ m, coords.find? (winProbe b npc) = none →
      coords.find? (winProbe b player) = some m →
      (medium_move pick npc player b).1 = Except.ok m) ∧
    (coords.find? (winProbe b npc) = none →
      coords.find? (winProbe b player) = none →
      (b 1 1 = Cell.E →
        (medium_move pick npc player b).1 = Except.ok (1, 1)) ∧
      (b 1 1 ≠ Cell.E →
        (cornersList.filter (fun rc => b rc.1 rc.2 = Cell.E) ≠ [] →
          ∃ m, (medium_move pick npc player b).1 = Except.ok m ∧
            m ∈ cornersList ∧ b m.1 m.2 = Cell.E) ∧
        (cornersList.filter (fun rc => b rc.1 rc.2 = Cell.E) = [] →
          sidesList.filter (fun rc => b rc.1 rc.2 = Cell.E) ≠ [] →
          ∃ m, (medium_move pick npc player b).1 = Except.ok m ∧
            m ∈ sidesList ∧ b m.1 m.2 = Cell.E))) := by
  refine ⟨?_, ?_, ?_, ?_⟩
  · cases hwin : coords.find? (winProbe b npc) with
    | some m => rw [medium_move_win pick npc player b m hwin]
    | none =>
      cases hblock : coords.find? (winProbe b player) with
      | some m => rw [medium_move_block pick npc player b m hwin hblock]
      | none =>
        by_cases hc : b 1 1 = Cell.E
        · rw [medium_move_center pick npc player b hwin hblock hc]
        · cases hcor : cornersList.filter (fun rc => b rc.1 rc.2 = Cell.E) with
          | cons x rest =>
            rw [medium_move_corner pick npc player b hwin hblock hc
              (by simp [hcor])]
          | nil =>
            cases hside : sidesList.filter (fun rc => b rc.1 rc.2 = Cell.E) with
            | cons x rest =>
              rw [medium_move_side pick npc player b hwin hblock hc hcor
                (by simp [hside])]
            | nil =>
              unfold medium_move
              rw [find_best_move_eq, hwin]
              simp only []
              rw [find_best_move_eq, hblock]
              simp only []
              rw [if_neg hc, if_neg (by simp [hcor]), if_neg (by simp [hside])]
  · intro m hm
    rw [medium_move_win pick npc player b m hm]
  · intro m hw hm
    rw [medium_move_block pick npc player b m hw hm]
  · intro hw hb
    refine ⟨?_, ?_⟩
    · intro hc
      rw [medium_move_center pick npc player b hw hb hc]
    · intro hc
      refine ⟨?_, ?_⟩
      · intro hcor
        refine ⟨pick (cornersList.filter (fun rc => b rc.1 rc.2 = Cell.E)),
          ?_, ?_⟩
        · rw [medium_move_corner pick npc player b hw hb hc hcor]
        · have := hpick _ hcor
          have hmem := List.mem_filter.mp this
          exact ⟨hmem.1, by simpa using hmem.2⟩
      · intro hcor hside
        refine ⟨pick (sidesList.filter (fun rc => b rc.1 rc.2 = Cell.E)),
          ?_, ?_⟩
        · rw [medium_move_side pick npc player b hw hb hc hcor hside]
        · have := hpick _ hside
          have hmem := List.mem_filter.mp this
          exact ⟨hmem.1, by simpa using hmem.2⟩

theorem headPick_mem (l : List (Fin 3 × Fin 3)) (h : l ≠ []) :
    headPick l ∈ l := by
  cases l with
  | nil => exact absurd rfl h
  | cons x rest => exact List.mem_cons_self x rest

/-- Witness for the amended C3 at the two boards of the spec, with the
strategy as X: on `X X _ / O O _ / _ _ _` the win rule fires at `(0,2)`;
on `O O _ / X _ _ / _ _ _` the block rule fires at `(0,2)`. -/
theorem C3_medium_priority_witness :
    (medium_move headPick Cell.X Cell.O
      (mkBoard Cell.X Cell.X Cell.E Cell.O Cell.O Cell.E Cell.E Cell.E
        Cell.E)).1 = Except.ok (0, 2) ∧
    (medium_move headPick Cell.X Cell.O
      (mkBoard Cell.O Cell.O Cell.E Cell.X Cell.E Cell.E Cell.E Cell.E
        Cell.E)).1 = Except.ok (0, 2) := by
  constructor
  · exact (C3_medium_priority headPick headPick_mem Cell.X Cell.O
      (mkBoard Cell.X Cell.X Cell.E Cell.O Cell.O Cell.E Cell.E Cell.E
        Cell.E)).2.1 (0, 2) (by decide)
  · exact (C3_medium_priority headPick headPick_mem Cell.X Cell.O
      (mkBoard Cell.O Cell.O Cell.E Cell.X Cell.E Cell.E Cell.E Cell.E
        Cell.E)).2.2.1 (0, 2) (by decide) (by decide)

/-! ## Board restoration (frame discipline) -/

theorem maxCols_board (mm : Nat → Bool → Int → Int → Board → Int × Board)
    (hmm : ∀ d m alpha beta b, (mm d m alpha beta b).2 = b)
    (npc : Cell) (depth : Nat) (r : Fin 3) :
    ∀ (cols : List (Fin 3)) (me alpha beta : Int) (b : Board),
      (maxCols mm npc depth r cols me alpha beta b).2.2 = b := by
  intro cols
  induction cols with
  | nil => intro me alpha beta b; rfl
  | cons c rest ih =>
    intro me alpha beta b
    unfold maxCols
    by_cases hE : b r c = Cell.E
    · rw [if_pos hE]
      simp only [hmm]
      rw [setCell_restore b r c npc hE]
      split
      · rfl
      · exact ih _ _ _ b
    · rw [if_neg hE]
      exact ih _ _ _ b

theorem maxRows_board (mm : Nat → Bool → Int → Int → Board → Int × Board)
    (hmm : ∀ d m alpha beta b, (mm d m alpha beta b).2 = b)
    (npc : Cell) (depth : Nat) :
    ∀ (rows : List (Fin 3)) (me alpha beta : Int) (b : Board),
      (maxRows mm npc depth rows me alpha beta b).2 = b := by
  intro rows
  induction rows with
  | nil => intro me alpha beta b; rfl
  | cons r rest ih =>
    intro me alpha beta b
    unfold maxRows
    dsimp only
    rw [maxCols_board mm hmm npc depth r range3 me alpha beta b]
    exact ih _ _ _ b

theorem minCols_board (mm : Nat → Bool → Int → Int → Board → Int × Board)
    (hmm : ∀ d m alpha beta b, (mm d m alpha beta b).2 = b)
    (player : Cell) (depth : Nat) (r : Fin 3) :
    ∀ (cols : List (Fin 3)) (me alpha beta : Int) (b : Board),
      (minCols mm player depth r cols me alpha beta b).2.2 = b := by
  intro cols
  induction cols with
  | nil => intro me alpha beta b; rfl
  | cons c rest ih =>
    intro me alpha beta b
    unfold minCols
    by_cases hE : b r c = Cell.E
    · rw [if_pos hE]
      simp only [hmm]
      rw [setCell_restore b r c player hE]
      split
      · rfl
      · exact ih _ _ _ b
    · rw [if_neg hE]
      exact ih _ _ _ b

theorem minRows_board (mm : Nat → Bool → Int → Int → Board → Int × Board)
    (hmm : ∀ d m alpha beta b, (mm d m alpha beta b).2 = b)
    (player : Cell) (depth : Nat) :
    ∀ (rows : List (Fin 3)) (me alpha beta : Int) (b : Board),
      (minRows mm player depth rows me alpha beta b).2 = b := by
  intro rows
  induction rows with
  | nil => intro me alpha beta b; rfl
  | cons r rest ih =>
    intro me alpha beta b
    unfold minRows
    dsimp only
    rw [minCols_board mm hmm player depth r range3 me alpha beta b]
    exact ih _ _ _ b

theorem minimax_board (npc player : Cell) :
    ∀ (fuel depth : Nat) (m : Bool) (alpha beta : Int) (b : Board),
      (minimax npc player fuel depth m alpha beta b).2 = b := by
  intro fuel
  induction fuel with
  | zero =>
    intro depth m alpha beta b
    unfold minimax
    dsimp only
    split
    · rfl
    · split
      · rfl
      · rfl
  | succ f ih =>
    intro depth m alpha beta b
    unfold minimax
    dsimp only
    split
    · rfl
    · split
      · rfl
      · split
        · rfl
        · split
          · exact maxRows_board _ (fun d mm a bb bo => ih d mm a bb bo)
              npc depth range3 _ _ _ b
          · exact minRows_board _ (fun d mm a bb bo => ih d mm a bb bo)
              player depth range3 _ _ _ b

theorem hardLoop_board (npc player : Cell) :
    ∀ (l : List (Fin 3 × Fin 3)) (best : Int) (bm : Option (Fin 3 × Fin 3))
      (b : Board), (hardLoop npc player l best bm b).2.2 = b := by
  intro l
  induction l with
  | nil => intro best bm b; rfl
  | cons rc rest ih =>
    intro best bm b
    unfold hardLoop
    by_cases hE : b rc.1 rc.2 = Cell.E
    · rw [if_pos hE]
      simp only [minimax_board]
      rw [setCell_restore b rc.1 rc.2 npc hE]
      split
      · exact ih _ _ b
      · exact ih _ _ b
    · rw [if_neg hE]
      exact ih _ _ b

theorem hard_move_board (npc player : Cell) (b : Board) :
    (hard_move npc player b).2 = b := by
  unfold hard_move
  exact hardLoop_board npc player coords (-maxsize) none b

theorem find_best_move_board (b : Board) (sym : Cell) :
    (find_best_move b sym).2 = b := by
  rw [find_best_move_eq]

theorem medium_move_board (pick : List (Fin 3 × Fin 3) → Fin 3 × Fin 3)
    (npc player : Cell) (b : Board) :
    (medium_move pick npc player b).2 = b := by
  unfold medium_move
  rw [find_best_move_eq]
  cases hwin : coords.find? (winProbe b npc) with
  | some m => rfl
  | none =>
    dsimp only
    rw [find_best_move_eq]
    cases hblock : coords.find? (winProbe b player) with
    | some m => rfl
    | none =>
      dsimp only
      by_cases hc : b 1 1 = Cell.E
      · rw [if_pos hc]
      · rw [if_neg hc]
        by_cases hcor : cornersList.filter (fun rc => b rc.1 rc.2 = Cell.E) ≠ []
        · rw [if_pos hcor]
        · rw [if_neg hcor]
          by_cases hside : sidesList.filter (fun rc => b rc.1 rc.2 = Cell.E) ≠ []
          · rw [if_pos hside]
          · rw [if_neg hside]

/-- **C7.** Every strategy decision procedure returns with the board it
was called on: the win/block probes of `find_best_move`, every recursive
`minimax` call (including branches cut off by `beta <= alpha`), the
selection loop of `hard_move`, and `medium_move` as a whole all undo each
hypothetical placement, so computing a move never mutates the board. -/
theorem C7_frame_discipline :
    (∀ (npc player : Cell) (fuel depth : Nat) (m : Bool) (alpha beta : Int)
      (b : Board), (minimax npc player fuel depth m alpha beta b).2 = b) ∧
    (∀ (b : Board) (sym : Cell), (find_best_move b sym).2 = b) ∧
    (∀ (pick : List (Fin 3 × Fin 3) → Fin 3 × Fin 3) (npc player : Cell)
      (b : Board), (medium_move pick npc player b).2 = b) ∧
    (∀ (npc player : Cell) (b : Board), (hard_move npc player b).2 = b) :=
  ⟨fun npc player fuel depth m alpha beta b =>
      minimax_board npc player fuel depth m alpha beta b,
    find_best_move_board,
    medium_move_board,
    hard_move_board⟩

/-! ## Bridge to the value-level mirrors -/

theorem maxCols_eq (mm : Nat → Bool → Int → Int → Board → Int × Board)
    (mmV : Nat → Bool → Int → Int → Board → Int)
    (hmm : ∀ d m alpha beta b, mm d m alpha beta b = (mmV d m alpha beta b, b))
    (npc : Cell) (depth : Nat) (r : Fin 3) :
    ∀ (cols : List (Fin 3)) (me alpha beta : Int) (b : Board),
      maxCols mm npc depth r cols me alpha beta b =
        ((maxColsV mmV npc depth r cols me alpha beta b).1,
          (maxColsV mmV npc depth r cols me alpha beta b).2, b) := by
  intro cols
  induction cols with
  | nil => intro me alpha beta b; rfl
  | cons c rest ih =>
    intro me alpha beta b
    unfold maxCols maxColsV
    by_cases hE : b r c = Cell.E
    · rw [if_pos hE, if_pos hE]
      simp only [hmm]
      rw [setCell_restore b r c npc hE]
      split
      · rfl
      · exact ih _ _ _ b
    · rw [if_neg hE, if_neg hE]
      exact ih _ _ _ b

theorem maxRows_eq (mm : Nat → Bool → Int → Int → Board → Int × Board)
    (mmV : Nat → Bool → Int → Int → Board → Int)
    (hmm : ∀ d m alpha beta b, mm d m alpha beta b = (mmV d m alpha beta b, b))
    (npc : Cell) (depth : Nat) :
    ∀ (rows : List (Fin 3)) (me alpha beta : Int) (b : Board),
      maxRows mm npc depth rows me alpha beta b =
        (maxRowsV mmV npc depth rows me alpha beta b, b) := by
  intro rows
  induction rows with
  | nil => intro me alpha beta b; rfl
  | cons r rest ih =>
    intro me alpha beta b
    unfold maxRows maxRowsV
    dsimp only
    rw [maxCols_eq mm mmV hmm npc depth r range3 me alpha beta b]
    exact ih _ _ _ b

theorem minCols_eq (mm : Nat → Bool → Int → Int → Board → Int × Board)
    (mmV : Nat → Bool → Int → Int → Board → Int)
    (hmm : ∀ d m alpha beta b, mm d m alpha beta b = (mmV d m alpha beta b, b))
    (player : Cell) (depth : Nat) (r : Fin 3) :
    ∀ (cols : List (Fin 3)) (me alpha beta : Int) (b : Board),
      minCols mm player depth r cols me alpha beta b =
        ((minColsV mmV player depth r cols me alpha beta b).1,
          (minColsV mmV player depth r cols me alpha beta b).2, b) := by
  intro cols
  induction cols with
  | nil => intro me alpha beta b; rfl
  | cons c rest ih =>
    intro me alpha beta b
    unfold minCols minColsV
    by_cases hE : b r c = Cell.E
    · rw [if_pos hE, if_pos hE]
      simp only [hmm]
      rw [setCell_restore b r c player hE]
      split
      · rfl
      · exact ih _ _ _ b
    · rw [if_neg hE, if_neg hE]
      exact ih _ _ _ b

theorem minRows_eq (mm : Nat → Bool → Int → Int → Board → Int × Board)
    (mmV : Nat → Bool → Int → Int → Board → Int)
    (hmm : ∀ d m alpha beta b, mm d m alpha beta b = (mmV d m alpha beta b, b))
    (player : Cell) (depth : Nat) :
    ∀ (rows : List (Fin 3)) (me alpha beta : Int) (b : Board),
      minRows mm player depth rows me alpha beta b =
        (minRowsV mmV player depth rows me alpha beta b, b) := by
  intro rows
  induction rows with
  | nil => intro me alpha beta b; rfl
  | cons r rest ih =>
    intro me alpha beta b
    unfold minRows minRowsV
    dsimp only
    rw [minCols_eq mm mmV hmm player depth r range3 me alpha beta b]
    exact ih _ _ _ b

theorem minimax_eq_pair (npc player : Cell) :
    ∀ (fuel depth : Nat) (m : Bool) (alpha beta : Int) (b : Board),
      minimax npc player fuel depth m alpha beta b =
        (abVal npc player fuel depth m alpha beta b, b) := by
  intro fuel
  induction fuel with
  | zero =>
    intro depth m alpha beta b
    unfold minimax abVal
    dsimp only
    split
    · rfl
    · split
      · rfl
      · rfl
  | succ f ih =>
    intro depth m alpha beta b
    unfold minimax abVal
    dsimp only
    split
    · rfl
    · split
      · rfl
      · split
        · rfl
        · split
          · exact maxRows_eq _ _ (fun d mm a bb bo => ih d mm a bb bo)
              npc depth range3 _ _ _ b
          · exact minRows_eq _ _ (fun d mm a bb bo => ih d mm a bb bo)
              player depth range3 _ _ _ b

theorem hardLoop_eq (npc player : Cell) :
    ∀ (l : List (Fin 3 × Fin 3)) (best : Int) (bm : Option (Fin 3 × Fin 3))
      (b : Board),
      hardLoop npc player l best bm b =
        ((hardLoopV npc player b l best bm).1,
          (hardLoopV npc player b l best bm).2, b) := by
  intro l
  induction l with
  | nil => intro best bm b; rfl
  | cons rc rest ih =>
    intro best bm b
    unfold hardLoop hardLoopV
    by_cases hE : b rc.1 rc.2 = Cell.E
    · rw [if_pos hE, if_pos hE]
      simp only [minimax_eq_pair]
      rw [setCell_restore b rc.1 rc.2 npc hE]
      split
      · exact ih _ _ b
      · exact ih _ _ b
    · rw [if_neg hE, if_neg hE]
      exact ih _ _ b

theorem hard_move_eq (npc player : Cell) (b : Board) :
    hard_move npc player b = ((hardBest npc player b).2, b) := by
  unfold hard_move hardBest
  rw [hardLoop_eq npc player coords (-maxsize) none b]

/-! ## Fuel irrelevance of the search -/

theorem maxColsV_congr (mm1 mm2 : Nat → Bool → Int → Int → Board → Int)
    (npc : Cell) (depth : Nat) (r : Fin 3) :
    ∀ (cols : List (Fin 3)) (me alpha beta : Int) (b : Board),
      (∀ c ∈ cols, b r c = Cell.E → ∀ a2 b2 : Int,
        mm1 (depth + 1) false a2 b2 (setCell b r c npc) =
        mm2 (depth + 1) false a2 b2 (setCell b r c npc)) →
      maxColsV mm1 npc depth r cols me alpha beta b =
      maxColsV mm2 npc depth r cols me alpha beta b := by
  intro cols
  induction cols with
  | nil => intro me alpha beta b _; rfl
  | cons c rest ih =>
    intro me alpha beta b h
    unfold maxColsV
    by_cases hE : b r c = Cell.E
    · rw [if_pos hE, if_pos hE,
        h c (List.mem_cons_self c rest) hE alpha beta]
      dsimp only
      split
      · rfl
      · exact ih _ _ _ b (fun x hx => h x (List.mem_cons_of_mem c hx))
    · rw [if_neg hE, if_neg hE]
      exact ih _ _ _ b (fun x hx => h x (List.mem_cons_of_mem c hx))

theorem maxRowsV_congr (mm1 mm2 : Nat → Bool → Int → Int → Board → Int)
    (npc : Cell) (depth : Nat) :
    ∀ (rows : List (Fin 3)) (me alpha beta : Int) (b : Board),
      (∀ r ∈ rows, ∀ c : Fin 3, b r c = Cell.E → ∀ a2 b2 : Int,
        mm1 (depth + 1) false a2 b2 (setCell b r c npc) =
        mm2 (depth + 1) false a2 b2 (setCell b r c npc)) →
      maxRowsV mm1 npc depth rows me alpha beta b =
      maxRowsV mm2 npc depth rows me alpha beta b := by
  intro rows
  induction rows with
  | nil => intro me alpha beta b _; rfl
  | cons r rest ih =>
    intro me alpha beta b h
    unfold maxRowsV
    dsimp only
    rw [maxColsV_congr mm1 mm2 npc depth r range3 me alpha beta b
      (fun c _ => h r (List.mem_cons_self r rest) c)]
    exact ih _ _ _ b (fun x hx => h x (List.mem_cons_of_mem r hx))

theorem minColsV_congr (mm1 mm2 : Nat → Bool → Int → Int → Board → Int)
    (player : Cell) (depth : Nat) (r : Fin 3) :
    ∀ (cols : List (Fin 3)) (me alpha beta : Int) (b : Board),
      (∀ c ∈ cols, b r c = Cell.E → ∀ a2 b2 : Int,
        mm1 (depth + 1) true a2 b2 (setCell b r c player) =
        mm2 (depth + 1) true a2 b2 (setCell b r c player)) →
      minColsV mm1 player depth r cols me alpha beta b =
      minColsV mm2 player depth r cols me alpha beta b := by
  intro cols
  induction cols with
  | nil => intro me alpha beta b _; rfl
  | cons c rest ih =>
    intro me alpha beta b h
    unfold minColsV
    by_cases hE : b r c = Cell.E
    · rw [if_pos hE, if_pos hE,
        h c (List.mem_cons_self c rest) hE alpha beta]
      dsimp only
      split
      · rfl
      · exact ih _ _ _ b (fun x hx => h x (List.mem_cons_of_mem c hx))
    · rw [if_neg hE, if_neg hE]
      exact ih _ _ _ b (fun x hx => h x (List.mem_cons_of_mem c hx))

theorem minRowsV_congr (mm1 mm2 : Nat → Bool → Int → Int → Board → Int)
    (player : Cell) (depth : Nat) :
    ∀ (rows : List (Fin 3)) (me alpha beta : Int) (b : Board),
      (∀ r ∈ rows, ∀ c : Fin 3, b r c = Cell.E → ∀ a2 b2 : Int,
        mm1 (depth + 1) true a2 b2 (setCell b r c player) =
        mm2 (depth + 1) true a2 b2 (setCell b r c player)) →
      minRowsV mm1 player depth rows me alpha beta b =
      minRowsV mm2 player depth rows me alpha beta b := by
  intro rows
  induction rows with
  | nil => intro me alpha beta b _; rfl
  | cons r rest ih =>
    intro me alpha beta b h
    unfold minRowsV
    dsimp only
    rw [minColsV_congr mm1 mm2 player depth r range3 me alpha beta b
      (fun c _ => h r (List.mem_cons_self r rest) c)]
    exact ih _ _ _ b (fun x hx => h x (List.mem_cons_of_mem r hx))

/-- On a full board the search returns the terminal score at any fuel. -/
theorem abVal_full (npc player : Cell) (fuel depth : Nat) (m : Bool)
    (alpha beta : Int) (b : Board) (hf : is_full b = true) :
    abVal npc player fuel depth m alpha beta b =
      (if check_winner b = some npc then 10 - (depth : Int)
       else if check_winner b = some player then (depth : Int) - 10
       else 0) := by
  cases fuel with
  | zero => rfl
  | succ f =>
    unfold abVal
    dsimp only
    by_cases h1 : check_winner b = some npc
    · rw [if_pos h1, if_pos h1]
    · rw [if_neg h1, if_neg h1]
      by_cases h2 : check_winner b = some player
      · rw [if_pos h2, if_pos h2]
      · rw [if_neg h2, if_neg h2, if_pos hf]

theorem abVal_fuel_irrel (npc player : Cell) (hnpc : npc ≠ Cell.E)
    (hplayer : player ≠ Cell.E) :
    ∀ (f g depth : Nat) (m : Bool) (alpha beta : Int) (b : Board),
      emptyCount b ≤ f → emptyCount b ≤ g →
      abVal npc player f depth m alpha beta b =
      abVal npc player g depth m alpha beta b := by
  intro f
  induction f with
  | zero =>
    intro g depth m alpha beta b hf hg
    have hfull : is_full b = true :=
      (is_full_iff_emptyCount b).mpr (Nat.le_zero.mp hf)
    rw [abVal_full npc player 0 depth m alpha beta b hfull,
      abVal_full npc player g depth m alpha beta b hfull]
  | succ f ih =>
    intro g depth m alpha beta b hf hg
    cases g with
    | zero =>
      have hfull : is_full b = true :=
        (is_full_iff_emptyCount b).mpr (Nat.le_zero.mp hg)
      rw [abVal_full npc player (f + 1) depth m alpha beta b hfull,
        abVal_full npc player 0 depth m alpha beta b hfull]
    | succ g =>
      unfold abVal
      dsimp only
      by_cases h1 : check_winner b = some npc
      · rw [if_pos h1, if_pos h1]
      · rw [if_neg h1, if_neg h1]
        by_cases h2 : check_winner b = some player
        · rw [if_pos h2, if_pos h2]
        · rw [if_neg h2, if_neg h2]
          by_cases h3 : is_full b = true
          · rw [if_pos h3, if_pos h3]
          · rw [if_neg h3, if_neg h3]
            have hchild : ∀ (r c : Fin 3) (s : Cell), b r c = Cell.E →
                s ≠ Cell.E → emptyCount (setCell b r c s) ≤ f ∧
                emptyCount (setCell b r c s) ≤ g := by
              intro r c s hE hs
              have := emptyCount_setCell b r c s hE hs
              omega
            cases m with
            | true =>
              apply maxRowsV_congr
              intro r _ c hE a2 b2
              exact ih g (depth + 1) false a2 b2 (setCell b r c npc)
                (hchild r c npc hE hnpc).1 (hchild r c npc hE hnpc).2
            | false =>
              apply minRowsV_congr
              intro r _ c hE a2 b2
              exact ih g (depth + 1) true a2 b2 (setCell b r c player)
                (hchild r c player hE hplayer).1 (hchild r c player hE hplayer).2

/-- **C10.** The recursion of `minimax` is bounded by the number of empty
cells: placing a symbol on an empty cell strictly decreases the empty-cell
count (which is at most 9), and the search result is already stable at
fuel `emptyCount b` — any larger recursion budget, such as the `9` used by
`hard_move`, computes the same value, so `minimax` (and with it
`hard_move` and `medium_move`) terminates on every board. -/
theorem C10_termination :
    (∀ (b : Board) (r c : Fin 3) (s : Cell), b r c = Cell.E → s ≠ Cell.E →
      emptyCount (setCell b r c s) < emptyCount b) ∧
    (∀ b : Board, emptyCount b ≤ 9) ∧
    (∀ (npc player : Cell), npc ≠ Cell.E → player ≠ Cell.E →
      ∀ (fuel depth : Nat) (m : Bool) (alpha beta : Int) (b : Board),
        emptyCount b ≤ fuel →
        minimax npc player fuel depth m alpha beta b =
        minimax npc player (emptyCount b) depth m alpha beta b) := by
  refine ⟨?_, emptyCount_le_nine, ?_⟩
  · intro b r c s hE hs
    have := emptyCount_setCell b r c s hE hs
    omega
  · intro npc player hnpc hplayer fuel depth m alpha beta b hle
    rw [minimax_eq_pair, minimax_eq_pair]
    rw [abVal_fuel_irrel npc player hnpc hplayer fuel (emptyCount b) depth m
      alpha beta b hle (Nat.le_refl _)]

/-- Witness for C10 at concrete inputs: one placement on a two-empty-cell
board decreases the empty count, and the `hard_move` fuel `9` already
agrees with fuel `emptyCount = 2` there. -/
theorem C10_termination_witness :
    emptyCount (setCell (mkBoard Cell.X Cell.O Cell.X Cell.O Cell.E Cell.O
      Cell.O Cell.X Cell.E) 1 1 Cell.O) <
      emptyCount (mkBoard Cell.X Cell.O Cell.X Cell.O Cell.E Cell.O Cell.O
        Cell.X Cell.E) ∧
    minimax Cell.O Cell.X 9 0 false (-maxsize) maxsize
      (mkBoard Cell.X Cell.O Cell.X Cell.O Cell.E Cell.O Cell.O Cell.X
        Cell.E) =
    minimax Cell.O Cell.X (emptyCount (mkBoard Cell.X Cell.O Cell.X Cell.O
      Cell.E Cell.O Cell.O Cell.X Cell.E)) 0 false (-maxsize) maxsize
      (mkBoard Cell.X Cell.O Cell.X Cell.O Cell.E Cell.O Cell.O Cell.X
        Cell.E) := by
  constructor
  · exact C10_termination.1 _ 1 1 Cell.O (by decide) (by decide)
  · exact C10_termination.2.2 Cell.O Cell.X (by decide) (by decide) 9 0 false
      (-maxsize) maxsize _ (by decide)

/-! ## Alpha-beta pruning correctness -/

theorem foldMaxIf_ge (b : Board) (r : Fin 3) (v : Fin 3 → Int) :
    ∀ (cols : List (Fin 3)) (acc : Int), acc ≤ foldMaxIf b r v cols acc := by
  intro cols
  induction cols with
  | nil => intro acc; exact le_refl acc
  | cons c rest ih =>
    intro acc
    unfold foldMaxIf
    rw [List.foldl_cons]
    by_cases hE : b r c = Cell.E
    · rw [if_pos hE]
      exact le_trans (le_max_left acc (v c)) (ih _)
    · rw [if_neg hE]
      exact ih acc

theorem foldMaxIf2_ge (b : Board) (v : Fin 3 → Fin 3 → Int) :
    ∀ (rows : List (Fin 3)) (acc : Int), acc ≤ foldMaxIf2 b v rows acc := by
  intro rows
  induction rows with
  | nil => intro acc; exact le_refl acc
  | cons r rest ih =>
    intro acc
    unfold foldMaxIf2
    rw [List.foldl_cons]
    exact le_trans (foldMaxIf_ge b r (v r) range3 acc) (ih _)

theorem foldMinIf_le (b : Board) (r : Fin 3) (v : Fin 3 → Int) :
    ∀ (cols : List (Fin 3)) (acc : Int), foldMinIf b r v cols acc ≤ acc := by
  intro cols
  induction cols with
  | nil => intro acc; exact le_refl acc
  | cons c rest ih =>
    intro acc
    unfold foldMinIf
    rw [List.foldl_cons]
    by_cases hE : b r c = Cell.E
    · rw [if_pos hE]
      exact le_trans (ih _) (min_le_left acc (v c))
    · rw [if_neg hE]
      exact ih acc

theorem foldMinIf2_le (b : Board) (v : Fin 3 → Fin 3 → Int) :
    ∀ (rows : List (Fin 3)) (acc : Int), foldMinIf2 b v rows acc ≤ acc := by
  intro rows
  induction rows with
  | nil => intro acc; exact le_refl acc
  | cons r rest ih =>
    intro acc
    unfold foldMinIf2
    rw [List.foldl_cons]
    exact le_trans (ih _) (foldMinIf_le b r (v r) range3 acc)

/-- The pruned maximizing inner loop computes, up to clamping into the
window, the same value as the unpruned fold; the loop state keeps
`alpha = max α0 max_eval` and either the two sides agree under the clamp
and are below `beta`, or both have failed high. -/
theorem maxColsV_clamp (mm : Nat → Bool → Int → Int → Board → Int)
    (npc : Cell) (d : Nat) (r : Fin 3) (b : Board) (a0 bb : Int)
    (hab : a0 < bb) (vch : Fin 3 → Int)
    (hIH : ∀ c : Fin 3, b r c = Cell.E → ∀ a : Int, a0 ≤ a → a < bb →
      max a (min bb (mm (d + 1) false a bb (setCell b r c npc))) =
      max a (min bb (vch c))) :
    ∀ (cols : List (Fin 3)) (me W0 alpha : Int),
      alpha = max a0 me →
      ((max a0 (min bb me) = max a0 (min bb W0) ∧ me < bb ∧ W0 < bb) ∨
        (bb ≤ me ∧ bb ≤ W0)) →
      (maxColsV mm npc d r cols me alpha bb b).2 =
          max a0 (maxColsV mm npc d r cols me alpha bb b).1 ∧
      ((max a0 (min bb (maxColsV mm npc d r cols me alpha bb b).1) =
          max a0 (min bb (foldMaxIf b r vch cols W0)) ∧
        (maxColsV mm npc d r cols me alpha bb b).1 < bb ∧
        foldMaxIf b r vch cols W0 < bb) ∨
       (bb ≤ (maxColsV mm npc d r cols me alpha bb b).1 ∧
        bb ≤ foldMaxIf b r vch cols W0)) := by
  intro cols
  induction cols with
  | nil =>
    intro me W0 alpha hA hInv
    exact ⟨hA, hInv⟩
  | cons c rest ih =>
    intro me W0 alpha hA hInv
    unfold maxColsV foldMaxIf
    rw [List.foldl_cons]
    by_cases hE : b r c = Cell.E
    · rw [if_pos hE, if_pos hE]
      dsimp only
      have halpha0 : a0 ≤ alpha := by omega
      rcases hInv with ⟨hsync, hmeb, hWb⟩ | ⟨hme2, hW2⟩
      · -- still synchronized
        have halphab : alpha < bb := by omega
        have hg := hIH c hE alpha halpha0 halphab
        by_cases hcut : bb ≤ max alpha (mm (d + 1) false alpha bb
            (setCell b r c npc))
        · rw [if_pos hcut]
          refine ⟨by omega, Or.inr ⟨by omega, ?_⟩⟩
          have hacc : bb ≤ max W0 (vch c) := by omega
          exact le_trans hacc (foldMaxIf_ge b r vch rest _)
        · rw [if_neg hcut]
          have hres := ih (max me (mm (d + 1) false alpha bb
              (setCell b r c npc)))
            (max W0 (vch c))
            (max alpha (mm (d + 1) false alpha bb (setCell b r c npc)))
            (by omega) (Or.inl ⟨by omega, by omega, by omega⟩)
          exact hres
      · -- both sides already failed high: alpha ≥ beta, cut at once
        have hcut : bb ≤ max alpha (mm (d + 1) false alpha bb
            (setCell b r c npc)) := by omega
        rw [if_pos hcut]
        refine ⟨by omega, Or.inr ⟨by omega, ?_⟩⟩
        have hacc : bb ≤ max W0 (vch c) := by omega
        exact le_trans hacc (foldMaxIf_ge b r vch rest _)
    · rw [if_neg hE, if_neg hE]
      exact ih me W0 alpha hA hInv

theorem maxRowsV_clamp (mm : Nat → Bool → Int → Int → Board → Int)
    (npc : Cell) (d : Nat) (b : Board) (a0 bb : Int)
    (hab : a0 < bb) (vch : Fin 3 → Fin 3 → Int)
    (hIH : ∀ r c : Fin 3, b r c = Cell.E → ∀ a : Int, a0 ≤ a → a < bb →
      max a (min bb (mm (d + 1) false a bb (setCell b r c npc))) =
      max a (min bb (vch r c))) :
    ∀ (rows : List (Fin 3)) (me W0 alpha : Int),
      alpha = max a0 me →
      ((max a0 (min bb me) = max a0 (min bb W0) ∧ me < bb ∧ W0 < bb) ∨
        (bb ≤ me ∧ bb ≤ W0)) →
      ((max a0 (min bb (maxRowsV mm npc d rows me alpha bb b)) =
          max a0 (min bb (foldMaxIf2 b vch rows W0)) ∧
        maxRowsV mm npc d rows me alpha bb b < bb ∧
        foldMaxIf2 b vch rows W0 < bb) ∨
       (bb ≤ maxRowsV mm npc d rows me alpha bb b ∧
        bb ≤ foldMaxIf2 b vch rows W0)) := by
  intro rows
  induction rows with
  | nil =>
    intro me W0 alpha hA hInv
    exact hInv
  | cons r rest ih =>
    intro me W0 alpha hA hInv
    unfold maxRowsV foldMaxIf2
    rw [List.foldl_cons]
    dsimp only
    have hinner := maxColsV_clamp mm npc d r b a0 bb hab (vch r)
      (fun c hc => hIH r c hc) range3 me W0 alpha hA hInv
    exact ih _ _ _ hinner.1 hinner.2

/-- The pruned minimizing inner loop, mirror statement. -/
theorem minColsV_clamp (mm : Nat → Bool → Int → Int → Board → Int)
    (player : Cell) (d : Nat) (r : Fin 3) (b : Board) (aa b0 : Int)
    (hab : aa < b0) (vch : Fin 3 → Int)
    (hIH : ∀ c : Fin 3, b r c = Cell.E → ∀ bv : Int, bv ≤ b0 → aa < bv →
      max aa (min bv (mm (d + 1) true aa bv (setCell b r c player))) =
      max aa (min bv (vch c))) :
    ∀ (cols : List (Fin 3)) (me W0 beta : Int),
      beta = min b0 me →
      ((max aa (min b0 me) = max aa (min b0 W0) ∧ aa < me ∧ aa < W0) ∨
        (me ≤ aa ∧ W0 ≤ aa)) →
      (minColsV mm player d r cols me aa beta b).2 =
          min b0 (minColsV mm player d r cols me aa beta b).1 ∧
      ((max aa (min b0 (minColsV mm player d r cols me aa beta b).1) =
          max aa (min b0 (foldMinIf b r vch cols W0)) ∧
        aa < (minColsV mm player d r cols me aa beta b).1 ∧
        aa < foldMinIf b r vch cols W0) ∨
       ((minColsV mm player d r cols me aa beta b).1 ≤ aa ∧
        foldMinIf b r vch cols W0 ≤ aa)) := by
  intro cols
  induction cols with
  | nil =>
    intro me W0 beta hB hInv
    exact ⟨hB, hInv⟩
  | cons c rest ih =>
    intro me W0 beta hB hInv
    unfold minColsV foldMinIf
    rw [List.foldl_cons]
    by_cases hE : b r c = Cell.E
    · rw [if_pos hE, if_pos hE]
      dsimp only
      have hbeta0 : beta ≤ b0 := by omega
      rcases hInv with ⟨hsync, hmea, hWa⟩ | ⟨hme2, hW2⟩
      · have hbetaa : aa < beta := by omega
        have hg := hIH c hE beta hbeta0 hbetaa
        by_cases hcut : min beta (mm (d + 1) true aa beta
            (setCell b r c player)) ≤ aa
        · rw [if_pos hcut]
          refine ⟨by omega, Or.inr ⟨by omega, ?_⟩⟩
          have hacc : min W0 (vch c) ≤ aa := by omega
          exact le_trans (foldMinIf_le b r vch rest _) hacc
        · rw [if_neg hcut]
          have hres := ih (min me (mm (d + 1) true aa beta
              (setCell b r c player)))
            (min W0 (vch c))
            (min beta (mm (d + 1) true aa beta (setCell b r c player)))
            (by omega) (Or.inl ⟨by omega, by omega, by omega⟩)
          exact hres
      · have hcut : min beta (mm (d + 1) true aa beta
            (setCell b r c player)) ≤ aa := by omega
        rw [if_pos hcut]
        refine ⟨by omega, Or.inr ⟨by omega, ?_⟩⟩
        have hacc : min W0 (vch c) ≤ aa := by omega
        exact le_trans (foldMinIf_le b r vch rest _) hacc
    · rw [if_neg hE, if_neg hE]
      exact ih me W0 beta hB hInv

theorem minRowsV_clamp (mm : Nat → Bool → Int → Int → Board → Int)
    (player : Cell) (d : Nat) (b : Board) (aa b0 : Int)
    (hab : aa < b0) (vch : Fin 3 → Fin 3 → Int)
    (hIH : ∀ r c : Fin 3, b r c = Cell.E → ∀ bv : Int, bv ≤ b0 → aa < bv →
      max aa (min bv (mm (d + 1) true aa bv (setCell b r c player))) =
      max aa (min bv (vch r c))) :
    ∀ (rows : List (Fin 3)) (me W0 beta : Int),
      beta = min b0 me →
      ((max aa (min b0 me) = max aa (min b0 W0) ∧ aa < me ∧ aa < W0) ∨
        (me ≤ aa ∧ W0 ≤ aa)) →
      ((max aa (min b0 (minRowsV mm player d rows me aa beta b)) =
          max aa (min b0 (foldMinIf2 b vch rows W0)) ∧
        aa < minRowsV mm player d rows me aa beta b ∧
        aa < foldMinIf2 b vch rows W0) ∨
       (minRowsV mm player d rows me aa beta b ≤ aa ∧
        foldMinIf2 b vch rows W0 ≤ aa)) := by
  intro rows
  induction rows with
  | nil =>
    intro me W0 beta hB hInv
    exact hInv
  | cons r rest ih =>
    intro me W0 beta hB hInv
    unfold minRowsV foldMinIf2
    rw [List.foldl_cons]
    dsimp only
    have hinner := minColsV_clamp mm player d r b aa b0 hab (vch r)
      (fun c hc => hIH r c hc) range3 me W0 beta hB hInv
    exact ih _ _ _ hinner.1 hinner.2

theorem plainVal_max_fold (npc player : Cell) (f d : Nat) (b : Board) :
    coords.foldl
      (fun acc rc =>
        if b rc.1 rc.2 = Cell.E then
          max acc (plainVal npc player f (d + 1) false
            (setCell b rc.1 rc.2 npc))
        else acc)
      (-maxsize) =
    foldMaxIf2 b
      (fun r c => plainVal npc player f (d + 1) false (setCell b r c npc))
      range3 (-maxsize) := rfl

theorem plainVal_min_fold (npc player : Cell) (f d : Nat) (b : Board) :
    coords.foldl
      (fun acc rc =>
        if b rc.1 rc.2 = Cell.E then
          min acc (plainVal npc player f (d + 1) true
            (setCell b rc.1 rc.2 player))
        else acc)
      maxsize =
    foldMinIf2 b
      (fun r c => plainVal npc player f (d + 1) true (setCell b r c player))
      range3 maxsize := rfl

/-- Clamped into the window, the alpha-beta search agrees with the
unpruned search: the pruning cutoffs change neither an exact value inside
the window nor the side of the window on which the value falls. -/
theorem abVal_clamp (npc player : Cell) :
    ∀ (f d : Nat) (m : Bool) (alpha beta : Int) (b : Board),
      alpha < beta → -maxsize ≤ alpha → beta ≤ maxsize →
      max alpha (min beta (abVal npc player f d m alpha beta b)) =
      max alpha (min beta (plainVal npc player f d m b)) := by
  intro f
  induction f with
  | zero =>
    intro d m alpha beta b _ _ _
    rfl
  | succ f ih =>
    intro d m alpha beta b hab hA hB
    unfold abVal plainVal
    dsimp only
    by_cases h1 : check_winner b = some npc
    · rw [if_pos h1, if_pos h1]
    · rw [if_neg h1, if_neg h1]
      by_cases h2 : check_winner b = some player
      · rw [if_pos h2, if_pos h2]
      · rw [if_neg h2, if_neg h2]
        by_cases h3 : is_full b = true
        · rw [if_pos h3, if_pos h3]
        · rw [if_neg h3, if_neg h3]
          cases m with
          | true =>
            rw [if_pos rfl, if_pos rfl]
            rw [plainVal_max_fold npc player f d b]
            have hres := maxRowsV_clamp (abVal npc player f) npc d b
              alpha beta hab
              (fun r c => plainVal npc player f (d + 1) false
                (setCell b r c npc))
              (fun r c hE a ha0 hab2 =>
                ih (d + 1) false a beta (setCell b r c npc) hab2
                  (le_trans hA ha0) hB)
              range3 (-maxsize) (-maxsize) alpha
              (by omega) (Or.inl ⟨rfl, by omega, by omega⟩)
            rcases hres with ⟨hsync, _, _⟩ | ⟨hhi1, hhi2⟩
            · exact hsync
            · omega
          | false =>
            rw [if_neg (by simp), if_neg (by simp)]
            rw [plainVal_min_fold npc player f d b]
            have hres := minRowsV_clamp (abVal npc player f) player d b
              alpha beta hab
              (fun r c => plainVal npc player f (d + 1) true
                (setCell b r c player))
              (fun r c hE bv hb0 hab2 =>
                ih (d + 1) true alpha bv (setCell b r c player) hab2
                  hA (le_trans hb0 hB))
              range3 maxsize maxsize beta
              (by omega) (Or.inl ⟨rfl, by omega, by omega⟩)
            rcases hres with ⟨hsync, _, _⟩ | ⟨hlo1, hlo2⟩
            · exact hsync
            · omega

/-! ## Value bounds for the searches -/

theorem mem_range3 (c : Fin 3) : c ∈ range3 := by
  fin_cases c <;> decide

theorem not_full_exists (b : Board) (h : is_full b = false) :
    ∃ r c : Fin 3, b r c = Cell.E := by
  by_contra hne
  push_neg at hne
  have : is_full b = true := by
    rw [is_full, List.all_eq_true]
    intro rc _
    simpa using hne rc.1 rc.2
  simp [this] at h

theorem maxColsV_ge_init (mm : Nat → Bool → Int → Int → Board → Int)
    (npc : Cell) (d : Nat) (r : Fin 3) :
    ∀ (cols : List (Fin 3)) (me alpha beta : Int) (b : Board),
      me ≤ (maxColsV mm npc d r cols me alpha beta b).1 := by
  intro cols
  induction cols with
  | nil => intro me alpha beta b; exact le_refl me
  | cons c rest ih =>
    intro me alpha beta b
    unfold maxColsV
    by_cases hE : b r c = Cell.E
    · rw [if_pos hE]
      dsimp only
      split
      · exact le_max_left _ _
      · exact le_trans (le_max_left _ _) (ih _ _ _ b)
    · rw [if_neg hE]
      exact ih _ _ _ b

theorem maxColsV_le (mm : Nat → Bool → Int → Int → Board → Int)
    (npc : Cell) (d : Nat) (r : Fin 3) (b : Board) (K : Int)
    (hK : ∀ c : Fin 3, b r c = Cell.E → ∀ a2 b2 : Int,
      mm (d + 1) false a2 b2 (setCell b r c npc) ≤ K) :
    ∀ (cols : List (Fin 3)) (me alpha beta : Int),
      (maxColsV mm npc d r cols me alpha beta b).1 ≤ max me K := by
  intro cols
  induction cols with
  | nil => intro me alpha beta; exact le_max_left me K
  | cons c rest ih =>
    intro me alpha beta
    unfold maxColsV
    by_cases hE : b r c = Cell.E
    · rw [if_pos hE]
      dsimp only
      have hc := hK c hE alpha beta
      split
      · omega
      · have := ih (max me (mm (d + 1) false alpha beta (setCell b r c npc)))
          (max alpha (mm (d + 1) false alpha beta (setCell b r c npc))) beta
        omega
    · rw [if_neg hE]
      exact ih me alpha beta

theorem maxColsV_lower (mm : Nat → Bool → Int → Int → Board → Int)
    (npc : Cell) (d : Nat) (r : Fin 3) (b : Board) (K : Int)
    (hK : ∀ c : Fin 3, b r c = Cell.E → ∀ a2 b2 : Int,
      -K ≤ mm (d + 1) false a2 b2 (setCell b r c npc)) :
    ∀ (cols : List (Fin 3)) (me alpha beta : Int),
      (∃ c ∈ cols, b r c = Cell.E) →
      -K ≤ (maxColsV mm npc d r cols me alpha beta b).1 := by
  intro cols
  induction cols with
  | nil => intro me alpha beta h; obtain ⟨c, hc, _⟩ := h; cases hc
  | cons c rest ih =>
    intro me alpha beta hex
    unfold maxColsV
    by_cases hE : b r c = Cell.E
    · rw [if_pos hE]
      dsimp only
      have hc := hK c hE alpha beta
      split
      · omega
      · have := maxColsV_ge_init mm npc d r rest
          (max me (mm (d + 1) false alpha beta (setCell b r c npc)))
          (max alpha (mm (d + 1) false alpha beta (setCell b r c npc))) beta b
        omega
    · rw [if_neg hE]
      obtain ⟨x, hx, hxE⟩ := hex
      rcases List.mem_cons.mp hx with h1 | h1
      · exact absurd (h1 ▸ hxE) hE
      · exact ih me alpha beta ⟨x, h1, hxE⟩

theorem maxRowsV_ge_init (mm : Nat → Bool → Int → Int → Board → Int)
    (npc : Cell) (d : Nat) :
    ∀ (rows : List (Fin 3)) (me alpha beta : Int) (b : Board),
      me ≤ maxRowsV mm npc d rows me alpha beta b := by
  intro rows
  induction rows with
  | nil => intro me alpha beta b; exact le_refl me
  | cons r rest ih =>
    intro me alpha beta b
    unfold maxRowsV
    dsimp only
    exact le_trans (maxColsV_ge_init mm npc d r range3 me alpha beta b)
      (ih _ _ _ b)

theorem maxRowsV_le (mm : Nat → Bool → Int → Int → Board → Int)
    (npc : Cell) (d : Nat) (b : Board) (K : Int)
    (hK : ∀ r c : Fin 3, b r c = Cell.E → ∀ a2 b2 : Int,
      mm (d + 1) false a2 b2 (setCell b r c npc) ≤ K) :
    ∀ (rows : List (Fin 3)) (me alpha beta : Int),
      maxRowsV mm npc d rows me alpha beta b ≤ max me K := by
  intro rows
  induction rows with
  | nil => intro me alpha beta; exact le_max_left me K
  | cons r rest ih =>
    intro me alpha beta
    unfold maxRowsV
    dsimp only
    have h1 := maxColsV_le mm npc d r b K (fun c => hK r c) range3 me alpha beta
    have h2 := ih (maxColsV mm npc d r range3 me alpha beta b).1
      (maxColsV mm npc d r range3 me alpha beta b).2 beta
    omega

theorem maxRowsV_lower (mm : Nat → Bool → Int → Int → Board → Int)
    (npc : Cell) (d : Nat) (b : Board) (K : Int)
    (hK : ∀ r c : Fin 3, b r c = Cell.E → ∀ a2 b2 : Int,
      -K ≤ mm (d + 1) false a2 b2 (setCell b r c npc)) :
    ∀ (rows : List (Fin 3)) (me alpha beta : Int),
      (∃ r ∈ rows, ∃ c : Fin 3, b r c = Cell.E) →
      -K ≤ maxRowsV mm npc d rows me alpha beta b := by
  intro rows
  induction rows with
  | nil => intro me alpha beta h; obtain ⟨r, hr, _⟩ := h; cases hr
  | cons r rest ih =>
    intro me alpha beta hex
    unfold maxRowsV
    dsimp only
    obtain ⟨r0, hr0, c0, hc0⟩ := hex
    rcases List.mem_cons.mp hr0 with h1 | h1
    · subst h1
      have hin := maxColsV_lower mm npc d r0 b K (fun c => hK r0 c) range3
        me alpha beta ⟨c0, mem_range3 c0, hc0⟩
      exact le_trans hin (maxRowsV_ge_init mm npc d rest _ _ beta b)
    · exact ih _ _ _ ⟨r0, h1, c0, hc0⟩

theorem minColsV_le_init (mm : Nat → Bool → Int → Int → Board → Int)
    (player : Cell) (d : Nat) (r : Fin 3) :
    ∀ (cols : List (Fin 3)) (me alpha beta : Int) (b : Board),
      (minColsV mm player d r cols me alpha beta b).1 ≤ me := by
  intro cols
  induction cols with
  | nil => intro me alpha beta b; exact le_refl me
  | cons c rest ih =>
    intro me alpha beta b
    unfold minColsV
    by_cases hE : b r c = Cell.E
    · rw [if_pos hE]
      dsimp only
      split
      · exact min_le_left _ _
      · exact le_trans (ih _ _ _ b) (min_le_left _ _)
    · rw [if_neg hE]
      exact ih _ _ _ b

theorem minColsV_ge (mm : Nat → Bool → Int → Int → Board → Int)
    (player : Cell) (d : Nat) (r : Fin 3) (b : Board) (K : Int)
    (hK : ∀ c : Fin 3, b r c = Cell.E → ∀ a2 b2 : Int,
      -K ≤ mm (d + 1) true a2 b2 (setCell b r c player)) :
    ∀ (cols : List (Fin 3)) (me alpha beta : Int),
      min me (-K) ≤ (minColsV mm player d r cols me alpha beta b).1 := by
  intro cols
  induction cols with
  | nil => intro me alpha beta; exact min_le_left me (-K)
  | cons c rest ih =>
    intro me alpha beta
    unfold minColsV
    by_cases hE : b r c = Cell.E
    · rw [if_pos hE]
      dsimp only
      have hc := hK c hE alpha beta
      split
      · omega
      · have := ih (min me (mm (d + 1) true alpha beta (setCell b r c player)))
          alpha (min beta (mm (d + 1) true alpha beta (setCell b r c player)))
        omega
    · rw [if_neg hE]
      exact ih me alpha beta

theorem minColsV_upper (mm : Nat → Bool → Int → Int → Board → Int)
    (player : Cell) (d : Nat) (r : Fin 3) (b : Board) (K : Int)
    (hK : ∀ c : Fin 3, b r c = Cell.E → ∀ a2 b2 : Int,
      mm (d + 1) true a2 b2 (setCell b r c player) ≤ K) :
    ∀ (cols : List (Fin 3)) (me alpha beta : Int),
      (∃ c ∈ cols, b r c = Cell.E) →
      (minColsV mm player d r cols me alpha beta b).1 ≤ K := by
  intro cols
  induction cols with
  | nil => intro me alpha beta h; obtain ⟨c, hc, _⟩ := h; cases hc
  | cons c rest ih =>
    intro me alpha beta hex
    unfold minColsV
    by_cases hE : b r c = Cell.E
    · rw [if_pos hE]
      dsimp only
      have hc := hK c hE alpha beta
      split
      · omega
      · have := minColsV_le_init mm player d r rest
          (min me (mm (d + 1) true alpha beta (setCell b r c player)))
          alpha (min beta (mm (d + 1) true alpha beta (setCell b r c player))) b
        omega
    · rw [if_neg hE]
      obtain ⟨x, hx, hxE⟩ := hex
      rcases List.mem_cons.mp hx with h1 | h1
      · exact absurd (h1 ▸ hxE) hE
      · exact ih me alpha beta ⟨x, h1, hxE⟩

theorem minRowsV_le_init (mm : Nat → Bool → Int → Int → Board → Int)
    (player : Cell) (d : Nat) :
    ∀ (rows : List (Fin 3)) (me alpha beta : Int) (b : Board),
      minRowsV mm player d rows me alpha beta b ≤ me := by
  intro rows
  induction rows with
  | nil => intro me alpha beta b; exact le_refl me
  | cons r rest ih =>
    intro me alpha beta b
    unfold minRowsV
    dsimp only
    exact le_trans (ih _ _ _ b)
      (minColsV_le_init mm player d r range3 me alpha beta b)

theorem minRowsV_ge (mm : Nat → Bool → Int → Int → Board → Int)
    (player : Cell) (d : Nat) (b : Board) (K : Int)
    (hK : ∀ r c : Fin 3, b r c = Cell.E → ∀ a2 b2 : Int,
      -K ≤ mm (d + 1) true a2 b2 (setCell b r c player)) :
    ∀ (rows : List (Fin 3)) (me alpha beta : Int),
      min me (-K) ≤ minRowsV mm player d rows me alpha beta b := by
  intro rows
  induction rows with
  | nil => intro me alpha beta; exact min_le_left me (-K)
  | cons r rest ih =>
    intro me alpha beta
    unfold minRowsV
    dsimp only
    have h1 := minColsV_ge mm player d r b K (fun c => hK r c) range3 me
      alpha beta
    have h2 := ih (minColsV mm player d r range3 me alpha beta b).1
      alpha (minColsV mm player d r range3 me alpha beta b).2
    omega

theorem minRowsV_upper (mm : Nat → Bool → Int → Int → Board → Int)
    (player : Cell) (d : Nat) (b : Board) (K : Int)
    (hK : ∀ r c : Fin 3, b r c = Cell.E → ∀ a2 b2 : Int,
      mm (d + 1) true a2 b2 (setCell b r c player) ≤ K) :
    ∀ (rows : List (Fin 3)) (me alpha beta : Int),
      (∃ r ∈ rows, ∃ c : Fin 3, b r c = Cell.E) →
      minRowsV mm player d rows me alpha beta b ≤ K := by
  intro rows
  induction rows with
  | nil => intro me alpha beta h; obtain ⟨r, hr, _⟩ := h; cases hr
  | cons r rest ih =>
    intro me alpha beta hex
    unfold minRowsV
    dsimp only
    obtain ⟨r0, hr0, c0, hc0⟩ := hex
    rcases List.mem_cons.mp hr0 with h1 | h1
    · subst h1
      have hin := minColsV_upper mm player d r0 b K (fun c => hK r0 c) range3
        me alpha beta ⟨c0, mem_range3 c0, hc0⟩
      exact le_trans (minRowsV_le_init mm player d rest _ _ _ b) hin
    · exact ih _ _ _ ⟨r0, h1, c0, hc0⟩

theorem maxsize_pos : (0 : Int) < maxsize := by norm_num [maxsize]

theorem foldMaxIf_cons (b : Board) (r : Fin 3) (v : Fin 3 → Int)
    (c : Fin 3) (rest : List (Fin 3)) (acc : Int) :
    foldMaxIf b r v (c :: rest) acc =
    foldMaxIf b r v rest (if b r c = Cell.E then max acc (v c) else acc) := by
  unfold foldMaxIf
  rw [List.foldl_cons]

theorem foldMaxIf2_cons (b : Board) (v : Fin 3 → Fin 3 → Int)
    (r : Fin 3) (rest : List (Fin 3)) (acc : Int) :
    foldMaxIf2 b v (r :: rest) acc =
    foldMaxIf2 b v rest (foldMaxIf b r (v r) range3 acc) := by
  unfold foldMaxIf2
  rw [List.foldl_cons]

theorem foldMinIf_cons (b : Board) (r : Fin 3) (v : Fin 3 → Int)
    (c : Fin 3) (rest : List (Fin 3)) (acc : Int) :
    foldMinIf b r v (c :: rest) acc =
    foldMinIf b r v rest (if b r c = Cell.E then min acc (v c) else acc) := by
  unfold foldMinIf
  rw [List.foldl_cons]

theorem foldMinIf2_cons (b : Board) (v : Fin 3 → Fin 3 → Int)
    (r : Fin 3) (rest : List (Fin 3)) (acc : Int) :
    foldMinIf2 b v (r :: rest) acc =
    foldMinIf2 b v rest (foldMinIf b r (v r) range3 acc) := by
  unfold foldMinIf2
  rw [List.foldl_cons]

theorem foldMaxIf_le (b : Board) (r : Fin 3) (v : Fin 3 → Int) (K : Int)
    (hK : ∀ c : Fin 3, b r c = Cell.E → v c ≤ K) :
    ∀ (cols : List (Fin 3)) (acc : Int),
      foldMaxIf b r v cols acc ≤ max acc K := by
  intro cols
  induction cols with
  | nil => intro acc; exact le_max_left acc K
  | cons c rest ih =>
    intro acc
    rw [foldMaxIf_cons]
    by_cases hE : b r c = Cell.E
    · rw [if_pos hE]
      have h1 := hK c hE
      have h2 := ih (max acc (v c))
      omega
    · rw [if_neg hE]
      exact ih acc

theorem foldMaxIf_lower (b : Board) (r : Fin 3) (v : Fin 3 → Int) (K : Int)
    (hK : ∀ c : Fin 3, b r c = Cell.E → -K ≤ v c) :
    ∀ (cols : List (Fin 3)) (acc : Int),
      (∃ c ∈ cols, b r c = Cell.E) →
      -K ≤ foldMaxIf b r v cols acc := by
  intro cols
  induction cols with
  | nil => intro acc h; obtain ⟨c, hc, _⟩ := h; cases hc
  | cons c rest ih =>
    intro acc hex
    rw [foldMaxIf_cons]
    by_cases hE : b r c = Cell.E
    · rw [if_pos hE]
      have h1 := hK c hE
      have h2 := foldMaxIf_ge b r v rest (max acc (v c))
      omega
    · rw [if_neg hE]
      obtain ⟨x, hx, hxE⟩ := hex
      rcases List.mem_cons.mp hx with h1 | h1
      · exact absurd (h1 ▸ hxE) hE
      · exact ih acc ⟨x, h1, hxE⟩

theorem foldMaxIf2_le (b : Board) (v : Fin 3 → Fin 3 → Int) (K : Int)
    (hK : ∀ r c : Fin 3, b r c = Cell.E → v r c ≤ K) :
    ∀ (rows : List (Fin 3)) (acc : Int),
      foldMaxIf2 b v rows acc ≤ max acc K := by
  intro rows
  induction rows with
  | nil => intro acc; exact le_max_left acc K
  | cons r rest ih =>
    intro acc
    rw [foldMaxIf2_cons]
    have h1 := foldMaxIf_le b r (v r) K (fun c => hK r c) range3 acc
    have h2 := ih (foldMaxIf b r (v r) range3 acc)
    omega

theorem foldMaxIf2_lower (b : Board) (v : Fin 3 → Fin 3 → Int) (K : Int)
    (hK : ∀ r c : Fin 3, b r c = Cell.E → -K ≤ v r c) :
    ∀ (rows : List (Fin 3)) (acc : Int),
      (∃ r ∈ rows, ∃ c : Fin 3, b r c = Cell.E) →
      -K ≤ foldMaxIf2 b v rows acc := by
  intro rows
  induction rows with
  | nil => intro acc h; obtain ⟨r, hr, _⟩ := h; cases hr
  | cons r rest ih =>
    intro acc hex
    rw [foldMaxIf2_cons]
    obtain ⟨r0, hr0, c0, hc0⟩ := hex
    rcases List.mem_cons.mp hr0 with h1 | h1
    · subst h1
      have hin := foldMaxIf_lower b r0 (v r0) K (fun c => hK r0 c) range3 acc
        ⟨c0, mem_range3 c0, hc0⟩
      exact le_trans hin (foldMaxIf2_ge b v rest _)
    · exact ih _ ⟨r0, h1, c0, hc0⟩

theorem foldMinIf_ge (b : Board) (r : Fin 3) (v : Fin 3 → Int) (K : Int)
    (hK : ∀ c : Fin 3, b r c = Cell.E → -K ≤ v c) :
    ∀ (cols : List (Fin 3)) (acc : Int),
      min acc (-K) ≤ foldMinIf b r v cols acc := by
  intro cols
  induction cols with
  | nil => intro acc; exact min_le_left acc (-K)
  | cons c rest ih =>
    intro acc
    rw [foldMinIf_cons]
    by_cases hE : b r c = Cell.E
    · rw [if_pos hE]
      have h1 := hK c hE
      have h2 := ih (min acc (v c))
      omega
    · rw [if_neg hE]
      exact ih acc

theorem foldMinIf_upper (b : Board) (r : Fin 3) (v : Fin 3 → Int) (K : Int)
    (hK : ∀ c : Fin 3, b r c = Cell.E → v c ≤ K) :
    ∀ (cols : List (Fin 3)) (acc : Int),
      (∃ c ∈ cols, b r c = Cell.E) →
      foldMinIf b r v cols acc ≤ K := by
  intro cols
  induction cols with
  | nil => intro acc h; obtain ⟨c, hc, _⟩ := h; cases hc
  | cons c rest ih =>
    intro acc hex
    rw [foldMinIf_cons]
    by_cases hE : b r c = Cell.E
    · rw [if_pos hE]
      have h1 := hK c hE
      have h2 := foldMinIf_le b r v rest (min acc (v c))
      omega
    · rw [if_neg hE]
      obtain ⟨x, hx, hxE⟩ := hex
      rcases List.mem_cons.mp hx with h1 | h1
      · exact absurd (h1 ▸ hxE) hE
      · exact ih acc ⟨x, h1, hxE⟩

theorem foldMinIf2_ge (b : Board) (v : Fin 3 → Fin 3 → Int) (K : Int)
    (hK : ∀ r c : Fin 3, b r c = Cell.E → -K ≤ v r c) :
    ∀ (rows : List (Fin 3)) (acc : Int),
      min acc (-K) ≤ foldMinIf2 b v rows acc := by
  intro rows
  induction rows with
  | nil => intro acc; exact min_le_left acc (-K)
  | cons r rest ih =>
    intro acc
    rw [foldMinIf2_cons]
    have h1 := foldMinIf_ge b r (v r) K (fun c => hK r c) range3 acc
    have h2 := ih (foldMinIf b r (v r) range3 acc)
    omega

theorem foldMinIf2_upper (b : Board) (v : Fin 3 → Fin 3 → Int) (K : Int)
    (hK : ∀ r c : Fin 3, b r c = Cell.E → v r c ≤ K) :
    ∀ (rows : List (Fin 3)) (acc : Int),
      (∃ r ∈ rows, ∃ c : Fin 3, b r c = Cell.E) →
      foldMinIf2 b v rows acc ≤ K := by
  intro rows
  induction rows with
  | nil => intro acc h; obtain ⟨r, hr, _⟩ := h; cases hr
  | cons r rest ih =>
    intro acc hex
    rw [foldMinIf2_cons]
    obtain ⟨r0, hr0, c0, hc0⟩ := hex
    rcases List.mem_cons.mp hr0 with h1 | h1
    · subst h1
      have hin := foldMinIf_upper b r0 (v r0) K (fun c => hK r0 c) range3 acc
        ⟨c0, mem_range3 c0, hc0⟩
      exact le_trans (foldMinIf2_le b v rest _) hin
    · exact ih _ ⟨r0, h1, c0, hc0⟩

theorem abVal_bound (npc player : Cell) :
    ∀ (f d : Nat) (m : Bool) (alpha beta : Int) (b : Board),
      -(10 + (d : Int) + (f : Int)) ≤ abVal npc player f d m alpha beta b ∧
      abVal npc player f d m alpha beta b ≤ 10 + (d : Int) + (f : Int) := by
  intro f
  induction f with
  | zero =>
    intro d m alpha beta b
    unfold abVal
    dsimp only
    split
    · constructor <;> omega
    · split
      · constructor <;> omega
      · constructor <;> omega
  | succ f ih =>
    intro d m alpha beta b
    unfold abVal
    dsimp only
    split
    · push_cast; constructor <;> omega
    · split
      · push_cast; constructor <;> omega
      · split
        · push_cast; constructor <;> omega
        · rename_i hw1 hw2 hfull
          have hex : ∃ r ∈ range3, ∃ c : Fin 3, b r c = Cell.E := by
            obtain ⟨r, c, hrc⟩ := not_full_exists b
              (by revert hfull; cases is_full b <;> simp)
            exact ⟨r, mem_range3 r, c, hrc⟩
          have hM := maxsize_pos
          have hK : (0 : Int) ≤ 10 + (d : Int) + ((f : Int) + 1) := by omega
          split
          · constructor
            · have := maxRowsV_lower (abVal npc player f) npc d b
                (10 + ((d : Int) + 1) + (f : Int))
                (fun r c hE a2 b2 => by
                  have h := (ih (d + 1) false a2 b2 (setCell b r c npc)).1
                  push_cast at h ⊢
                  omega) range3 (-maxsize) alpha beta hex
              push_cast
              omega
            · have := maxRowsV_le (abVal npc player f) npc d b
                (10 + ((d : Int) + 1) + (f : Int))
                (fun r c hE a2 b2 => by
                  have h := (ih (d + 1) false a2 b2 (setCell b r c npc)).2
                  push_cast at h ⊢
                  omega) range3 (-maxsize) alpha beta
              push_cast
              omega
          · constructor
            · have := minRowsV_ge (abVal npc player f) player d b
                (10 + ((d : Int) + 1) + (f : Int))
                (fun r c hE a2 b2 => by
                  have h := (ih (d + 1) true a2 b2 (setCell b r c player)).1
                  push_cast at h ⊢
                  omega) range3 maxsize alpha beta
              push_cast
              omega
            · have := minRowsV_upper (abVal npc player f) player d b
                (10 + ((d : Int) + 1) + (f : Int))
                (fun r c hE a2 b2 => by
                  have h := (ih (d + 1) true a2 b2 (setCell b r c player)).2
                  push_cast at h ⊢
                  omega) range3 maxsize alpha beta hex
              push_cast
              omega

theorem plainVal_bound (npc player : Cell) :
    ∀ (f d : Nat) (m : Bool) (b : Board),
      -(10 + (d : Int) + (f : Int)) ≤ plainVal npc player f d m b ∧
      plainVal npc player f d m b ≤ 10 + (d : Int) + (f : Int) := by
  intro f
  induction f with
  | zero =>
    intro d m b
    unfold plainVal
    dsimp only
    split
    · constructor <;> omega
    · split
      · constructor <;> omega
      · constructor <;> omega
  | succ f ih =>
    intro d m b
    unfold plainVal
    dsimp only
    split
    · push_cast; constructor <;> omega
    · split
      · push_cast; constructor <;> omega
      · split
        · push_cast; constructor <;> omega
        · rename_i hw1 hw2 hfull
          have hex : ∃ r ∈ range3, ∃ c : Fin 3, b r c = Cell.E := by
            obtain ⟨r, c, hrc⟩ := not_full_exists b
              (by revert hfull; cases is_full b <;> simp)
            exact ⟨r, mem_range3 r, c, hrc⟩
          have hM := maxsize_pos
          split
          · rw [plainVal_max_fold npc player f d b]
            constructor
            · have := foldMaxIf2_lower b
                (fun r c => plainVal npc player f (d + 1) false
                  (setCell b r c npc))
                (10 + ((d : Int) + 1) + (f : Int))
                (fun r c hE => by
                  have h := (ih (d + 1) false (setCell b r c npc)).1
                  push_cast at h ⊢
                  omega) range3 (-maxsize) hex
              push_cast
              omega
            · have := foldMaxIf2_le b
                (fun r c => plainVal npc player f (d + 1) false
                  (setCell b r c npc))
                (10 + ((d : Int) + 1) + (f : Int))
                (fun r c hE => by
                  have h := (ih (d + 1) false (setCell b r c npc)).2
                  push_cast at h ⊢
                  omega) range3 (-maxsize)
              push_cast
              omega
          · rw [plainVal_min_fold npc player f d b]
            constructor
            · have := foldMinIf2_ge b
                (fun r c => plainVal npc player f (d + 1) true
                  (setCell b r c player))
                (10 + ((d : Int) + 1) + (f : Int))
                (fun r c hE => by
                  have h := (ih (d + 1) true (setCell b r c player)).1
                  push_cast at h ⊢
                  omega) range3 maxsize
              push_cast
              omega
            · have := foldMinIf2_upper b
                (fun r c => plainVal npc player f (d + 1) true
                  (setCell b r c player))
                (10 + ((d : Int) + 1) + (f : Int))
                (fun r c hE => by
                  have h := (ih (d + 1) true (setCell b r c player)).2
                  push_cast at h ⊢
                  omega) range3 maxsize hex
              push_cast
              omega

/-- At the full window used by `hard_move` for each root candidate, the
alpha-beta search equals the unpruned search exactly. -/
theorem abVal_root_eq_plain (npc player : Cell) (f d : Nat) (m : Bool)
    (b : Board) (hf : (f : Int) + (d : Int) ≤ 100) :
    abVal npc player f d m (-maxsize) maxsize b = plainVal npc player f d m b := by
  have hM := maxsize_pos
  have hMbig : (200 : Int) < maxsize := by norm_num [maxsize]
  have hclamp := abVal_clamp npc player f d m (-maxsize) maxsize b
    (by omega) (le_refl _) (le_refl _)
  have hb1 := abVal_bound npc player f d m (-maxsize) maxsize b
  have hb2 := plainVal_bound npc player f d m b
  omega

theorem hardLoopV_eq_plain (npc player : Cell) (b : Board) :
    ∀ (l : List (Fin 3 × Fin 3)) (best : Int) (bm : Option (Fin 3 × Fin 3)),
      hardLoopV npc player b l best bm =
      l.foldl
        (fun best rc =>
          if b rc.1 rc.2 = Cell.E then
            let score := plainVal npc player 9 0 false
              (setCell b rc.1 rc.2 npc)
            if best.1 < score then (score, some rc) else best
          else best)
        (best, bm) := by
  intro l
  induction l with
  | nil => intro best bm; rfl
  | cons rc rest ih =>
    intro best bm
    unfold hardLoopV
    rw [List.foldl_cons]
    by_cases hE : b rc.1 rc.2 = Cell.E
    · rw [if_pos hE, if_pos hE]
      dsimp only
      rw [abVal_root_eq_plain npc player 9 0 false (setCell b rc.1 rc.2 npc)
        (by omega)]
      split
      · exact ih _ _
      · exact ih _ _
    · rw [if_neg hE, if_neg hE]
      exact ih best bm

theorem hardBest_eq_plain (npc player : Cell) (b : Board) :
    hardBest npc player b = hardBestPlain npc player b := by
  unfold hardBest hardBestPlain
  exact hardLoopV_eq_plain npc player b coords (-maxsize) none

/-- **C4.** On every board with at least one empty cell, `hard_move` with
its alpha-beta cutoffs selects exactly the same cell (with the same best
score) as the same search with the pruning cutoffs removed, and leaves the
board unchanged. -/
theorem C4_pruning_equivalence (npc player : Cell) (b : Board)
    (hne : is_full b = false) :
    (hard_move npc player b).1 = (hardBestPlain npc player b).2 ∧
    hard_move npc player b = ((hardBestPlain npc player b).2, b) := by
  rw [hard_move_eq, hardBest_eq_plain]
  exact ⟨rfl, rfl⟩

/-- Witness for C4 at a concrete board with four empty cells: the pruned
and unpruned searches pick the same cell, concretely `(1,2)`. -/
theorem C4_pruning_equivalence_witness :
    is_full (mkBoard Cell.X Cell.O Cell.X Cell.O Cell.X Cell.E Cell.E
      Cell.E Cell.E) = false ∧
    (hard_move Cell.O Cell.X (mkBoard Cell.X Cell.O Cell.X Cell.O Cell.X
      Cell.E Cell.E Cell.E Cell.E)).1 =
      (hardBestPlain Cell.O Cell.X (mkBoard Cell.X Cell.O Cell.X Cell.O
        Cell.X Cell.E Cell.E Cell.E Cell.E)).2 ∧
    (hardBestPlain Cell.O Cell.X (mkBoard Cell.X Cell.O Cell.X Cell.O
      Cell.X Cell.E Cell.E Cell.E Cell.E)).2 = some (1, 2) :=
  ⟨by decide,
    (C4_pruning_equivalence Cell.O Cell.X _ (by decide)).1,
    by decide⟩

/-! ## Selection characterization of `hard_move` -/

theorem hardLoopV_cons (npc player : Cell) (b : Board) (rc : Fin 3 × Fin 3)
    (rest : List (Fin 3 × Fin 3)) (best : Int) (bm : Option (Fin 3 × Fin 3)) :
    hardLoopV npc player b (rc :: rest) best bm =
      if b rc.1 rc.2 = Cell.E then
        if best < hardScore npc player b rc then
          hardLoopV npc player b rest (hardScore npc player b rc) (some rc)
        else hardLoopV npc player b rest best bm
      else hardLoopV npc player b rest best bm := rfl

/-- Full characterization of the selection loop: either no candidate beats
the incoming score and the state is returned unchanged, or the result is
the row-major-first cell attaining the maximal score, strictly better than
every earlier empty cell and at least as good as every later one. -/
theorem hardLoopV_char (npc player : Cell) (b : Board) :
    ∀ (l : List (Fin 3 × Fin 3)) (best : Int) (bm : Option (Fin 3 × Fin 3)),
      ((hardLoopV npc player b l best bm).1 = best ∧
        (hardLoopV npc player b l best bm).2 = bm ∧
        ∀ e ∈ l, b e.1 e.2 = Cell.E → hardScore npc player b e ≤ best) ∨
      (∃ m l1 l2, l = l1 ++ m :: l2 ∧ b m.1 m.2 = Cell.E ∧
        (hardLoopV npc player b l best bm).2 = some m ∧
        (hardLoopV npc player b l best bm).1 = hardScore npc player b m ∧
        best < hardScore npc player b m ∧
        (∀ e ∈ l1, b e.1 e.2 = Cell.E →
          hardScore npc player b e < hardScore npc player b m) ∧
        (∀ e ∈ l2, b e.1 e.2 = Cell.E →
          hardScore npc player b e ≤ hardScore npc player b m)) := by
  intro l
  induction l with
  | nil =>
    intro best bm
    exact Or.inl ⟨rfl, rfl, by intro e he; cases he⟩
  | cons rc rest ih =>
    intro best bm
    rw [hardLoopV_cons]
    by_cases hE : b rc.1 rc.2 = Cell.E
    · rw [if_pos hE]
      by_cases himp : best < hardScore npc player b rc
      · rw [if_pos himp]
        rcases ih (hardScore npc player b rc) (some rc) with
          ⟨h1, h2, h3⟩ | ⟨m, l1, l2, hsplit, hmE, h2, h1, hlt, hl1, hl2⟩
        · refine Or.inr ⟨rc, [], rest, by simp, hE, h2, h1, himp, ?_, h3⟩
          intro e he; cases he
        · refine Or.inr ⟨m, rc :: l1, l2, by simp [hsplit], hmE, h2, h1,
            lt_trans himp hlt, ?_, hl2⟩
          intro e he hecell
          rcases List.mem_cons.mp he with h4 | h4
          · subst h4; exact hlt
          · exact hl1 e h4 hecell
      · rw [if_neg himp]
        rcases ih best bm with
          ⟨h1, h2, h3⟩ | ⟨m, l1, l2, hsplit, hmE, h2, h1, hlt, hl1, hl2⟩
        · refine Or.inl ⟨h1, h2, ?_⟩
          intro e he hecell
          rcases List.mem_cons.mp he with h4 | h4
          · subst h4; omega
          · exact h3 e h4 hecell
        · refine Or.inr ⟨m, rc :: l1, l2, by simp [hsplit], hmE, h2, h1, hlt,
            ?_, hl2⟩
          intro e he hecell
          rcases List.mem_cons.mp he with h4 | h4
          · subst h4; omega
          · exact hl1 e h4 hecell
    · rw [if_neg hE]
      rcases ih best bm with
        ⟨h1, h2, h3⟩ | ⟨m, l1, l2, hsplit, hmE, h2, h1, hlt, hl1, hl2⟩
      · refine Or.inl ⟨h1, h2, ?_⟩
        intro e he hecell
        rcases List.mem_cons.mp he with h4 | h4
        · subst h4; exact absurd hecell hE
        · exact h3 e h4 hecell
      · refine Or.inr ⟨m, rc :: l1, l2, by simp [hsplit], hmE, h2, h1, hlt,
          ?_, hl2⟩
        intro e he hecell
        rcases List.mem_cons.mp he with h4 | h4
        · subst h4; exact absurd hecell hE
        · exact hl1 e h4 hecell

theorem hardScore_lower (npc player : Cell) (b : Board) (rc : Fin 3 × Fin 3) :
    -(19 : Int) ≤ hardScore npc player b rc := by
  have := (abVal_bound npc player 9 0 false (-maxsize) maxsize
    (setCell b rc.1 rc.2 npc)).1
  unfold hardScore
  push_cast at this
  omega

theorem hardBest_is_some (npc player : Cell) (b : Board)
    (hne : is_full b = false) :
    ∃ m, (hardBest npc player b).2 = some m ∧ b m.1 m.2 = Cell.E ∧
      (hardBest npc player b).1 = hardScore npc player b m ∧
      ∀ e : Fin 3 × Fin 3, b e.1 e.2 = Cell.E →
        hardScore npc player b e ≤ hardScore npc player b m := by
  obtain ⟨r0, c0, hrc⟩ := not_full_exists b hne
  have hM : (200 : Int) < maxsize := by norm_num [maxsize]
  rcases hardLoopV_char npc player b coords (-maxsize) none with
    ⟨_, _, h3⟩ | ⟨m, l1, l2, hsplit, hmE, h2, h1, _, hl1, hl2⟩
  · exfalso
    have := h3 (r0, c0) (mem_coords r0 c0) hrc
    have := hardScore_lower npc player b (r0, c0)
    omega
  · refine ⟨m, h2, hmE, h1, ?_⟩
    intro e heE
    have hemem : e ∈ coords := mem_coords e.1 e.2
    rw [hsplit] at hemem
    rcases List.mem_append.mp hemem with h4 | h4
    · exact le_of_lt (hl1 e h4 heE)
    · rcases List.mem_cons.mp h4 with h5 | h5
      · subst h5; exact le_refl _
      · exact hl2 e h5 heE

/-- **C6 (counterexample).** The root evaluation of `hard_move` runs
`minimax` at depth 0, not depth 1: on a board where placing O at `(0,2)`
wins immediately, the score actually used is `10 - 0 = 10`, while the
claimed depth-1 evaluation would give `10 - 1 = 9`. -/
theorem C6_counterexample :
    (minimax Cell.O Cell.X 9 0 false (-maxsize) maxsize
      (setCell (mkBoard Cell.O Cell.O Cell.E Cell.X Cell.X Cell.O Cell.X
        Cell.O Cell.X) 0 2 Cell.O)).1 = 10 ∧
    (minimax Cell.O Cell.X 9 1 false (-maxsize) maxsize
      (setCell (mkBoard Cell.O Cell.O Cell.E Cell.X Cell.X Cell.O Cell.X
        Cell.O Cell.X) 0 2 Cell.O)).1 = 9 ∧
    hardBest Cell.O Cell.X (mkBoard Cell.O Cell.O Cell.E Cell.X Cell.X
      Cell.O Cell.X Cell.O Cell.X) = (10, some (0, 2)) ∧
    (10 : Int) ≠ 9 := by
  refine ⟨by decide, by decide, by decide, by decide⟩

/-- **C6 (amended).** A terminal node evaluated with depth parameter `d`
scores `10 - d` when the strategy's own (maximizing) symbol has won,
`-(10 - d)` when the opposing symbol has won, and `0` when the board is
full with no winner; top-level selection in `hard_move` scans empty cells
in row-major order, evaluates each by placing the strategy's symbol and
running `minimax` from the minimizing perspective at depth 0 with the
widest window, and replaces the best candidate only on a strictly greater
score, so the returned cell scores strictly above every earlier empty cell
and at least as high as every later one. -/
theorem C6_scoring_selection :
    (∀ (npc player : Cell) (f d : Nat) (m : Bool) (alpha beta : Int)
      (b : Board),
      (check_winner b = some npc →
        (minimax npc player f d m alpha beta b).1 = 10 - (d : Int)) ∧
      (npc ≠ player → check_winner b = some player →
        (minimax npc player f d m alpha beta b).1 = -(10 - (d : Int))) ∧
      (check_winner b = none → is_full b = true →
        (minimax npc player f d m alpha beta b).1 = 0)) ∧
    (∀ (npc player : Cell) (b : Board) (mv : Fin 3 × Fin 3),
      (hard_move npc player b).1 = some mv →
      ∃ l1 l2, coords = l1 ++ mv :: l2 ∧ b mv.1 mv.2 = Cell.E ∧
        (∀ e ∈ l1, b e.1 e.2 = Cell.E →
          (minimax npc player 9 0 false (-maxsize) maxsize
            (setCell b e.1 e.2 npc)).1 <
          (minimax npc player 9 0 false (-maxsize) maxsize
            (setCell b mv.1 mv.2 npc)).1) ∧
        (∀ e ∈ l2, b e.1 e.2 = Cell.E →
          (minimax npc player 9 0 false (-maxsize) maxsize
            (setCell b e.1 e.2 npc)).1 ≤
          (minimax npc player 9 0 false (-maxsize) maxsize
            (setCell b mv.1 mv.2 npc)).1)) := by
  constructor
  · intro npc player f d m alpha beta b
    refine ⟨?_, ?_, ?_⟩
    · intro hw
      rw [minimax_eq_pair]
      cases f with
      | zero =>
        unfold abVal
        dsimp only
        rw [if_pos hw]
      | succ f =>
        unfold abVal
        dsimp only
        rw [if_pos hw]
    · intro hne hw
      have hno : ¬(check_winner b = some npc) := by
        rw [hw]
        intro hx
        injection hx with hx
        exact hne hx.symm
      rw [minimax_eq_pair]
      cases f with
      | zero =>
        unfold abVal
        dsimp only
        rw [if_neg hno, if_pos hw]
        omega
      | succ f =>
        unfold abVal
        dsimp only
        rw [if_neg hno, if_pos hw]
        omega
    · intro hw hf
      have h1 : ¬(check_winner b = some npc) := by simp [hw]
      have h2 : ¬(check_winner b = some player) := by simp [hw]
      rw [minimax_eq_pair]
      cases f with
      | zero =>
        unfold abVal
        dsimp only
        rw [if_neg h1, if_neg h2]
      | succ f =>
        unfold abVal
        dsimp only
        rw [if_neg h1, if_neg h2, if_pos hf]
  · intro npc player b mv hmv
    rw [hard_move_eq] at hmv
    dsimp only at hmv
    unfold hardBest at hmv
    rcases hardLoopV_char npc player b coords (-maxsize) none with
      ⟨_, h2, _⟩ | ⟨m, l1, l2, hsplit, hmE, h2, h1, _, hl1, hl2⟩
    · rw [h2] at hmv; cases hmv
    · rw [h2] at hmv
      injection hmv with hmv
      subst hmv
      refine ⟨l1, l2, hsplit, hmE, ?_, ?_⟩
      · intro e he heE
        have := hl1 e he heE
        simpa [minimax_eq_pair, hardScore] using this
      · intro e he heE
        have := hl2 e he heE
        simpa [minimax_eq_pair, hardScore] using this

/-- Witness for the amended C6: terminal scores at depth 3 on a concrete
O-won board, and the selection property at the concrete board where
`hard_move` picks `(0,2)`. -/
theorem C6_scoring_selection_witness :
    (minimax Cell.O Cell.X 5 3 true 0 0 (mkBoard Cell.O Cell.O Cell.O
      Cell.X Cell.X Cell.E Cell.E Cell.E Cell.X)).1 = 10 - (3 : Int) ∧
    (∃ l1 l2, coords = l1 ++ ((0 : Fin 3), (2 : Fin 3)) :: l2 ∧
      (mkBoard Cell.O Cell.O Cell.E Cell.X Cell.X Cell.O Cell.X Cell.O
        Cell.X) 0 2 = Cell.E ∧
      (∀ e ∈ l1, (mkBoard Cell.O Cell.O Cell.E Cell.X Cell.X Cell.O Cell.X
          Cell.O Cell.X) e.1 e.2 = Cell.E →
        (minimax Cell.O Cell.X 9 0 false (-maxsize) maxsize
          (setCell (mkBoard Cell.O Cell.O Cell.E Cell.X Cell.X Cell.O
            Cell.X Cell.O Cell.X) e.1 e.2 Cell.O)).1 <
        (minimax Cell.O Cell.X 9 0 false (-maxsize) maxsize
          (setCell (mkBoard Cell.O Cell.O Cell.E Cell.X Cell.X Cell.O
            Cell.X Cell.O Cell.X) 0 2 Cell.O)).1) ∧
      (∀ e ∈ l2, (mkBoard Cell.O Cell.O Cell.E Cell.X Cell.X Cell.O Cell.X
          Cell.O Cell.X) e.1 e.2 = Cell.E →
        (minimax Cell.O Cell.X 9 0 false (-maxsize) maxsize
          (setCell (mkBoard Cell.O Cell.O Cell.E Cell.X Cell.X Cell.O
            Cell.X Cell.O Cell.X) e.1 e.2 Cell.O)).1 ≤
        (minimax Cell.O Cell.X 9 0 false (-maxsize) maxsize
          (setCell (mkBoard Cell.O Cell.O Cell.E Cell.X Cell.X Cell.O
            Cell.X Cell.O Cell.X) 0 2 Cell.O)).1)) := by
  constructor
  · exact (C6_scoring_selection.1 Cell.O Cell.X 5 3 true 0 0 _).1 (by decide)
  · exact C6_scoring_selection.2 Cell.O Cell.X _ (0, 2) (by decide)

/-! ## Sign correspondence with the game value -/

theorem sgn_max (x y : Int) : sgn (max x y) = max (sgn x) (sgn y) := by
  unfold sgn
  split_ifs <;> omega

theorem sgn_min (x y : Int) : sgn (min x y) = min (sgn x) (sgn y) := by
  unfold sgn
  split_ifs <;> omega

theorem sgn_neg_maxsize : sgn (-maxsize) = -1 := by
  have := maxsize_pos
  unfold sgn
  split_ifs <;> omega

theorem sgn_maxsize : sgn maxsize = 1 := by
  have := maxsize_pos
  unfold sgn
  split_ifs <;> omega

theorem sgn_foldMaxIf (b : Board) (r : Fin 3) (v : Fin 3 → Int) :
    ∀ (cols : List (Fin 3)) (acc : Int),
      sgn (foldMaxIf b r v cols acc) =
      foldMaxIf b r (fun c => sgn (v c)) cols (sgn acc) := by
  intro cols
  induction cols with
  | nil => intro acc; rfl
  | cons c rest ih =>
    intro acc
    rw [foldMaxIf_cons, foldMaxIf_cons]
    by_cases hE : b r c = Cell.E
    · rw [if_pos hE, if_pos hE, ih, sgn_max]
    · rw [if_neg hE, if_neg hE, ih]

theorem sgn_foldMaxIf2 (b : Board) (v : Fin 3 → Fin 3 → Int) :
    ∀ (rows : List (Fin 3)) (acc : Int),
      sgn (foldMaxIf2 b v rows acc) =
      foldMaxIf2 b (fun r c => sgn (v r c)) rows (sgn acc) := by
  intro rows
  induction rows with
  | nil => intro acc; rfl
  | cons r rest ih =>
    intro acc
    rw [foldMaxIf2_cons, foldMaxIf2_cons, ih, sgn_foldMaxIf]

theorem sgn_foldMinIf (b : Board) (r : Fin 3) (v : Fin 3 → Int) :
    ∀ (cols : List (Fin 3)) (acc : Int),
      sgn (foldMinIf b r v cols acc) =
      foldMinIf b r (fun c => sgn (v c)) cols (sgn acc) := by
  intro cols
  induction cols with
  | nil => intro acc; rfl
  | cons c rest ih =>
    intro acc
    rw [foldMinIf_cons, foldMinIf_cons]
    by_cases hE : b r c = Cell.E
    · rw [if_pos hE, if_pos hE, ih, sgn_min]
    · rw [if_neg hE, if_neg hE, ih]

theorem sgn_foldMinIf2 (b : Board) (v : Fin 3 → Fin 3 → Int) :
    ∀ (rows : List (Fin 3)) (acc : Int),
      sgn (foldMinIf2 b v rows acc) =
      foldMinIf2 b (fun r c => sgn (v r c)) rows (sgn acc) := by
  intro rows
  induction rows with
  | nil => intro acc; rfl
  | cons r rest ih =>
    intro acc
    rw [foldMinIf2_cons, foldMinIf2_cons, ih, sgn_foldMinIf]

theorem foldMaxIf_congr (b : Board) (r : Fin 3) (v w : Fin 3 → Int) :
    ∀ (cols : List (Fin 3)) (acc : Int),
      (∀ c ∈ cols, b r c = Cell.E → v c = w c) →
      foldMaxIf b r v cols acc = foldMaxIf b r w cols acc := by
  intro cols
  induction cols with
  | nil => intro acc _; rfl
  | cons c rest ih =>
    intro acc h
    rw [foldMaxIf_cons, foldMaxIf_cons]
    by_cases hE : b r c = Cell.E
    · rw [if_pos hE, if_pos hE, h c (List.mem_cons_self c rest) hE]
      exact ih _ (fun x hx => h x (List.mem_cons_of_mem c hx))
    · rw [if_neg hE, if_neg hE]
      exact ih _ (fun x hx => h x (List.mem_cons_of_mem c hx))

theorem foldMaxIf2_congr (b : Board) (v w : Fin 3 → Fin 3 → Int) :
    ∀ (rows : List (Fin 3)) (acc : Int),
      (∀ r ∈ rows, ∀ c : Fin 3, b r c = Cell.E → v r c = w r c) →
      foldMaxIf2 b v rows acc = foldMaxIf2 b w rows acc := by
  intro rows
  induction rows with
  | nil => intro acc _; rfl
  | cons r rest ih =>
    intro acc h
    rw [foldMaxIf2_cons, foldMaxIf2_cons,
      foldMaxIf_congr b r (v r) (w r) range3 acc
        (fun c _ => h r (List.mem_cons_self r rest) c)]
    exact ih _ (fun x hx => h x (List.mem_cons_of_mem r hx))

theorem foldMinIf_congr (b : Board) (r : Fin 3) (v w : Fin 3 → Int) :
    ∀ (cols : List (Fin 3)) (acc : Int),
      (∀ c ∈ cols, b r c = Cell.E → v c = w c) →
      foldMinIf b r v cols acc = foldMinIf b r w cols acc := by
  intro cols
  induction cols with
  | nil => intro acc _; rfl
  | cons c rest ih =>
    intro acc h
    rw [foldMinIf_cons, foldMinIf_cons]
    by_cases hE : b r c = Cell.E
    · rw [if_pos hE, if_pos hE, h c (List.mem_cons_self c rest) hE]
      exact ih _ (fun x hx => h x (List.mem_cons_of_mem c hx))
    · rw [if_neg hE, if_neg hE]
      exact ih _ (fun x hx => h x (List.mem_cons_of_mem c hx))

theorem foldMinIf2_congr (b : Board) (v w : Fin 3 → Fin 3 → Int) :
    ∀ (rows : List (Fin 3)) (acc : Int),
      (∀ r ∈ rows, ∀ c : Fin 3, b r c = Cell.E → v r c = w r c) →
      foldMinIf2 b v rows acc = foldMinIf2 b w rows acc := by
  intro rows
  induction rows with
  | nil => intro acc _; rfl
  | cons r rest ih =>
    intro acc h
    rw [foldMinIf2_cons, foldMinIf2_cons,
      foldMinIf_congr b r (v r) (w r) range3 acc
        (fun c _ => h r (List.mem_cons_self r rest) c)]
    exact ih _ (fun x hx => h x (List.mem_cons_of_mem r hx))

theorem valFor_max_fold (me opp : Cell) (f : Nat) (b : Board) :
    coords.foldl
      (fun acc rc =>
        if b rc.1 rc.2 = Cell.E then
          max acc (valFor me opp f false (setCell b rc.1 rc.2 me))
        else acc)
      (-1) =
    foldMaxIf2 b
      (fun r c => valFor me opp f false (setCell b r c me)) range3 (-1) := rfl

theorem valFor_min_fold (me opp : Cell) (f : Nat) (b : Board) :
    coords.foldl
      (fun acc rc =>
        if b rc.1 rc.2 = Cell.E then
          min acc (valFor me opp f true (setCell b rc.1 rc.2 opp))
        else acc)
      1 =
    foldMinIf2 b
      (fun r c => valFor me opp f true (setCell b r c opp)) range3 1 := rfl

theorem winner_cases (w npc player : Cell) (hw : w ≠ Cell.E)
    (hnp : npc ≠ player) (hnE : npc ≠ Cell.E) (hpE : player ≠ Cell.E) :
    w = npc ∨ w = player := by
  revert w npc player
  decide

/-! ### Terminal and step unfolding lemmas -/

theorem plainVal_winner_npc (npc player : Cell) (f d : Nat) (m : Bool)
    (b : Board) (hw : check_winner b = some npc) :
    plainVal npc player f d m b = 10 - (d : Int) := by
  cases f <;> (unfold plainVal; simp only [hw]; simp)

theorem plainVal_winner_player (npc player : Cell) (f d : Nat) (m : Bool)
    (b : Board) (hnp : npc ≠ player)
    (hw : check_winner b = some player) :
    plainVal npc player f d m b = (d : Int) - 10 := by
  have hne : (some player : Option Cell) ≠ some npc := by
    intro hx; injection hx with hx; exact hnp hx.symm
  cases f <;> (unfold plainVal; simp only [hw]; simp [hne])

theorem plainVal_none_full (npc player : Cell) (f d : Nat) (m : Bool)
    (b : Board) (hw : check_winner b = none) (hfull : is_full b = true) :
    plainVal npc player f d m b = 0 := by
  cases f <;> (unfold plainVal; simp only [hw]; simp [hfull])

theorem plainVal_step_max (npc player : Cell) (f d : Nat) (b : Board)
    (hw : check_winner b = none) (hfull : is_full b = false) :
    plainVal npc player (f + 1) d true b =
    foldMaxIf2 b
      (fun r c => plainVal npc player f (d + 1) false (setCell b r c npc))
      range3 (-maxsize) := by
  conv_lhs => unfold plainVal
  simp only [hw]
  rw [if_neg (by simp), if_neg (by simp), if_neg (by simp [hfull]),
    if_pos (by trivial)]
  exact plainVal_max_fold npc player f d b

theorem plainVal_step_min (npc player : Cell) (f d : Nat) (b : Board)
    (hw : check_winner b = none) (hfull : is_full b = false) :
    plainVal npc player (f + 1) d false b =
    foldMinIf2 b
      (fun r c => plainVal npc player f (d + 1) true (setCell b r c player))
      range3 maxsize := by
  conv_lhs => unfold plainVal
  simp only [hw]
  rw [if_neg (by simp), if_neg (by simp), if_neg (by simp [hfull]),
    if_neg (by simp)]
  exact plainVal_min_fold npc player f d b

theorem valFor_winner (me opp : Cell) (f : Nat) (t : Bool) (b : Board)
    (w : Cell) (hw : check_winner b = some w) :
    valFor me opp f t b = if w = me then 1 else -1 := by
  cases f <;> (unfold valFor; simp only [hw])

theorem valFor_none_full (me opp : Cell) (f : Nat) (t : Bool) (b : Board)
    (hw : check_winner b = none) (hfull : is_full b = true) :
    valFor me opp f t b = 0 := by
  cases f with
  | zero => unfold valFor; simp only [hw]
  | succ f => unfold valFor; simp only [hw]; simp [hfull]

theorem valFor_step_max (me opp : Cell) (f : Nat) (b : Board)
    (hw : check_winner b = none) (hfull : is_full b = false) :
    valFor me opp (f + 1) true b =
    foldMaxIf2 b
      (fun r c => valFor me opp f false (setCell b r c me)) range3 (-1) := by
  conv_lhs => unfold valFor
  simp only [hw]
  rw [if_neg (by simp [hfull]), if_pos (by trivial)]
  exact valFor_max_fold me opp f b

theorem valFor_step_min (me opp : Cell) (f : Nat) (b : Board)
    (hw : check_winner b = none) (hfull : is_full b = false) :
    valFor me opp (f + 1) false b =
    foldMinIf2 b
      (fun r c => valFor me opp f true (setCell b r c opp)) range3 1 := by
  conv_lhs => unfold valFor
  simp only [hw]
  rw [if_neg (by simp [hfull]), if_neg (by simp)]
  exact valFor_min_fold me opp f b

/-- The sign of the unpruned depth-scored search is the game value. -/
theorem sgn_plainVal (npc player : Cell) (hnp : npc ≠ player)
    (hnE : npc ≠ Cell.E) (hpE : player ≠ Cell.E) :
    ∀ (f d : Nat) (m : Bool) (b : Board),
      emptyCount b ≤ f → d + emptyCount b ≤ 9 →
      sgn (plainVal npc player f d m b) = valFor npc player f m b := by
  have hterm : ∀ (f d : Nat) (m : Bool) (b : Board), d ≤ 9 →
      (∀ w, check_winner b = some w →
        sgn (plainVal npc player f d m b) = valFor npc player f m b) := by
    intro f d m b hd w hw
    have hwE := check_winner_nonE b w hw
    rcases winner_cases w npc player hwE hnp hnE hpE with h1 | h1
    · rw [h1] at hw
      rw [plainVal_winner_npc npc player f d m b hw,
        valFor_winner npc player f m b npc hw]
      rw [if_pos rfl]
      unfold sgn
      split_ifs <;> omega
    · rw [h1] at hw
      rw [plainVal_winner_player npc player f d m b hnp hw,
        valFor_winner npc player f m b player hw]
      rw [if_neg (fun h => hnp h.symm)]
      unfold sgn
      split_ifs <;> omega
  intro f
  induction f with
  | zero =>
    intro d m b hf hd
    have hfull : is_full b = true :=
      (is_full_iff_emptyCount b).mpr (Nat.le_zero.mp hf)
    cases hw : check_winner b with
    | some w => exact hterm 0 d m b (by omega) w hw
    | none =>
      rw [plainVal_none_full npc player 0 d m b hw hfull,
        valFor_none_full npc player 0 m b hw hfull]
      rfl
  | succ f ih =>
    intro d m b hf hd
    cases hw : check_winner b with
    | some w => exact hterm (f + 1) d m b (by omega) w hw
    | none =>
      cases hfull : is_full b with
      | true =>
        rw [plainVal_none_full npc player (f + 1) d m b hw hfull,
          valFor_none_full npc player (f + 1) m b hw hfull]
        rfl
      | false =>
        have he1 : 1 ≤ emptyCount b := by
          rcases Nat.eq_zero_or_pos (emptyCount b) with h0 | h0
          · rw [(is_full_iff_emptyCount b).mpr h0] at hfull
            cases hfull
          · omega
        have hchild : ∀ (r c : Fin 3) (s : Cell), b r c = Cell.E →
            s ≠ Cell.E → emptyCount (setCell b r c s) ≤ f ∧
              (d + 1) + emptyCount (setCell b r c s) ≤ 9 := by
          intro r c s hE hs
          have := emptyCount_setCell b r c s hE hs
          omega
        cases m with
        | true =>
          rw [plainVal_step_max npc player f d b hw hfull,
            valFor_step_max npc player f b hw hfull,
            sgn_foldMaxIf2, sgn_neg_maxsize]
          apply foldMaxIf2_congr
          intro r _ c hE
          exact ih (d + 1) false (setCell b r c npc)
            (hchild r c npc hE hnE).1 (hchild r c npc hE hnE).2
        | false =>
          rw [plainVal_step_min npc player f d b hw hfull,
            valFor_step_min npc player f b hw hfull,
            sgn_foldMinIf2, sgn_maxsize]
          apply foldMinIf2_congr
          intro r _ c hE
          exact ih (d + 1) true (setCell b r c player)
            (hchild r c player hE hpE).1 (hchild r c player hE hpE).2

set_option maxRecDepth 4000000 in
set_option maxHeartbeats 4000000 in
theorem safeCheck_X : safeCheck Cell.X Cell.O (safeStrat Cell.X Cell.O) 9
    true emptyBoard = true := by decide

set_option maxRecDepth 4000000 in
set_option maxHeartbeats 8000000 in
theorem safeCheck_O : safeCheck Cell.O Cell.X (safeStrat Cell.O Cell.X) 9
    false emptyBoard = true := by decide

theorem foldMaxIf_ge_elem (b : Board) (r : Fin 3) (v : Fin 3 → Int)
    (c0 : Fin 3) (hE : b r c0 = Cell.E) :
    ∀ (cols : List (Fin 3)) (acc : Int), c0 ∈ cols →
      v c0 ≤ foldMaxIf b r v cols acc := by
  intro cols
  induction cols with
  | nil => intro acc h; cases h
  | cons c rest ih =>
    intro acc hmem
    rw [foldMaxIf_cons]
    rcases List.mem_cons.mp hmem with h1 | h1
    · subst h1
      rw [if_pos hE]
      exact le_trans (le_max_right acc (v c0)) (foldMaxIf_ge b r v rest _)
    · exact ih _ h1

theorem foldMaxIf2_ge_elem (b : Board) (v : Fin 3 → Fin 3 → Int)
    (r0 c0 : Fin 3) (hE : b r0 c0 = Cell.E) :
    ∀ (rows : List (Fin 3)) (acc : Int), r0 ∈ rows →
      v r0 c0 ≤ foldMaxIf2 b v rows acc := by
  intro rows
  induction rows with
  | nil => intro acc h; cases h
  | cons r rest ih =>
    intro acc hmem
    rw [foldMaxIf2_cons]
    rcases List.mem_cons.mp hmem with h1 | h1
    · subst h1
      exact le_trans
        (foldMaxIf_ge_elem b r0 (v r0) c0 hE range3 acc (mem_range3 c0))
        (foldMaxIf2_ge b v rest _)
    · exact ih _ h1

theorem safeCheck_winner (me opp : Cell) (strat : Board → Fin 3 × Fin 3)
    (f : Nat) (t : Bool) (b : Board) (w : Cell)
    (hw : check_winner b = some w) :
    safeCheck me opp strat f t b = decide (w ≠ opp) := by
  cases f <;> (unfold safeCheck; simp only [hw])

theorem safeCheck_step_me (me opp : Cell) (strat : Board → Fin 3 × Fin 3)
    (f : Nat) (b : Board) (hw : check_winner b = none)
    (hfull : is_full b = false) :
    safeCheck me opp strat (f + 1) true b =
    (decide (b (strat b).1 (strat b).2 = Cell.E) &&
      safeCheck me opp strat f false
        (setCell b (strat b).1 (strat b).2 me)) := by
  conv_lhs => unfold safeCheck
  simp only [hw]
  rw [if_neg (by simp [hfull]), if_pos (by trivial)]

theorem safeCheck_step_opp (me opp : Cell) (strat : Board → Fin 3 × Fin 3)
    (f : Nat) (b : Board) (hw : check_winner b = none)
    (hfull : is_full b = false) :
    safeCheck me opp strat (f + 1) false b =
    coords.all (fun rc =>
      if b rc.1 rc.2 = Cell.E then
        safeCheck me opp strat f true (setCell b rc.1 rc.2 opp)
      else true) := by
  conv_lhs => unfold safeCheck
  simp only [hw]
  rw [if_neg (by simp [hfull]), if_neg (by simp)]

/-- A strategy passing the finite safety check guarantees the game value
is not losing. -/
theorem safeCheck_le_valFor (me opp : Cell) (hnp : me ≠ opp)
    (hmE : me ≠ Cell.E) (hoE : opp ≠ Cell.E)
    (strat : Board → Fin 3 × Fin 3) :
    ∀ (f : Nat) (t : Bool) (b : Board), emptyCount b ≤ f →
      safeCheck me opp strat f t b = true → 0 ≤ valFor me opp f t b := by
  have hterm : ∀ (f : Nat) (t : Bool) (b : Board) (w : Cell),
      check_winner b = some w →
      safeCheck me opp strat f t b = true → 0 ≤ valFor me opp f t b := by
    intro f t b w hw hsafe
    rw [safeCheck_winner me opp strat f t b w hw] at hsafe
    have hwo : w ≠ opp := by simpa using hsafe
    have hwE := check_winner_nonE b w hw
    rcases winner_cases w me opp hwE hnp hmE hoE with h1 | h1
    · rw [h1] at hw
      rw [valFor_winner me opp f t b me hw, if_pos rfl]
      omega
    · exact absurd h1 hwo
  intro f
  induction f with
  | zero =>
    intro t b hf hsafe
    have hfull : is_full b = true :=
      (is_full_iff_emptyCount b).mpr (Nat.le_zero.mp hf)
    cases hw : check_winner b with
    | some w => exact hterm 0 t b w hw hsafe
    | none =>
      rw [valFor_none_full me opp 0 t b hw hfull]
  | succ f ih =>
    intro t b hf hsafe
    cases hw : check_winner b with
    | some w => exact hterm (f + 1) t b w hw hsafe
    | none =>
      cases hfull : is_full b with
      | true => rw [valFor_none_full me opp (f + 1) t b hw hfull]
      | false =>
        have he1 : 1 ≤ emptyCount b := by
          rcases Nat.eq_zero_or_pos (emptyCount b) with h0 | h0
          · rw [(is_full_iff_emptyCount b).mpr h0] at hfull
            cases hfull
          · omega
        cases t with
        | true =>
          rw [safeCheck_step_me me opp strat f b hw hfull] at hsafe
          rw [Bool.and_eq_true] at hsafe
          have hlegal : b (strat b).1 (strat b).2 = Cell.E := by
            simpa using hsafe.1
          have hchild : emptyCount
              (setCell b (strat b).1 (strat b).2 me) ≤ f := by
            have := emptyCount_setCell b (strat b).1 (strat b).2 me hlegal hmE
            omega
          have hval := ih false _ hchild hsafe.2
          rw [valFor_step_max me opp f b hw hfull]
          have hel := foldMaxIf2_ge_elem b
            (fun r c => valFor me opp f false (setCell b r c me))
            (strat b).1 (strat b).2 hlegal range3 (-1) (mem_range3 _)
          dsimp only at hel
          omega
        | false =>
          rw [safeCheck_step_opp me opp strat f b hw hfull] at hsafe
          rw [List.all_eq_true] at hsafe
          rw [valFor_step_min me opp f b hw hfull]
          have hge := foldMinIf2_ge b
            (fun r c => valFor me opp f true (setCell b r c opp)) 0
            (fun r c hE => by
              have hchild : emptyCount (setCell b r c opp) ≤ f := by
                have := emptyCount_setCell b r c opp hE hoE
                omega
              have hs := hsafe (r, c) (mem_coords r c)
              rw [if_pos hE] at hs
              have := ih true _ hchild hs
              dsimp only
              omega) range3 1
          omega

theorem valFor_fuel_irrel (me opp : Cell) (hmE : me ≠ Cell.E)
    (hoE : opp ≠ Cell.E) :
    ∀ (f g : Nat) (t : Bool) (b : Board),
      emptyCount b ≤ f → emptyCount b ≤ g →
      valFor me opp f t b = valFor me opp g t b := by
  intro f
  induction f with
  | zero =>
    intro g t b hf hg
    have hfull : is_full b = true :=
      (is_full_iff_emptyCount b).mpr (Nat.le_zero.mp hf)
    cases hw : check_winner b with
    | some w =>
      rw [valFor_winner me opp 0 t b w hw, valFor_winner me opp g t b w hw]
    | none =>
      rw [valFor_none_full me opp 0 t b hw hfull,
        valFor_none_full me opp g t b hw hfull]
  | succ f ih =>
    intro g t b hf hg
    cases hw : check_winner b with
    | some w =>
      rw [valFor_winner me opp (f + 1) t b w hw,
        valFor_winner me opp g t b w hw]
    | none =>
      cases hfull : is_full b with
      | true =>
        rw [valFor_none_full me opp (f + 1) t b hw hfull,
          valFor_none_full me opp g t b hw hfull]
      | false =>
        have he1 : 1 ≤ emptyCount b := by
          rcases Nat.eq_zero_or_pos (emptyCount b) with h0 | h0
          · rw [(is_full_iff_emptyCount b).mpr h0] at hfull
            cases hfull
          · omega
        cases g with
        | zero => omega
        | succ g =>
          cases t with
          | true =>
            rw [valFor_step_max me opp f b hw hfull,
              valFor_step_max me opp g b hw hfull]
            apply foldMaxIf2_congr
            intro r _ c hE
            have hc := emptyCount_setCell b r c me hE hmE
            exact ih g false (setCell b r c me) (by omega) (by omega)
          | false =>
            rw [valFor_step_min me opp f b hw hfull,
              valFor_step_min me opp g b hw hfull]
            apply foldMinIf2_congr
            intro r _ c hE
            have hc := emptyCount_setCell b r c opp hE hoE
            exact ih g true (setCell b r c opp) (by omega) (by omega)

theorem neg_foldMinIf (b : Board) (r : Fin 3) (w : Fin 3 → Int) :
    ∀ (cols : List (Fin 3)) (acc : Int),
      -(foldMinIf b r w cols acc) =
      foldMaxIf b r (fun c => -(w c)) cols (-acc) := by
  intro cols
  induction cols with
  | nil => intro acc; rfl
  | cons c rest ih =>
    intro acc
    rw [foldMinIf_cons, foldMaxIf_cons]
    by_cases hE : b r c = Cell.E
    · rw [if_pos hE, if_pos hE, ih]
      have hminmax : -(min acc (w c)) = max (-acc) (-(w c)) := by omega
      rw [hminmax]
    · rw [if_neg hE, if_neg hE, ih]

theorem neg_foldMinIf2 (b : Board) (w : Fin 3 → Fin 3 → Int) :
    ∀ (rows : List (Fin 3)) (acc : Int),
      -(foldMinIf2 b w rows acc) =
      foldMaxIf2 b (fun r c => -(w r c)) rows (-acc) := by
  intro rows
  induction rows with
  | nil => intro acc; rfl
  | cons r rest ih =>
    intro acc
    rw [foldMinIf2_cons, foldMaxIf2_cons, ih, neg_foldMinIf]

theorem neg_foldMaxIf (b : Board) (r : Fin 3) (w : Fin 3 → Int) :
    ∀ (cols : List (Fin 3)) (acc : Int),
      -(foldMaxIf b r w cols acc) =
      foldMinIf b r (fun c => -(w c)) cols (-acc) := by
  intro cols
  induction cols with
  | nil => intro acc; rfl
  | cons c rest ih =>
    intro acc
    rw [foldMaxIf_cons, foldMinIf_cons]
    by_cases hE : b r c = Cell.E
    · rw [if_pos hE, if_pos hE, ih]
      have hminmax : -(max acc (w c)) = min (-acc) (-(w c)) := by omega
      rw [hminmax]
    · rw [if_neg hE, if_neg hE, ih]

theorem neg_foldMaxIf2 (b : Board) (w : Fin 3 → Fin 3 → Int) :
    ∀ (rows : List (Fin 3)) (acc : Int),
      -(foldMaxIf2 b w rows acc) =
      foldMinIf2 b (fun r c => -(w r c)) rows (-acc) := by
  intro rows
  induction rows with
  | nil => intro acc; rfl
  | cons r rest ih =>
    intro acc
    rw [foldMaxIf2_cons, foldMinIf2_cons, ih, neg_foldMaxIf]

/-- The game is zero-sum: the value for one side is the negation of the
value for the other. -/
theorem valFor_neg :
    ∀ (f : Nat) (me opp : Cell), me ≠ opp → me ≠ Cell.E → opp ≠ Cell.E →
      ∀ (t : Bool) (b : Board),
        valFor me opp f t b = -(valFor opp me f (!t) b) := by
  intro f
  induction f with
  | zero =>
    intro me opp hnp hmE hoE t b
    cases hw : check_winner b with
    | some w =>
      rw [valFor_winner me opp 0 t b w hw,
        valFor_winner opp me 0 (!t) b w hw]
      have hwE := check_winner_nonE b w hw
      rcases winner_cases w me opp hwE hnp hmE hoE with h1 | h1
      · subst h1
        rw [if_pos rfl, if_neg hnp] <;> try omega
      · subst h1
        rw [if_neg (fun hx => hnp hx.symm), if_pos rfl] <;> try omega
    | none =>
      unfold valFor
      simp only [hw]
      omega
  | succ f ih =>
    intro me opp hnp hmE hoE t b
    cases hw : check_winner b with
    | some w =>
      rw [valFor_winner me opp (f + 1) t b w hw,
        valFor_winner opp me (f + 1) (!t) b w hw]
      have hwE := check_winner_nonE b w hw
      rcases winner_cases w me opp hwE hnp hmE hoE with h1 | h1
      · subst h1
        rw [if_pos rfl, if_neg hnp] <;> try omega
      · subst h1
        rw [if_neg (fun hx => hnp hx.symm), if_pos rfl] <;> try omega
    | none =>
      cases hfull : is_full b with
      | true =>
        rw [valFor_none_full me opp (f + 1) t b hw hfull,
          valFor_none_full opp me (f + 1) (!t) b hw hfull]
        omega
      | false =>
        cases t with
        | true =>
          rw [valFor_step_max me opp f b hw hfull]
          show _ = -(valFor opp me (f + 1) false b)
          rw [valFor_step_min opp me f b hw hfull, neg_foldMinIf2]
          apply foldMaxIf2_congr
          intro r _ c hE
          exact ih me opp hnp hmE hoE false (setCell b r c me)
        | false =>
          rw [valFor_step_min me opp f b hw hfull]
          show _ = -(valFor opp me (f + 1) true b)
          rw [valFor_step_max opp me f b hw hfull, neg_foldMaxIf2]
          apply foldMinIf2_congr
          intro r _ c hE
          exact ih me opp hnp hmE hoE true (setCell b r c opp)

/-- The empty-board game value is zero: tic-tac-toe is a draw under
optimal play, established from the two certified safe strategies and
zero-sumness, with no exhaustive search. -/
theorem valFor_empty_zero :
    valFor Cell.X Cell.O 9 true emptyBoard = 0 := by
  have h1 : 0 ≤ valFor Cell.X Cell.O 9 true emptyBoard :=
    safeCheck_le_valFor Cell.X Cell.O (by decide) (by decide) (by decide)
      (safeStrat Cell.X Cell.O) 9 true emptyBoard (by decide) safeCheck_X
  have h2 : 0 ≤ valFor Cell.O Cell.X 9 false emptyBoard :=
    safeCheck_le_valFor Cell.O Cell.X (by decide) (by decide) (by decide)
      (safeStrat Cell.O Cell.X) 9 false emptyBoard (by decide) safeCheck_O
  have h3 : valFor Cell.X Cell.O 9 true emptyBoard
      = -(valFor Cell.O Cell.X 9 false emptyBoard) :=
    valFor_neg 9 Cell.X Cell.O (by decide) (by decide) (by decide)
      true emptyBoard
  omega

theorem foldMinIf2_le_elem (b : Board) (v : Fin 3 → Fin 3 → Int)
    (r0 c0 : Fin 3) (hE : b r0 c0 = Cell.E) :
    ∀ (rows : List (Fin 3)) (acc : Int), r0 ∈ rows →
      foldMinIf2 b v rows acc ≤ v r0 c0 := by
  intro rows acc hmem
  have h := foldMaxIf2_ge_elem b (fun r c => -(v r c)) r0 c0 hE rows
    (-acc) hmem
  have h2 := neg_foldMinIf2 b v rows acc
  rw [← h2] at h
  dsimp only at h
  omega

theorem runGame_zero (sA sB : Board → Fin 3 × Fin 3) (symA symB : Cell)
    (t : Bool) (b : Board) :
    runGame sA sB symA symB 0 t b = evaluate b := by
  cases t <;> rfl

theorem runGame_terminal (sA sB : Board → Fin 3 × Fin 3) (symA symB : Cell)
    (f : Nat) (t : Bool) (b : Board)
    (h : evaluate b ≠ Outcome.inProgress) :
    runGame sA sB symA symB (f + 1) t b = evaluate b := by
  cases t with
  | true =>
    conv_lhs => unfold runGame
    cases hev : evaluate b with
    | inProgress => exact absurd hev h
    | draw => rfl
    | win w => rfl
  | false =>
    conv_lhs => unfold runGame
    cases hev : evaluate b with
    | inProgress => exact absurd hev h
    | draw => rfl
    | win w => rfl

theorem runGame_stepA (sA sB : Board → Fin 3 × Fin 3) (symA symB : Cell)
    (f : Nat) (b : Board) (hev : evaluate b = Outcome.inProgress) :
    runGame sA sB symA symB (f + 1) true b =
      if b (sA b).1 (sA b).2 = Cell.E then
        runGame sA sB symA symB f false (setCell b (sA b).1 (sA b).2 symA)
      else Outcome.inProgress := by
  conv_lhs => unfold runGame
  rw [hev]

theorem runGame_stepB (sA sB : Board → Fin 3 × Fin 3) (symA symB : Cell)
    (f : Nat) (b : Board) (hev : evaluate b = Outcome.inProgress) :
    runGame sA sB symA symB (f + 1) false b =
      if b (sB b).1 (sB b).2 = Cell.E then
        runGame sA sB symA symB f true (setCell b (sB b).1 (sB b).2 symB)
      else Outcome.inProgress := by
  conv_lhs => unfold runGame
  rw [hev]

theorem evaluate_inProgress_iff (b : Board) :
    evaluate b = Outcome.inProgress ↔
      check_winner b = none ∧ is_full b = false := by
  unfold evaluate
  cases hw : check_winner b with
  | some w => simp
  | none =>
    by_cases hf : is_full b = true
    · rw [if_pos hf]
      simp [hf]
    · have hf2 : is_full b = false := by
        cases h2 : is_full b
        · rfl
        · exact absurd h2 hf
      rw [if_neg hf]
      simp [hf2]

theorem evaluate_win (b : Board) (w : Cell)
    (h : evaluate b = Outcome.win w) : check_winner b = some w := by
  unfold evaluate at h
  cases hw : check_winner b with
  | some w2 =>
    rw [hw] at h
    dsimp only at h
    injection h with h2
    rw [h2]
  | none =>
    rw [hw] at h
    dsimp only at h
    split at h
    · exact Outcome.noConfusion h
    · exact Outcome.noConfusion h

theorem runGame_win_nonE (sA sB : Board → Fin 3 × Fin 3) (symA symB : Cell) :
    ∀ (f : Nat) (t : Bool) (b : Board) (w : Cell),
      runGame sA sB symA symB f t b = Outcome.win w → w ≠ Cell.E := by
  intro f
  induction f with
  | zero =>
    intro t b w h
    rw [runGame_zero] at h
    exact check_winner_nonE b w (evaluate_win b w h)
  | succ f ih =>
    intro t b w h
    cases hev : evaluate b with
    | inProgress =>
      cases t with
      | true =>
        rw [runGame_stepA sA sB symA symB f b hev] at h
        split at h
        · exact ih false _ w h
        · exact Outcome.noConfusion h
      | false =>
        rw [runGame_stepB sA sB symA symB f b hev] at h
        split at h
        · exact ih true _ w h
        · exact Outcome.noConfusion h
    | draw =>
      rw [runGame_terminal sA sB symA symB f t b
        (by rw [hev]; intro hc; exact Outcome.noConfusion hc), hev] at h
      exact Outcome.noConfusion h
    | win w2 =>
      rw [runGame_terminal sA sB symA symB f t b
        (by rw [hev]; intro hc; exact Outcome.noConfusion hc), hev] at h
      injection h with h2
      rw [← h2]
      exact check_winner_nonE b w2 (evaluate_win b w2 hev)

theorem runGame_completes (sA sB : Board → Fin 3 × Fin 3) (symA symB : Cell)
    (hsA : symA ≠ Cell.E) (hsB : symB ≠ Cell.E)
    (hA : ∀ b : Board, evaluate b = Outcome.inProgress →
      b (sA b).1 (sA b).2 = Cell.E)
    (hB : ∀ b : Board, evaluate b = Outcome.inProgress →
      b (sB b).1 (sB b).2 = Cell.E) :
    ∀ (f : Nat) (t : Bool) (b : Board), emptyCount b ≤ f →
      runGame sA sB symA symB f t b ≠ Outcome.inProgress := by
  intro f
  induction f with
  | zero =>
    intro t b h0 hrun
    rw [runGame_zero] at hrun
    have hful : is_full b = true :=
      (is_full_iff_emptyCount b).mpr (Nat.le_zero.mp h0)
    have h2 := ((evaluate_inProgress_iff b).mp hrun).2
    rw [hful] at h2
    exact Bool.noConfusion h2
  | succ f ih =>
    intro t b h hrun
    cases hev : evaluate b with
    | inProgress =>
      cases t with
      | true =>
        rw [runGame_stepA sA sB symA symB f b hev,
          if_pos (hA b hev)] at hrun
        have hec := emptyCount_setCell b (sA b).1 (sA b).2 symA
          (hA b hev) hsA
        exact ih false _ (by omega) hrun
      | false =>
        rw [runGame_stepB sA sB symA symB f b hev,
          if_pos (hB b hev)] at hrun
        have hec := emptyCount_setCell b (sB b).1 (sB b).2 symB
          (hB b hev) hsB
        exact ih true _ (by omega) hrun
    | draw =>
      rw [runGame_terminal sA sB symA symB f t b
        (by rw [hev]; intro hc; exact Outcome.noConfusion hc), hev] at hrun
      exact Outcome.noConfusion hrun
    | win w =>
      rw [runGame_terminal sA sB symA symB f t b
        (by rw [hev]; intro hc; exact Outcome.noConfusion hc), hev] at hrun
      exact Outcome.noConfusion hrun

theorem runGame_swap (sA sB : Board → Fin 3 × Fin 3) (symA symB : Cell) :
    ∀ (f : Nat) (t : Bool) (b : Board),
      runGame sA sB symA symB f t b = runGame sB sA symB symA f (!t) b := by
  intro f
  induction f with
  | zero => intro t b; rw [runGame_zero, runGame_zero]
  | succ f ih =>
    intro t b
    cases hev : evaluate b with
    | inProgress =>
      cases t with
      | true =>
        rw [runGame_stepA sA sB symA symB f b hev]
        show _ = runGame sB sA symB symA (f + 1) false b
        rw [runGame_stepB sB sA symB symA f b hev]
        by_cases hE : b (sA b).1 (sA b).2 = Cell.E
        · rw [if_pos hE, if_pos hE]
          exact ih false _
        · rw [if_neg hE, if_neg hE]
      | false =>
        rw [runGame_stepB sA sB symA symB f b hev]
        show _ = runGame sB sA symB symA (f + 1) true b
        rw [runGame_stepA sB sA symB symA f b hev]
        by_cases hE : b (sB b).1 (sB b).2 = Cell.E
        · rw [if_pos hE, if_pos hE]
          exact ih true _
        · rw [if_neg hE, if_neg hE]
    | draw =>
      rw [runGame_terminal sA sB symA symB f t b
          (by rw [hev]; intro hc; exact Outcome.noConfusion hc),
        runGame_terminal sB sA symB symA f (!t) b
          (by rw [hev]; intro hc; exact Outcome.noConfusion hc)]
    | win w =>
      rw [runGame_terminal sA sB symA symB f t b
          (by rw [hev]; intro hc; exact Outcome.noConfusion hc),
        runGame_terminal sB sA symB symA f (!t) b
          (by rw [hev]; intro hc; exact Outcome.noConfusion hc)]

theorem hardStrat_eq (npc player : Cell) (b : Board) (m : Fin 3 × Fin 3)
    (h : (hardBest npc player b).2 = some m) :
    hardStrat npc player b = m := by
  unfold hardStrat
  rw [hard_move_eq npc player b]
  dsimp only
  rw [h]

theorem hardStrat_legal (npc player : Cell) (b : Board)
    (hful : is_full b = false) :
    b (hardStrat npc player b).1 (hardStrat npc player b).2 = Cell.E := by
  obtain ⟨m, h2, hmE, _, _⟩ := hardBest_is_some npc player b hful
  rw [hardStrat_eq npc player b m h2]
  exact hmE

/-- The hard side, from a position whose game value is not yet lost,
never ends in an opponent win, against any opposing move function. -/
theorem hard_never_loses (npc player : Cell) (hnp : npc ≠ player)
    (hnE : npc ≠ Cell.E) (hpE : player ≠ Cell.E)
    (sOpp : Board → Fin 3 × Fin 3) :
    ∀ (f : Nat) (t : Bool) (b : Board), emptyCount b ≤ f →
      0 ≤ valFor npc player f t b →
      runGame (hardStrat npc player) sOpp npc player f t b ≠
        Outcome.win player := by
  intro f
  induction f with
  | zero =>
    intro t b h0 hval hrun
    rw [runGame_zero] at hrun
    have hw := evaluate_win b player hrun
    rw [valFor_winner npc player 0 t b player hw,
      if_neg (fun hx => hnp hx.symm)] at hval
    omega
  | succ f ih =>
    intro t b h hval hrun
    cases hev : evaluate b with
    | draw =>
      rw [runGame_terminal (hardStrat npc player) sOpp npc player f t b
        (by rw [hev]; intro hc; exact Outcome.noConfusion hc), hev] at hrun
      exact Outcome.noConfusion hrun
    | win w2 =>
      rw [runGame_terminal (hardStrat npc player) sOpp npc player f t b
        (by rw [hev]; intro hc; exact Outcome.noConfusion hc), hev] at hrun
      injection hrun with h2
      rw [h2] at hev
      have hw := evaluate_win b player hev
      rw [valFor_winner npc player (f + 1) t b player hw,
        if_neg (fun hx => hnp hx.symm)] at hval
      omega
    | inProgress =>
      obtain ⟨hwn, hful⟩ := (evaluate_inProgress_iff b).mp hev
      have h9 := emptyCount_le_nine b
      cases t with
      | true =>
        obtain ⟨m, h2, hmE, h1, hmax⟩ := hardBest_is_some npc player b hful
        have hsm := hardStrat_eq npc player b m h2
        rw [runGame_stepA (hardStrat npc player) sOpp npc player f b hev,
          hsm, if_pos hmE] at hrun
        have hstep := valFor_step_max npc player f b hwn hful
        rw [hstep] at hval
        have hex : ∃ r c : Fin 3, b r c = Cell.E ∧
            0 ≤ valFor npc player f false (setCell b r c npc) := by
          by_contra hno
          push_neg at hno
          have hK : ∀ r c : Fin 3, b r c = Cell.E →
              valFor npc player f false (setCell b r c npc) ≤ -1 := by
            intro r c hE
            have := hno r c hE
            omega
          have hle := foldMaxIf2_le b
            (fun r c => valFor npc player f false (setCell b r c npc))
            (-1) hK range3 (-1)
          omega
        obtain ⟨r0, c0, hE0, hv0⟩ := hex
        have hec0 := emptyCount_setCell b r0 c0 npc hE0 hnE
        have hecm := emptyCount_setCell b m.1 m.2 npc hmE hnE
        have hsc : ∀ rc : Fin 3 × Fin 3, hardScore npc player b rc =
            plainVal npc player 9 0 false (setCell b rc.1 rc.2 npc) := by
          intro rc
          unfold hardScore
          exact abVal_root_eq_plain npc player 9 0 false
            (setCell b rc.1 rc.2 npc) (by norm_num)
        have hirr0 := valFor_fuel_irrel npc player hnE hpE f 9 false
          (setCell b r0 c0 npc) (by omega) (by omega)
        rw [hirr0] at hv0
        have hsgn0 := sgn_plainVal npc player hnp hnE hpE 9 0 false
          (setCell b r0 c0 npc) (by omega) (by omega)
        rw [← hsgn0] at hv0
        have hp0 : 0 ≤ plainVal npc player 9 0 false (setCell b r0 c0 npc) := by
          unfold sgn at hv0
          split_ifs at hv0 <;> omega
        have hsc0 : hardScore npc player b (r0, c0) =
            plainVal npc player 9 0 false (setCell b r0 c0 npc) :=
          hsc (r0, c0)
        have hscm := hsc m
        have hmax0 := hmax (r0, c0) hE0
        rw [hsc0, hscm] at hmax0
        have hsgnm := sgn_plainVal npc player hnp hnE hpE 9 0 false
          (setCell b m.1 m.2 npc) (by omega) (by omega)
        have hvm9 : 0 ≤ valFor npc player 9 false (setCell b m.1 m.2 npc) := by
          rw [← hsgnm]
          unfold sgn
          split_ifs <;> omega
        have hirrm := valFor_fuel_irrel npc player hnE hpE f 9 false
          (setCell b m.1 m.2 npc) (by omega) (by omega)
        rw [← hirrm] at hvm9
        exact ih false (setCell b m.1 m.2 npc) (by omega) hvm9 hrun
      | false =>
        rw [runGame_stepB (hardStrat npc player) sOpp npc player f b hev]
          at hrun
        by_cases hE : b (sOpp b).1 (sOpp b).2 = Cell.E
        · rw [if_pos hE] at hrun
          have hstep := valFor_step_min npc player f b hwn hful
          rw [hstep] at hval
          have hle := foldMinIf2_le_elem b
            (fun r c => valFor npc player f true (setCell b r c player))
            (sOpp b).1 (sOpp b).2 hE range3 1 (mem_range3 _)
          dsimp only at hle
          have hec := emptyCount_setCell b (sOpp b).1 (sOpp b).2 player
            hE hpE
          exact ih true _ (by omega) (by omega) hrun
        · rw [if_neg hE] at hrun
          exact Outcome.noConfusion hrun

theorem reach_playMoves :
    ∀ (l : List (Int × Int)) (st st2 : TicTacToe), Reach st →
      playMoves st l = some st2 → Reach st2 := by
  intro l
  induction l with
  | nil =>
    intro st st2 h hp
    unfold playMoves at hp
    injection hp with h2
    rw [← h2]
    exact h
  | cons mv rest ih =>
    intro st st2 h hp
    unfold playMoves at hp
    cases hmk : make_move st mv.1 mv.2 with
    | mk res st3 =>
      rw [hmk] at hp
      cases res with
      | error e =>
        dsimp only at hp
        exact Option.noConfusion hp
      | ok bv =>
        cases bv with
        | false =>
          dsimp only at hp
          exact Option.noConfusion hp
        | true =>
          dsimp only at hp
          exact ih (switch_player st3) st2
            (Reach.step st mv.1 mv.2 st3 h hmk) hp

/-- **C1 (counterexample).** A position reachable by legal play (the game
`X(0,0) O(0,1) X(1,1) O(0,2) X(2,0)`), with the NPC symbol O — the hard
strategy's seat — to move, from which `hard_move` played at every O turn
still ends in a win for the opposing symbol X: the opponent has already
built a double threat, so the claim's guarantee fails on reachable
boards that are already lost. -/
theorem C1_counterexample :
    (∃ st : TicTacToe, Reach st ∧ st.current_player = st.npc_symbol ∧
      st.npc_symbol = Cell.O ∧ st.player_symbol = Cell.X ∧
      st.board = cexBoard) ∧
    runGame (hardStrat Cell.O Cell.X) cexOpp Cell.O Cell.X 9 true cexBoard =
      Outcome.win Cell.X := by
  constructor
  · refine ⟨_, reach_playMoves
      [((0 : Int), (0 : Int)), (0, 1), (1, 1), (0, 2), (2, 0)]
      initGame _ Reach.init rfl, rfl, rfl, rfl, ?_⟩
    funext i j
    fin_cases i <;> fin_cases j <;> decide
  · decide

/-- **C1 (amended).** Playing `hard_move` at every one of the hard side's
turns guarantees the opposing symbol never wins, against any opposing
move function, from any position that is not already lost for the hard
side (its game value is nonnegative) — the proviso the original claim
lacks, since legal play can reach positions that are already lost; and
when both sides play `hard_move` from the empty board the game ends in a
draw. -/
theorem C1_optimal_never_loses :
    (∀ (npc player : Cell), npc ≠ player → npc ≠ Cell.E →
      player ≠ Cell.E →
      ∀ (sOpp : Board → Fin 3 × Fin 3) (f : Nat) (t : Bool) (b : Board),
        emptyCount b ≤ f → 0 ≤ valFor npc player f t b →
        runGame (hardStrat npc player) sOpp npc player f t b ≠
          Outcome.win player) ∧
    runGame (hardStrat Cell.X Cell.O) (hardStrat Cell.O Cell.X)
      Cell.X Cell.O 9 true emptyBoard = Outcome.draw := by
  constructor
  · intro npc player hnp hnE hpE sOpp f t b hf hval
    exact hard_never_loses npc player hnp hnE hpE sOpp f t b hf hval
  · have h1 : runGame (hardStrat Cell.X Cell.O) (hardStrat Cell.O Cell.X)
        Cell.X Cell.O 9 true emptyBoard ≠ Outcome.win Cell.O := by
      apply hard_never_loses Cell.X Cell.O (by decide) (by decide)
        (by decide) (hardStrat Cell.O Cell.X) 9 true emptyBoard (by decide)
      exact le_of_eq valFor_empty_zero.symm
    have h3 : valFor Cell.X Cell.O 9 true emptyBoard
        = -(valFor Cell.O Cell.X 9 false emptyBoard) :=
      valFor_neg 9 Cell.X Cell.O (by decide) (by decide) (by decide)
        true emptyBoard
    have h4 := valFor_empty_zero
    have hOX : 0 ≤ valFor Cell.O Cell.X 9 false emptyBoard := by omega
    have h2 : runGame (hardStrat Cell.O Cell.X) (hardStrat Cell.X Cell.O)
        Cell.O Cell.X 9 false emptyBoard ≠ Outcome.win Cell.X :=
      hard_never_loses Cell.O Cell.X (by decide) (by decide) (by decide)
        (hardStrat Cell.X Cell.O) 9 false emptyBoard (by decide) hOX
    have hswap : runGame (hardStrat Cell.X Cell.O) (hardStrat Cell.O Cell.X)
        Cell.X Cell.O 9 true emptyBoard =
        runGame (hardStrat Cell.O Cell.X) (hardStrat Cell.X Cell.O)
          Cell.O Cell.X 9 false emptyBoard :=
      runGame_swap (hardStrat Cell.X Cell.O) (hardStrat Cell.O Cell.X)
        Cell.X Cell.O 9 true emptyBoard
    have hni : runGame (hardStrat Cell.X Cell.O) (hardStrat Cell.O Cell.X)
        Cell.X Cell.O 9 true emptyBoard ≠ Outcome.inProgress :=
      runGame_completes (hardStrat Cell.X Cell.O) (hardStrat Cell.O Cell.X)
        Cell.X Cell.O (by decide) (by decide)
        (fun b hev => hardStrat_legal Cell.X Cell.O b
          ((evaluate_inProgress_iff b).mp hev).2)
        (fun b hev => hardStrat_legal Cell.O Cell.X b
          ((evaluate_inProgress_iff b).mp hev).2)
        9 true emptyBoard (by decide)
    cases hout : runGame (hardStrat Cell.X Cell.O) (hardStrat Cell.O Cell.X)
        Cell.X Cell.O 9 true emptyBoard with
    | inProgress => exact absurd hout hni
    | draw => rfl
    | win w =>
      exfalso
      have hwE := runGame_win_nonE (hardStrat Cell.X Cell.O)
        (hardStrat Cell.O Cell.X) Cell.X Cell.O 9 true emptyBoard w hout
      cases w with
      | E => exact hwE rfl
      | O => exact h1 hout
      | X =>
        apply h2
        rw [← hswap]
        exact hout

/-- Witness for the amended C1: at a position with one empty cell and the
hard side X to move into an immediate win, the guarantee applies
concretely. -/
theorem C1_optimal_never_loses_witness :
    (Cell.X ≠ Cell.O ∧ Cell.X ≠ Cell.E ∧ Cell.O ≠ Cell.E ∧
      emptyCount c1wBoard ≤ 1 ∧ 0 ≤ valFor Cell.X Cell.O 1 true c1wBoard) ∧
    runGame (hardStrat Cell.X Cell.O) (fun b => ((0 : Fin 3), (0 : Fin 3)))
      Cell.X Cell.O 1 true c1wBoard ≠ Outcome.win Cell.O :=
  ⟨⟨by decide, by decide, by decide, by decide, by decide⟩,
    C1_optimal_never_loses.1 Cell.X Cell.O (by decide) (by decide)
      (by decide) (fun b => ((0 : Fin 3), (0 : Fin 3))) 1 true c1wBoard
      (by decide) (by decide)⟩
